import Mathlib

/-!
Verification of the reference-resolution engine of `gladiunits`
(`gladiunits/data.py` and `gladiunits/dereference.py`).

The Python code operates generically on dataclass instances through
`dataclasses.is_dataclass` / `dataclasses.fields` / `getattr` / `__dict__`,
so the embedding models runtime values as a single inductive `Val` of
"Python values": scalars, `pathlib.Path` values, exact-type `Origin`
symbolic references, tuples, lists, and dataclass instances (a record kind
together with its ordered field dictionary).  Fallible operations return
`Except PyErr` where `PyErr` mirrors the Python exception classes that the
source can raise.
-/

namespace Gladiunits

/-! ### Constants from `data.py` -/

def CATEGORIES : List String :=
  ["Actions", "Buildings", "Cities", "Factions", "Features", "Items",
   "Scenarios", "Traits", "Units", "Upgrades", "Weapons", "WorldParameters"]

/-- `PARSED_CATEGORIES` in `data.py`: the categories with uncommented entries. -/
def PARSED_CATEGORIES : List String :=
  ["Buildings", "Traits", "Units", "Upgrades", "Weapons"]

def FACTIONS : List String :=
  ["AdeptusMechanicus", "AstraMilitarum", "ChaosSpaceMarines", "Drukhari",
   "Eldar", "Necrons", "Neutral", "Orks", "SistersOfBattle", "SpaceMarines",
   "Tau", "Tyranids"]

/-- `_CIRCULAR_REFS` in `data.py` (a Python `set` of path strings; membership
is all that is ever used, so a list is an adequate model). -/
def CIRCULAR_REFS : List String :=
  ["Units/ChaosSpaceMarines/MasterOfPossession",
   "Units/Eldar/FirePrism",
   "Units/Neutral/Artefacts/Damage",
   "Units/Neutral/Artefacts/Healing",
   "Units/Neutral/Artefacts/Hitpoints",
   "Units/Neutral/Artefacts/Loyalty",
   "Units/Neutral/Artefacts/Movement",
   "Units/Neutral/Artefacts/Sight",
   "Units/Neutral/CatachanDevilLair",
   "Units/Neutral/Psychneuein",
   "Units/SpaceMarines/Hunter",
   "Units/SpaceMarines/Predator",
   "Units/SpaceMarines/ThunderfireCannon",
   "Units/SpaceMarines/Vindicator",
   "Units/SpaceMarines/Whirlwind",
   "Traits/ChaosSpaceMarines/GiftOfMutation",
   "Traits/ChaosSpaceMarines/Bloated",
   "Traits/Tau/TargetAcquired",
   "Buildings/AdeptusMechanicus/Construction",
   "Buildings/AstraMilitarum/Construction",
   "Buildings/ChaosSpaceMarines/Construction",
   "Buildings/Drukhari/Construction",
   "Buildings/Eldar/Construction",
   "Buildings/Necrons/Construction",
   "Buildings/Neutral/Construction",
   "Buildings/Orks/Construction",
   "Buildings/SistersOfBattle/Construction",
   "Buildings/SpaceMarines/Construction",
   "Buildings/Tau/Construction",
   "Buildings/Tyranids/Construction"]

/-! ### `pathlib.Path` model

A path is its tuple of parts (`Path.parts`), e.g.
`Path("Units/Neutral/Baneblade.xml")` is `["Units", "Neutral", "Baneblade.xml"]`.
-/

/-- `Path.name` of the path with the given parts (`""` for the empty path,
matching `Path(".").name == ""`). -/
def pname (parts : List String) : String := parts.getLast?.getD ""

/-- Index of the last `'.'` in a character list, if any. -/
def lastDotIdx (cs : List Char) : Option Nat :=
  ((List.range cs.length).filter (fun i => cs.getD i ' ' = '.')).getLast?

/-- `Path.stem` applied to a single path component: CPython computes
`i = name.rfind('.')` and strips the suffix only when `0 < i < len(name) - 1`. -/
def pstem (s : String) : String :=
  match lastDotIdx s.data with
  | some i => if 0 < i ∧ i < s.data.length - 1 then ⟨s.data.take i⟩ else s
  | none => s

/-- `str(path)`: parts joined with `/`. -/
def pathStr (parts : List String) : String := String.intercalate "/" parts

/-- `Origin.category` (`data.py`), translated clause by clause.
`parent` is `path.parent`; `pname` of successive `dropLast`s models the
`.name` of successive `.parent`s.  In the two places where CPython's
`list.index` would raise `ValueError` (category string not among the parts),
the model keeps the current category: those branches are unreachable for the
paths the program builds, and every construction site below still fails there
because the surrounding checks reject such paths. -/
def category (path : List String) : String :=
  let parent := path.dropLast
  if FACTIONS.contains (pname parent) then pname parent.dropLast
  else if FACTIONS.contains (pname parent.dropLast) then
    pname parent.dropLast.dropLast
  else
    let c0 := pname parent
    let c1 :=
      if c0 = "Artefacts" then
        if CATEGORIES.contains (pname parent.dropLast) then pname parent.dropLast
        else pname parent.dropLast.dropLast
      else if c0 = "Items" ∧ pname parent.dropLast = "Traits" then "Traits"
      else c0
    if c1 = pstem (pname path) then
      match path.findIdx? (· = c1) with
      | some idx => if 0 < idx then (path.get? (idx - 1)).getD c1 else c1
      | none => c1
    else c1

/-- `Origin.faction`: the first path part that is a faction name. -/
def faction (path : List String) : Option String :=
  path.find? (fun p => FACTIONS.contains p)

/-- `Origin.category_path`: `Path(*self.path.parts[idx:-1], self.path.stem)`
where `idx` is the index of the derived category among the parts. -/
def category_path (path : List String) : List String :=
  match path.findIdx? (· = category path) with
  | some idx => (path.drop idx).dropLast ++ [pstem (pname path)]
  | none => path

/-! ### Python values -/

/-- The dataclass kinds of `data.py` (other than `Origin` itself, which gets
its own `Val` constructor because `is_unresolved_ref` tests `type(value) is
Origin`). -/
inductive RKind where
  | upgrade | trait | weapon | unit | building
  | upgradeWrapper
  | parameter | effect | categoryEffect | modifier | areaModifier
  | target | action | area | texts
  deriving DecidableEq, Repr

/-- A runtime Python value as seen by the resolution engine. -/
inductive Val where
  | vnone
  | vbool (b : Bool)
  | vint (i : Int)
  | vstr (s : String)
  | vpath (parts : List String)
  | origin (parts : List String)
  | vtuple (items : List Val)
  | vlist (items : List Val)
  | dc (k : RKind) (fs : List (String × Val))

/-- `is_unresolved_ref` (`data.py`): an *exact* `Origin` (dataclass subtypes
such as `Upgrade` fail the `type(value) is Origin` check), whose category
path string is not in `_CIRCULAR_REFS`, and whose category is parsed. -/
def is_unresolved_ref : Val → Bool
  | .origin p =>
    if CIRCULAR_REFS.contains (pathStr (category_path p)) then false
    else PARSED_CATEGORIES.contains (category p)
  | _ => false

/-- Is the value an ordered collection (Python tuple or list)? -/
def isColl : Val → Bool
  | .vtuple _ => true
  | .vlist _ => true
  | _ => false

/-! ### Breadcrumbs -/

/-- `token.isdigit()` for the tokens the engine manipulates (decimal digits). -/
def isDigitStr (s : String) : Bool := s ≠ "" && s.data.all Char.isDigit

/-- Decimal digit rendering worker for `str(i)`; the first argument is fuel
(`n` itself suffices, since the value shrinks by a factor of ten each step). -/
def natTokGo : Nat → Nat → List Char → List Char
  | 0, _, acc => acc
  | fuel + 1, n, acc =>
    if n = 0 then acc else natTokGo fuel (n / 10) (Nat.digitChar (n % 10) :: acc)

/-- Python `str(i)` for the non-negative indices produced by `enumerate`. -/
def natTok (n : Nat) : String := if n = 0 then "0" else ⟨natTokGo n n []⟩

/-- Numeric value of a decimal digit character. -/
def digitVal (c : Char) : Nat := c.toNat - 48

/-- Python `int(token)` for a token that passed `token.isdigit()`. -/
def natOfDigits (cs : List Char) : Nat :=
  cs.foldl (fun a c => a * 10 + digitVal c) 0

/-- `".".join(tokens)`. -/
def joinCrumbs : List String → String
  | [] => ""
  | [t] => t
  | t :: ts => t ++ "." ++ joinCrumbs ts

/-- Worker for Python's `str.split(".")`. -/
def splitChars : List Char → List Char → List (List Char)
  | [], cur => [cur.reverse]
  | c :: rest, cur =>
    if c = '.' then cur.reverse :: splitChars rest []
    else splitChars rest (c :: cur)

/-- Python `str.split(".")`: segments between the dots (`""` for the empty
string, like CPython). -/
def splitCrumbs (s : String) : List String := (splitChars s.data []).map (⟨·⟩)

/-! ### Python dict model (insertion-ordered association list) -/

/-- `d[k] = v` on a Python dict: overwrite in place, else append. -/
def insertD (m : List (String × Val)) (k : String) (v : Val) :
    List (String × Val) :=
  if m.any (fun p => p.1 = k) then m.map (fun p => if p.1 = k then (k, v) else p)
  else m ++ [(k, v)]

/-- `d.get(k)`. -/
def lookupD (m : List (String × Val)) (k : String) : Option Val :=
  (m.find? (fun p => p.1 = k)).map (·.2)

/-- `dataclasses.fields` paired with `getattr`: the ordered field dictionary
of a dataclass instance.  An exact `Origin` is a dataclass with the single
field `path` holding a `pathlib.Path`. -/
def dcFields : Val → Option (List (String × Val))
  | .origin p => some [("path", .vpath p)]
  | .dc _ fs => some fs
  | _ => none

/-! ### Placeholder discovery: `collect_unresolved_refs` (`data.py`)

The Python function carries the breadcrumb as a dot-joined string and
re-splits it on entry of each recursive call.  Its tokens are dataclass
field names (Python identifiers, hence dot-free) and decimal indices, so
splitting is the inverse of joining and the workers below can pass the
token list directly; keys of the collected dict are the same joined
strings the source produces. -/

mutual
/-- The body of `collect_unresolved_refs` for one object: nothing happens
unless the object is a dataclass, in which case its fields are walked.  (For
an exact `Origin` the walk visits the single field `path`, whose `Path`
value is neither a collection nor an eligible reference, contributing
nothing, so the equation below returns the accumulator unchanged.) -/
def collectVal : Val → List String → List (String × Val) → List (String × Val)
  | .dc _ fs, crumbs, acc => collectFields fs crumbs acc
  | _, _, acc => acc

/-- The `for f in fields(obj)` loop: skip the field named `reference`;
iterate ordered collections element-wise; record an eligible unresolved
reference under the dot-joined breadcrumb.  A composite value sitting
directly in a field (not inside a collection) is *not* recursed into. -/
def collectFields :
    List (String × Val) → List String → List (String × Val) → List (String × Val)
  | [], _, acc => acc
  | (n, v) :: rest, crumbs, acc =>
    let acc' :=
      if n = "reference" then acc
      else
        match v with
        | .vtuple items => collectItems items (crumbs ++ [n]) 0 acc
        | .vlist items => collectItems items (crumbs ++ [n]) 0 acc
        | _ =>
          if is_unresolved_ref v then
            insertD acc (joinCrumbs (crumbs ++ [n])) v
          else acc
    collectFields rest crumbs acc'

/-- The `for i, item in enumerate(value)` loop over a tuple/list field. -/
def collectItems :
    List Val → List String → Nat → List (String × Val) → List (String × Val)
  | [], _, _, acc => acc
  | item :: rest, crumbs, i, acc =>
    let acc' :=
      if is_unresolved_ref item then
        insertD acc (joinCrumbs (crumbs ++ [natTok i])) item
      else collectVal item (crumbs ++ [natTok i]) acc
    collectItems rest crumbs (i + 1) acc'
end

/-- `collect_unresolved_refs(obj, crumbs, collected)` with the source's
string-carrying interface (`crumbs.split(".") if crumbs else []`). -/
def collect_unresolved_refs (obj : Val) (crumbs : String)
    (collected : List (String × Val)) : List (String × Val) :=
  collectVal obj (if crumbs = "" then [] else splitCrumbs crumbs) collected

/-! ### Sorting

Python compares strings lexicographically by code point; `sorted` and
`list.sort` are stable.  A stable insertion sort over an executable
code-point comparison models both call sites (`sorted(...)` in the
`unresolved_refs` properties and `lst.sort(key=str)` in `dereference`). -/

/-- Python `s < t` on strings: lexicographic by code point. -/
def strLtChars : List Char → List Char → Bool
  | [], [] => false
  | [], _ :: _ => true
  | _ :: _, [] => false
  | a :: as, b :: bs =>
    if a.toNat < b.toNat then true
    else if b.toNat < a.toNat then false
    else strLtChars as bs

def strLeB (s t : String) : Bool := !strLtChars t.data s.data

/-- Stable insertion into a sorted list. -/
def insertLe {α : Type} (le : α → α → Bool) (x : α) : List α → List α
  | [] => [x]
  | y :: ys => if le x y then x :: y :: ys else y :: insertLe le x ys

/-- Stable insertion sort. -/
def sortLe {α : Type} (le : α → α → Bool) : List α → List α
  | [] => []
  | x :: xs => insertLe le x (sortLe le xs)

/-! ### The `unresolved_refs` / `is_resolved` properties

Every record class repeats the same two properties:
`OrderedDict(sorted((k, v) for k, v in collect_unresolved_refs(self).items()))`
and `not self.unresolved_refs`.  Keys are unique, so `sorted` orders the
pairs by breadcrumb string. -/

def pairLeB (a b : String × Val) : Bool := strLeB a.1 b.1

def unresolved_refs (obj : Val) : List (String × Val) :=
  sortLe pairLeB (collect_unresolved_refs obj "" [])

def is_resolved (obj : Val) : Bool := (unresolved_refs obj).isEmpty

/-! ### Python runtime pieces used by `dereference.py` -/

/-- The Python exceptions the modelled code can raise. -/
inductive PyErr where
  | attributeError (msg : String)
  | typeError (msg : String)
  | indexError (msg : String)
  | valueError (msg : String)
  deriving DecidableEq, Repr

/-- `str(obj)` for the objects the engine keys, looks up or sorts by:
`Origin.__str__` returns `str(self.path)` and every `Origin`-derived record
class inherits it.  Objects without that `__str__` (not keyed by the engine)
fall back to `""`. -/
def strOfVal : Val → String
  | .origin p => pathStr p
  | .vpath p => pathStr p
  | .vstr s => s
  | .dc _ fs =>
    match lookupD fs "path" with
    | some (.vpath p) => pathStr p
    | _ => ""
  | _ => ""

/-- Python truthiness (`if obj:`). -/
def truthy : Val → Bool
  | .vnone => false
  | .vbool b => b
  | .vint i => i ≠ 0
  | .vstr s => s ≠ ""
  | .vlist items => !items.isEmpty
  | .vtuple items => !items.isEmpty
  | .vpath _ => true
  | .origin _ => true
  | .dc _ _ => true

/-- `getattr(obj, name)` for the plain data fields the engine walks
(breadcrumb tokens are dataclass field names, never computed properties). -/
def getattrV (obj : Val) (name : String) : Except PyErr Val :=
  match dcFields obj with
  | some fs =>
    match lookupD fs name with
    | some v => .ok v
    | none => .error (.attributeError ("no attribute " ++ name))
  | none => .error (.attributeError ("no attribute " ++ name))

/-- `obj[i] = v`: Python lists support item assignment, tuples raise
`TypeError`, everything else the walk could reach raises too. -/
def setItemV (obj : Val) (i : Nat) (v : Val) : Except PyErr Val :=
  match obj with
  | .vlist items =>
    if i < items.length then .ok (.vlist (items.set i v))
    else .error (.indexError "list assignment index out of range")
  | .vtuple _ => .error (.typeError "tuple object does not support item assignment")
  | _ => .error (.typeError "object does not support item assignment")

/-- `obj.__dict__[name] = v`: dataclass instances (frozen ones included, which
is the point of the comment in `Dereferencer.resolve`) carry an instance
`__dict__`, and the assignment replaces an existing field or adds a new key.
Breadcrumbs never terminate inside an exact `Origin` (its only field holds a
`Path`, which discovery never collects), so that case is modelled as an
error. -/
def setFieldV (obj : Val) (name : String) (v : Val) : Except PyErr Val :=
  match obj with
  | .dc k fs => .ok (.dc k (insertD fs name v))
  | _ => .error (.attributeError "no instance __dict__")

/-- `int(token)` for a token that passed `token.isdigit()`. -/
def intOfTok (t : String) : Nat := natOfDigits t.data

/-- The `while stack` walk of `Dereferencer.resolve`, phrased over the token
list (`crumbs.split(".")` reversed into a stack and popped left to right):
non-final tokens advance by index for digits and by attribute otherwise; the
final token commits `current_obj[int(token)] = replacer` or
`current_obj.__dict__[token] = replacer`.  In-place mutation of the
sub-object is modelled by rebuilding the spine. -/
def setAtTokens : Val → List String → Val → Except PyErr Val
  | cur, [], _ => .ok cur
  | cur, [t], rep =>
    if isDigitStr t then setItemV cur (intOfTok t) rep else setFieldV cur t rep
  | cur, t :: rest, rep =>
    if isDigitStr t then
      match cur with
      | .vlist items =>
        match items.get? (intOfTok t) with
        | some sub =>
          (setAtTokens sub rest rep).map (fun s => .vlist (items.set (intOfTok t) s))
        | none => .error (.indexError "list index out of range")
      | .vtuple items =>
        match items.get? (intOfTok t) with
        | some sub =>
          (setAtTokens sub rest rep).map (fun s => .vtuple (items.set (intOfTok t) s))
        | none => .error (.indexError "tuple index out of range")
      | _ => .error (.typeError "object is not subscriptable")
    else
      match cur with
      | .dc k fs =>
        match lookupD fs t with
        | some sub =>
          (setAtTokens sub rest rep).map (fun s => .dc k (insertD fs t s))
        | none => .error (.attributeError ("no attribute " ++ t))
      | _ => .error (.attributeError ("no attribute " ++ t))

/-! ### `Dereferencer` (`dereference.py`) -/

/-- `Dereferencer._get_resolved`: of all breadcrumb→placeholder pairs in
`base.unresolved_refs`, keep those whose `str(value)` — the placeholder's
full path string — is a key of the context bound to a truthy object
(`obj = context.get(...); if obj:`). -/
def get_resolved (base : Val) (context : List (String × Val)) :
    List (String × Val) :=
  (unresolved_refs base).foldl
    (fun acc kv =>
      match lookupD context (strOfVal kv.2) with
      | some obj => if truthy obj then insertD acc kv.1 obj else acc
      | none => acc)
    []

/-- `Dereferencer.resolve()`: walk each committed breadcrumb and replace the
addressed field or element; the base is mutated in place, so later walks
start from the already-updated structure. -/
def resolve (base : Val) (context : List (String × Val)) : Except PyErr Val :=
  (get_resolved base context).foldlM
    (fun cur kv => setAtTokens cur (splitCrumbs kv.1) kv.2) base

/-! ### Record constructors (`data.py`)

Dataclass field order is bases-first per the MRO; `__post_init__` chains run
the `Origin` category-membership check first, then the subclass's own
check. -/

/-- `Origin.__post_init__`. -/
def origin_post_init (p : List String) : Except PyErr Unit :=
  if CATEGORIES.contains (category p) then .ok ()
  else .error (.valueError ("unknown category: " ++ category p))

/-- `self.tier in range(1, 11)` (false for any non-int). -/
def tierInRange : Val → Bool
  | .vint i => 1 ≤ i ∧ i ≤ 10
  | _ => false

/-- `Upgrade(...)`: fields `path, name, description, flavor, reference, tier,
dlc, required_upgrades`; `__post_init__` requires category `"Upgrades"` and
a truthy tier to lie in `range(1, 11)`. -/
def mkUpgrade (path : List String) (name description flavor reference tier dlc
    required_upgrades : Val) : Except PyErr Val := do
  origin_post_init path
  if category path ≠ "Upgrades" then
    throw (.valueError ("not a path to an upgrade .xml: " ++ pathStr path))
  if truthy tier ∧ ¬tierInRange tier then
    throw (.valueError "tier must be an integer between 1 and 10")
  pure (.dc .upgrade
    [("path", .vpath path), ("name", name), ("description", description),
     ("flavor", flavor), ("reference", reference), ("tier", tier),
     ("dlc", dlc), ("required_upgrades", required_upgrades)])

/-- `Trait(...)`: fields `path, name, description, flavor, reference,
modifiers, required_upgrade, type, target_conditions, max_rank, stacking`;
`__post_init__` requires category `"Traits"`. -/
def mkTrait (path : List String) (name description flavor reference modifiers
    required_upgrade type target_conditions max_rank stacking : Val) :
    Except PyErr Val := do
  origin_post_init path
  if category path ≠ "Traits" then
    throw (.valueError ("not a path to a trait .xml: " ++ pathStr path))
  pure (.dc .trait
    [("path", .vpath path), ("name", name), ("description", description),
     ("flavor", flavor), ("reference", reference), ("modifiers", modifiers),
     ("required_upgrade", required_upgrade), ("type", type),
     ("target_conditions", target_conditions), ("max_rank", max_rank),
     ("stacking", stacking)])

/-- `Weapon(...)`: fields `path, name, description, flavor, reference,
modifiers, required_upgrade, traits, type, target, count, enabled`;
`__post_init__` requires category `"Weapons"`. -/
def mkWeapon (path : List String) (name description flavor reference modifiers
    required_upgrade traits type target count enabled : Val) :
    Except PyErr Val := do
  origin_post_init path
  if category path ≠ "Weapons" then
    throw (.valueError ("not a path to a weapon .xml: " ++ pathStr path))
  pure (.dc .weapon
    [("path", .vpath path), ("name", name), ("description", description),
     ("flavor", flavor), ("reference", reference), ("modifiers", modifiers),
     ("required_upgrade", required_upgrade), ("traits", traits),
     ("type", type), ("target", target), ("count", count),
     ("enabled", enabled)])

/-- `Unit(...)`: fields `path, name, description, flavor, reference,
modifiers, traits, actions, required_upgrade, group_size, weapons, dlc,
producer`; `__post_init__` requires category `"Units"`. -/
def mkUnit (path : List String) (name description flavor reference modifiers
    traits actions required_upgrade group_size weapons dlc producer : Val) :
    Except PyErr Val := do
  origin_post_init path
  if category path ≠ "Units" then
    throw (.valueError ("not a path to an unit .xml: " ++ pathStr path))
  pure (.dc .unit
    [("path", .vpath path), ("name", name), ("description", description),
     ("flavor", flavor), ("reference", reference), ("modifiers", modifiers),
     ("traits", traits), ("actions", actions),
     ("required_upgrade", required_upgrade), ("group_size", group_size),
     ("weapons", weapons), ("dlc", dlc), ("producer", producer)])

/-- `Building(...)`: fields `path, name, description, flavor, modifiers,
actions, traits, required_upgrade` (no `reference` field — `Building` does
not mix in `ReferenceMixin`).  `Building` defines no `__post_init__` of its
own, so only the inherited `Origin` check (category must be *some* known
category) runs: there is no `"Buildings"`-specific validation. -/
def mkBuilding (path : List String) (name description flavor modifiers actions
    traits required_upgrade : Val) : Except PyErr Val := do
  origin_post_init path
  pure (.dc .building
    [("path", .vpath path), ("name", name), ("description", description),
     ("flavor", flavor), ("modifiers", modifiers), ("actions", actions),
     ("traits", traits), ("required_upgrade", required_upgrade)])

/-- The keys of `Parameter.TYPES` (`data.py`), in source order. -/
def ParameterTYPES : List String :=
  ["action", "add", "addMax", "addMin", "base", "beginOnDisappear",
   "building", "charges", "consumedAction", "consumedActionPoints",
   "consumedMovement", "cooldown", "cooldownMin", "cooldownMax",
   "cooldownRemaining", "cooldownScalesWithPace", "costScalesWithPace",
   "count", "countMax", "disableable", "duration", "durationMin",
   "durationMax", "elite", "enabled", "equal", "feature", "greater",
   "interfaceSound", "less", "levelMin", "levelMax", "levelUpPriority",
   "match", "max", "min", "minMax", "minMin", "mul", "mulMax", "mulMin",
   "name", "passive", "psychicPower", "radius", "rank", "rankMax", "range",
   "reference", "removeOnSourceDeath", "requiredActionPoints",
   "requiredMovement", "requiredUpgrade", "shoutString", "slotName", "unit",
   "unitType", "usableInTransport", "visible", "weapon", "weaponSlotName",
   "weaponSlotNames"]

/-- `Parameter(type, value)`: `__post_init__` raises `TypeError` for a type
name that is not a key of the fixed `TYPES` registry. -/
def mkParameter (type : String) (value : Val) : Except PyErr Val :=
  if ParameterTYPES.contains type then
    .ok (.dc .parameter [("type", .vstr type), ("value", value)])
  else .error (.typeError ("unrecognized parameter type: " ++ type))

/-! ### The worklist driver `dereference` (`dereference.py`) -/

/-- Python class names, as they appear in exception messages. -/
def className : RKind → String
  | .upgrade => "Upgrade"
  | .trait => "Trait"
  | .weapon => "Weapon"
  | .unit => "Unit"
  | .building => "Building"
  | .upgradeWrapper => "UpgradeWrapper"
  | .parameter => "Parameter"
  | .effect => "Effect"
  | .categoryEffect => "CategoryEffect"
  | .modifier => "Modifier"
  | .areaModifier => "AreaModifier"
  | .target => "Target"
  | .action => "Action"
  | .area => "Area"
  | .texts => "TextsMixin"

/-- The dataclass kinds deriving from `Origin`, which therefore inherit the
`category_path` property. -/
def originKinds : List RKind := [.upgrade, .trait, .weapon, .unit, .building]

/-- `obj.category_path`: available on `Origin` and its record subclasses; on
anything else (in particular a plain-dataclass `UpgradeWrapper`) the lookup
raises `AttributeError` with the Python message naming the class. -/
def categoryPathOf : Val → Except PyErr (List String)
  | .origin p => .ok (category_path p)
  | .dc k fs =>
    if k ∈ originKinds then
      match lookupD fs "path" with
      | some (.vpath p) => .ok (category_path p)
      | _ => .error (.attributeError "path")
    else
      .error (.attributeError
        ("'" ++ className k ++ "' object has no attribute 'category_path'"))
  | _ => .error (.attributeError "'object' has no attribute 'category_path'")

/-- Does `needle` start `hay`? -/
def subAt : List Char → List Char → Bool
  | [], _ => true
  | _ :: _, [] => false
  | a :: n, b :: h => a = b && subAt n h

/-- Does `needle` occur contiguously in `hay`? -/
def hasSub (needle : List Char) : List Char → Bool
  | [] => subAt needle []
  | c :: rest => subAt needle (c :: rest) || hasSub needle rest

/-- Python `needle in haystack` on strings. -/
def containsSub (needle hay : String) : Bool := hasSub needle.data hay.data

/-- `UpgradeWrapper.to_upgrade` (`data.py`): rebuild the wrapped `Upgrade`
with the wrapper's `required_upgrades` list frozen into a tuple; the
`Upgrade` constructor re-runs its `__post_init__` validation. -/
def to_upgrade (obj : Val) : Except PyErr Val := do
  let up ← getattrV obj "upgrade"
  let pathv ← getattrV up "path"
  let p ← match pathv with
    | .vpath p => pure p
    | _ => throw (.typeError "path is not a Path")
  let name ← getattrV up "name"
  let description ← getattrV up "description"
  let flavor ← getattrV up "flavor"
  let reference ← getattrV up "reference"
  let tier ← getattrV up "tier"
  let dlc ← getattrV up "dlc"
  let reqs ← getattrV obj "required_upgrades"
  let items ← match reqs with
    | .vlist its => pure its
    | .vtuple its => pure its
    | _ => throw (.typeError "required_upgrades is not iterable")
  mkUpgrade p name description flavor reference tier dlc (.vtuple items)

/-- The `except AttributeError` arm of the fully-resolved promotion:
`resolved[str(obj.upgrade.category_path)] = obj.to_upgrade()`. -/
def wrapperPromote (obj : Val) : Except PyErr (String × Val) := do
  let conv ← to_upgrade obj
  let up ← getattrV obj "upgrade"
  let cp ← categoryPathOf up
  pure (pathStr cp, conv)

/-- `ref.category` for a collected placeholder (always an exact `Origin`,
since only those pass `is_unresolved_ref`). -/
def refCategory : Val → String
  | .origin p => category p
  | _ => ""

/-- Result of running the `while stack` loop: the final resolved context, an
uncaught Python exception, or `spin` when the supplied fuel is exhausted
(the source loop would still be running). -/
inductive LoopRes where
  | done (ctx : List (String × Val))
  | err (e : PyErr)
  | spin

/-- One-obj-at-a-time translation of the `while stack` loop of `dereference`:
`stack = deque(unresolved[::-1])` popped from the right processes the
original list front to back, and `appendleft` re-queues a stuck record at
the far end, so the deque is modelled as a list popped at the head with
re-queuing at the tail.  A fully resolved record is promoted under its
category path (an `UpgradeWrapper`, which lacks that attribute, is caught by
the `except AttributeError` arm and converted); a record whose remaining
placeholders all belong to `ignored_categories` is promoted as-is — with the
`category_path` access *not* protected by any try/except. -/
def derefLoop (igs : List String) : Nat → List (String × Val) → List Val → LoopRes
  | _, ctx, [] => .done ctx
  | 0, _, _ => .spin
  | fuel + 1, ctx, obj :: rest =>
    match resolve obj ctx with
    | .error e => .err e
    | .ok obj' =>
      if is_resolved obj' then
        match categoryPathOf obj' with
        | .ok cp => derefLoop igs fuel (insertD ctx (pathStr cp) obj') rest
        | .error (.attributeError msg) =>
          if containsSub "UpgradeWrapper" msg then
            match wrapperPromote obj' with
            | .ok kv => derefLoop igs fuel (insertD ctx kv.1 kv.2) rest
            | .error e => .err e
          else .err (.attributeError msg)
        | .error e => .err e
      else
        if !igs.isEmpty &&
            (unresolved_refs obj').all (fun kv => igs.contains (refCategory kv.2)) then
          match categoryPathOf obj' with
          | .ok cp => derefLoop igs fuel (insertD ctx (pathStr cp) obj') rest
          | .error e => .err e
        else derefLoop igs fuel ctx (rest ++ [obj'])

/-- `isinstance(v, <record class>)`: the five record classes are unrelated
to one another, so the `if/elif` chain tests the exact kind. -/
def isKind (k : RKind) : Val → Bool
  | .dc k' _ => k' = k
  | _ => false

def valLeB (a b : Val) : Bool := strLeB (strOfVal a) (strOfVal b)

/-- `lst.sort(key=str)`. -/
def sortByStr (l : List Val) : List Val := sortLe valLeB l

/-- The five output lists of `dereference`. -/
structure DerefOut where
  upgrades : List Val
  traits : List Val
  weapons : List Val
  units : List Val
  buildings : List Val

/-- The epilogue of `dereference`: one pass over `resolved.values()` with an
`isinstance` chain (anything that is no Upgrade/Trait/Weapon/Unit falls into
the buildings list), then each list sorted with `key=str`. -/
def partitionOut (ctx : List (String × Val)) : DerefOut :=
  let vs := ctx.map (·.2)
  { upgrades := sortByStr (vs.filter (isKind .upgrade))
    traits := sortByStr (vs.filter (isKind .trait))
    weapons := sortByStr (vs.filter (isKind .weapon))
    units := sortByStr (vs.filter (isKind .unit))
    buildings := sortByStr (vs.filter (fun v =>
      !(isKind .upgrade v || isKind .trait v || isKind .weapon v ||
        isKind .unit v))) }

/-- Overall result of `dereference`. -/
inductive DerefRes where
  | done (out : DerefOut)
  | err (e : PyErr)
  | spin

/-- `dereference(resolved, unresolved, *ignored_categories)`, with explicit
fuel for the `while stack` loop. -/
def dereference (fuel : Nat) (resolved : List (String × Val))
    (unresolved : List Val) (igs : List String) : DerefRes :=
  match derefLoop igs fuel resolved unresolved with
  | .done ctx => .done (partitionOut ctx)
  | .err e => .err e
  | .spin => .spin

/-- Does an `Except` carry a successful result? -/
def isOkE {α : Type} (e : Except PyErr α) : Bool :=
  match e with
  | .ok _ => true
  | .error _ => false

/-! ### Example records used by concrete witnesses -/

/-- A fully resolved `Upgrade` at `Upgrades/A`. -/
def exA : Val := .dc .upgrade
  [("path", .vpath ["Upgrades", "A"]), ("name", .vstr "A"),
   ("description", .vnone), ("flavor", .vnone), ("reference", .vnone),
   ("tier", .vint 1), ("dlc", .vnone), ("required_upgrades", .vtuple [])]

/-- A fully resolved `Upgrade` at `Upgrades/B` (no prerequisites yet). -/
def exB : Val := .dc .upgrade
  [("path", .vpath ["Upgrades", "B"]), ("name", .vstr "B"),
   ("description", .vnone), ("flavor", .vnone), ("reference", .vnone),
   ("tier", .vint 2), ("dlc", .vnone), ("required_upgrades", .vtuple [])]

/-- An `UpgradeWrapper` around `exB` whose `required_upgrades` list holds an
unresolved reference to `Upgrades/A`. -/
def exW : Val := .dc .upgradeWrapper
  [("upgrade", exB), ("required_upgrades", .vlist [.origin ["Upgrades", "A"]])]

/-- The `Upgrade` that `to_upgrade` rebuilds from `exW` once its reference to
`Upgrades/A` has been replaced by `exA`: `exB`'s own fields with the wrapper's
`required_upgrades` list frozen into a tuple. -/
def convB : Val := .dc .upgrade
  [("path", .vpath ["Upgrades", "B"]), ("name", .vstr "B"),
   ("description", .vnone), ("flavor", .vnone), ("reference", .vnone),
   ("tier", .vint 2), ("dlc", .vnone), ("required_upgrades", .vtuple [exA])]

/-- An `UpgradeWrapper` around `exB` whose `required_upgrades` list holds an
unresolved reference to the absent `Upgrades/Zed`. -/
def exW2 : Val := .dc .upgradeWrapper
  [("upgrade", exB), ("required_upgrades", .vlist [.origin ["Upgrades", "Zed"]])]

/-- A record holding an eligible unresolved reference nested inside a
composite (`Target`-like) value sitting directly in a field: the reference is
reachable through the record's fields but only through a non-collection
composite. -/
def exNested : Val := .dc .weapon
  [("target", .dc .target
    [("conditions", .vtuple [.origin ["Upgrades", "P"]])])]

/-- Field dict of a `Unit`-like record holding an eligible placeholder whose
full path string (`Upgrades/Foo.xml`, what `str(value)` yields) differs from
its canonical category path string (`Upgrades/Foo`, the suffix is stripped by
`Path.stem`). -/
def c3Fields : List (String × Val) :=
  [("path", .vpath ["Units", "U"]), ("name", .vstr "U"),
   ("slot", .origin ["Upgrades", "Foo.xml"])]

def c3Base : Val := .dc .unit c3Fields

/-- A fully resolved `Upgrade` at `Upgrades/Foo`, a candidate replacement. -/
def c3Rep : Val := .dc .upgrade
  [("path", .vpath ["Upgrades", "Foo"]), ("name", .vstr "Foo"),
   ("description", .vnone), ("flavor", .vnone), ("reference", .vnone),
   ("tier", .vint 1), ("dlc", .vnone), ("required_upgrades", .vtuple [])]

/-- A context keyed — as `get_context` keys it — by the replacement's
canonical category path string. -/
def c3Ctx : List (String × Val) := [("Upgrades/Foo", c3Rep)]

/-- A context keyed by the placeholder's full path string, the key
`_get_resolved` actually looks up. -/
def c3Ctx2 : List (String × Val) := [("Upgrades/Foo.xml", c3Rep)]

/-- `c3Base` after the placeholder in its `slot` field is replaced. -/
def c3Res : Val := .dc .unit
  [("path", .vpath ["Units", "U"]), ("name", .vstr "U"), ("slot", c3Rep)]

/-- A record holding an eligible placeholder that no context will ever match
(a dangling reference): the worklist loop re-queues it forever. -/
def c1Bad : Val := .dc .unit
  [("path", .vpath ["Units", "V"]), ("name", .vstr "V"),
   ("slot", .origin ["Upgrades", "Nowhere"])]

/-- A record whose single placeholder is unmatched but belongs to an ignored
category, so a stage ignoring `Upgrades` promotes it as-is. -/
def c1Ign : Val := .dc .unit
  [("path", .vpath ["Units", "W"]), ("name", .vstr "W"),
   ("slot", .origin ["Upgrades", "Nowhere"])]

/-! ## Specification-level view of placeholder discovery

`collect_unresolved_refs` threads a mutable dict and dot-joined breadcrumb
strings.  To reason about it, a compositional variant `collectSpec` returns
the entries as (token-list address, value) pairs, and `valueAt` reads the
value a token-list address denotes.  The two views are proved to coincide
with the source translation below. -/

/-- A usable dataclass field name: Python identifiers are nonempty, contain
no dot (so joined breadcrumbs split back apart) and are not strings of
digits (so the walk in `resolve` treats them as attributes, not indices). -/
def goodName (s : String) : Bool :=
  !(s = "") && !s.data.contains '.' && !isDigitStr s

mutual
/-- Well-formedness of a value tree: every dataclass node has distinct,
usable field names.  All records built by the parser satisfy this (dataclass
fields are distinct Python identifiers). -/
def wfVal : Val → Bool
  | .dc _ fs => wfFields fs
  | .vlist items => wfItems items
  | .vtuple items => wfItems items
  | _ => true

def wfFields : List (String × Val) → Bool
  | [] => true
  | (n, v) :: rest =>
    goodName n && !(rest.any (fun p => p.1 = n)) && wfVal v && wfFields rest

def wfItems : List Val → Bool
  | [] => true
  | v :: rest => wfVal v && wfItems rest
end

/-- Read the value a token-list address denotes (digit tokens index into
collections, name tokens select dataclass fields), mirroring the read side
of the walk in `Dereferencer.resolve`. -/
def valueAt : Val → List String → Option Val
  | v, [] => some v
  | v, t :: rest =>
    if isDigitStr t then
      match v with
      | .vlist items => (items.get? (intOfTok t)).bind (fun s => valueAt s rest)
      | .vtuple items => (items.get? (intOfTok t)).bind (fun s => valueAt s rest)
      | _ => none
    else
      match v with
      | .dc _ fs => (lookupD fs t).bind (fun s => valueAt s rest)
      | _ => none

mutual
/-- Compositional form of placeholder discovery: the entries contributed by
one object, with token-list addresses relative to it. -/
def collectSpec : Val → List (List String × Val)
  | .dc _ fs => collectSpecFields fs
  | _ => []

def collectSpecFields : List (String × Val) → List (List String × Val)
  | [] => []
  | (n, v) :: rest =>
    (if n = "reference" then []
     else
       match v with
       | .vtuple items =>
         (collectSpecItems items 0).map (fun e => (n :: e.1, e.2))
       | .vlist items =>
         (collectSpecItems items 0).map (fun e => (n :: e.1, e.2))
       | _ => if is_unresolved_ref v then [([n], v)] else [])
    ++ collectSpecFields rest

def collectSpecItems : List Val → Nat → List (List String × Val)
  | [], _ => []
  | item :: rest, i =>
    (if is_unresolved_ref item then [([natTok i], item)]
     else (collectSpec item).map (fun e => (natTok i :: e.1, e.2)))
    ++ collectSpecItems rest (i + 1)
end

/-- The entries contributed by a single field (relative addresses). -/
def fieldEntries (n : String) (v : Val) : List (List String × Val) :=
  if n = "reference" then []
  else
    match v with
    | .vtuple items => (collectSpecItems items 0).map (fun e => (n :: e.1, e.2))
    | .vlist items => (collectSpecItems items 0).map (fun e => (n :: e.1, e.2))
    | _ => if is_unresolved_ref v then [([n], v)] else []

/-- The entries contributed by a single collection element at index `i`. -/
def itemEntries (item : Val) (i : Nat) : List (List String × Val) :=
  if is_unresolved_ref item then [([natTok i], item)]
  else (collectSpec item).map (fun e => (natTok i :: e.1, e.2))

/-- Declarative description of which (address, placeholder) pairs discovery
yields: walk every field except `reference`; a non-collection field value is
recorded when eligible and otherwise *not* entered; collection elements are
recorded when eligible and recursed into otherwise. -/
inductive SpecMem : Val → List String → Val → Prop where
  | fieldDirect {k : RKind} {fs : List (String × Val)} {n : String} {v : Val} :
      (n, v) ∈ fs → n ≠ "reference" → isColl v = false →
      is_unresolved_ref v = true → SpecMem (.dc k fs) [n] v
  | itemDirect {k : RKind} {fs : List (String × Val)} {n : String}
      {cv : Val} {items : List Val} {i : Nat} {item : Val} :
      (n, cv) ∈ fs → n ≠ "reference" →
      (cv = .vtuple items ∨ cv = .vlist items) →
      items.get? i = some item → is_unresolved_ref item = true →
      SpecMem (.dc k fs) [n, natTok i] item
  | itemNested {k : RKind} {fs : List (String × Val)} {n : String}
      {cv : Val} {items : List Val} {i : Nat} {item : Val}
      {addr : List String} {v : Val} :
      (n, cv) ∈ fs → n ≠ "reference" →
      (cv = .vtuple items ∨ cv = .vlist items) →
      items.get? i = some item → is_unresolved_ref item = false →
      SpecMem item addr v →
      SpecMem (.dc k fs) (n :: natTok i :: addr) v

/-- Tokens fit for breadcrumbs: no dot inside. -/
def dotFree (t : String) : Prop := '.' ∉ t.data

/-- A well-formed breadcrumb address: nonempty, all tokens dot-free. -/
def addrOK (addr : List String) : Prop := addr ≠ [] ∧ ∀ t ∈ addr, dotFree t

/-- A token is canonical when, if it is a digit string, it is the canonical
decimal rendering of its numeric value (as `str(i)` produces). -/
def canonTok (t : String) : Prop := isDigitStr t = true → t = natTok (intOfTok t)

/-- All tokens of an address canonical. -/
def canonAddr (addr : List String) : Prop := ∀ t ∈ addr, canonTok t

/-- Two addresses are independent when neither is a prefix of the other (the
positions they denote are disjoint). -/
def addrIndep (u v : List String) : Prop :=
  (¬ ∃ t, v = u ++ t) ∧ (¬ ∃ t, u = v ++ t)

/-- The committed context match for one placeholder: `context.get(str(value))`
followed by the `if obj:` truthiness gate of `_get_resolved`. -/
def matchCtx (ctx : List (String × Val)) (r : Val) : Option Val :=
  (lookupD ctx (strOfVal r)).bind (fun rep => if truthy rep then some rep else none)

/-- Specification-level form of `Dereferencer._get_resolved`: keep, in order,
exactly the placeholder pairs whose context match commits. -/
def resolvedOf (base : Val) (ctx : List (String × Val)) : List (String × Val) :=
  (unresolved_refs base).filterMap
    (fun kv => (matchCtx ctx kv.2).map (fun rep => (kv.1, rep)))

/-- Success predicate of the `while stack` walk: the breadcrumb can actually
be committed.  Mirrors `setAtTokens` step for step: non-final digit tokens
index into a list or tuple, non-final name tokens read a record field, the
final token writes a list slot in bounds (a tuple would raise `TypeError` on
item assignment) or a record field. -/
def canAssign : Val → List String → Bool
  | _, [] => true
  | cur, [t] =>
    if isDigitStr t then
      match cur with
      | .vlist items => intOfTok t < items.length
      | _ => false
    else
      match cur with
      | .dc _ _ => true
      | _ => false
  | cur, t :: rest =>
    if isDigitStr t then
      match cur with
      | .vlist items =>
        match items.get? (intOfTok t) with
        | some sub => canAssign sub rest
        | none => false
      | .vtuple items =>
        match items.get? (intOfTok t) with
        | some sub => canAssign sub rest
        | none => false
      | _ => false
    else
      match cur with
      | .dc _ fs =>
        match lookupD fs t with
        | some sub => canAssign sub rest
        | none => false
      | _ => false

/-- A record fit to serve as a committed replacement: fully resolved,
well-formed and an actual dataclass record (hence truthy, not an ordered
collection and not an eligible placeholder). -/
def settledRec (v : Val) : Prop :=
  is_resolved v = true ∧ wfVal v = true ∧ ∃ k fs, v = .dc k fs

/-- One pass of the `while stack` body of `dereference`, record by record,
never re-queuing: resolve against the context built so far, then promote —
a fully resolved record under its category path (an `UpgradeWrapper` through
the `except AttributeError` conversion), a stuck record with only
ignored-category placeholders as-is.  The fallback arms (a failing resolve
or promotion, or a stuck record the loop would re-queue) skip the record;
the one-pass theorems' hypotheses rule them out. -/
def onePassCtx (igs : List String) : List (String × Val) → List Val →
    List (String × Val)
  | ctx, [] => ctx
  | ctx, obj :: rest =>
    match resolve obj ctx with
    | .error _ => onePassCtx igs ctx rest
    | .ok w =>
      if is_resolved w then
        match categoryPathOf w with
        | .ok cp => onePassCtx igs (insertD ctx (pathStr cp) w) rest
        | .error (.attributeError msg) =>
          if containsSub "UpgradeWrapper" msg then
            match wrapperPromote w with
            | .ok kv => onePassCtx igs (insertD ctx kv.1 kv.2) rest
            | .error _ => onePassCtx igs ctx rest
          else onePassCtx igs ctx rest
        | .error _ => onePassCtx igs ctx rest
      else
        if !igs.isEmpty &&
            (unresolved_refs w).all (fun kv => igs.contains (refCategory kv.2)) then
          match categoryPathOf w with
          | .ok cp => onePassCtx igs (insertD ctx (pathStr cp) w) rest
          | .error _ => onePassCtx igs ctx rest
        else onePassCtx igs ctx rest

/-- The per-record hypothesis of the amended convergence claim: when this
record's turn comes and `avail` is the context at that moment, it is either
an identity-path record whose placeholders each either match a settled
context record through a committable breadcrumb or are unmatched with an
ignored category, or an `UpgradeWrapper` with every placeholder matched and
a working promotion. -/
def goodRecord (igs : List String) (avail : List (String × Val)) (obj : Val) :
    Prop :=
  (∃ k fs p, obj = .dc k fs ∧ k ∈ originKinds ∧
    lookupD fs "path" = some (.vpath p) ∧ wfVal obj = true ∧
    ∀ kv ∈ unresolved_refs obj,
      (canAssign obj (splitCrumbs kv.1) = true ∧
        ∃ rep, matchCtx avail kv.2 = some rep ∧ settledRec rep) ∨
      (igs ≠ [] ∧ matchCtx avail kv.2 = none ∧
        igs.contains (refCategory kv.2) = true)) ∨
  (∃ fs, obj = .dc .upgradeWrapper fs ∧ wfVal obj = true ∧
    (∀ kv ∈ unresolved_refs obj,
      canAssign obj (splitCrumbs kv.1) = true ∧
      ∃ rep, matchCtx avail kv.2 = some rep ∧ settledRec rep) ∧
    (∀ w, resolve obj avail = .ok w →
      ∃ kv2, wrapperPromote w = .ok kv2 ∧ is_resolved kv2.2 = true))

/-! ## Lemmas about the sorting model -/

theorem strLtChars_cons_eq (x y : Char) (xs ys : List Char) :
    strLtChars (x :: xs) (y :: ys) =
      if x.toNat < y.toNat then true
      else if y.toNat < x.toNat then false
      else strLtChars xs ys := rfl

theorem strLtChars_asymm :
    ∀ a b, strLtChars a b = true → strLtChars b a = false := by
  intro a
  induction a with
  | nil => intro b h; cases b <;> simp_all [strLtChars]
  | cons x xs ih =>
    intro b h
    cases b with
    | nil => simp [strLtChars] at h
    | cons y ys =>
      rw [strLtChars_cons_eq] at h
      rw [strLtChars_cons_eq]
      rcases Nat.lt_trichotomy x.toNat y.toNat with h1 | h1 | h1
      · rw [if_neg (by omega), if_pos (by omega)]
      · rw [if_neg (by omega), if_neg (by omega)] at h
        rw [if_neg (by omega), if_neg (by omega)]
        exact ih ys h
      · rw [if_neg (by omega), if_pos h1] at h
        cases h

theorem strLtChars_trans :
    ∀ a b c, strLtChars a b = true → strLtChars b c = true →
      strLtChars a c = true := by
  intro a
  induction a with
  | nil =>
    intro b c hab hbc
    cases b <;> cases c <;> simp_all [strLtChars]
  | cons x xs ih =>
    intro b c hab hbc
    cases b with
    | nil => simp [strLtChars] at hab
    | cons y ys =>
      cases c with
      | nil => simp [strLtChars] at hbc
      | cons z zs =>
        rw [strLtChars_cons_eq] at hab hbc
        rw [strLtChars_cons_eq]
        rcases Nat.lt_trichotomy x.toNat y.toNat with h1 | h1 | h1 <;>
          rcases Nat.lt_trichotomy y.toNat z.toNat with h2 | h2 | h2
        all_goals first
          | (rw [if_pos (by omega)])
          | (rw [if_neg (by omega), if_pos (by omega)] at hab; cases hab)
          | (rw [if_neg (by omega), if_pos (by omega)] at hbc; cases hbc)
          | (rw [if_neg (by omega), if_neg (by omega)] at hab hbc ⊢
             exact ih ys zs hab hbc)

theorem strLtChars_conn :
    ∀ a b, strLtChars a b = false → strLtChars b a = false → a = b := by
  intro a
  induction a with
  | nil => intro b h _; cases b <;> simp_all [strLtChars]
  | cons x xs ih =>
    intro b hab hba
    cases b with
    | nil => simp [strLtChars] at hba
    | cons y ys =>
      rw [strLtChars_cons_eq] at hab hba
      rcases Nat.lt_trichotomy x.toNat y.toNat with h1 | h1 | h1
      · rw [if_pos h1] at hab; cases hab
      · rw [if_neg (by omega), if_neg (by omega)] at hab hba
        have hxy : x = y := by
          have hv : x.val = y.val := UInt32.toNat.inj h1
          cases x; cases y; simp_all
        rw [hxy, ih ys hab hba]
      · rw [if_pos h1] at hba; cases hba

theorem strLeB_total (s t : String) : strLeB s t = true ∨ strLeB t s = true := by
  simp only [strLeB, Bool.not_eq_true']
  by_cases h : strLtChars t.data s.data = true
  · right
    simpa using strLtChars_asymm _ _ h
  · left
    simpa using h

theorem strLeB_trans {a b c : String} (h1 : strLeB a b = true)
    (h2 : strLeB b c = true) : strLeB a c = true := by
  simp only [strLeB, Bool.not_eq_true'] at h1 h2 ⊢
  by_cases hca : strLtChars c.data a.data = true
  · by_cases hab : strLtChars a.data b.data = true
    · have := strLtChars_trans _ _ _ hca hab
      rw [this] at h2; cases h2
    · have hba : b.data = a.data := strLtChars_conn _ _ h1 (by simpa using hab)
      rw [hba] at h2
      rw [h2] at hca; cases hca
  · simpa using hca

theorem insertLe_perm {α : Type} (le : α → α → Bool) (x : α) (l : List α) :
    (insertLe le x l).Perm (x :: l) := by
  induction l with
  | nil => simp [insertLe]
  | cons y ys ih =>
    simp only [insertLe]
    by_cases h : le x y = true
    · simp [h]
    · simp only [h]
      exact ((ih.cons y).trans (List.Perm.swap x y ys)).symm.symm

theorem sortLe_perm {α : Type} (le : α → α → Bool) (l : List α) :
    (sortLe le l).Perm l := by
  induction l with
  | nil => simp [sortLe]
  | cons x xs ih => exact (insertLe_perm le x (sortLe le xs)).trans (ih.cons x)

theorem mem_sortLe {α : Type} (le : α → α → Bool) (l : List α) (a : α) :
    a ∈ sortLe le l ↔ a ∈ l := (sortLe_perm le l).mem_iff

theorem insertLe_pairwise {α : Type} (le : α → α → Bool)
    (htot : ∀ a b, le a b = true ∨ le b a = true)
    (htrans : ∀ a b c, le a b = true → le b c = true → le a c = true)
    (x : α) (l : List α) (h : l.Pairwise (fun a b => le a b = true)) :
    (insertLe le x l).Pairwise (fun a b => le a b = true) := by
  induction l with
  | nil => simp [insertLe]
  | cons y ys ih =>
    simp only [insertLe]
    rcases List.pairwise_cons.mp h with ⟨hy, hys⟩
    by_cases hxy : le x y = true
    · rw [if_pos hxy]
      refine List.pairwise_cons.mpr ⟨?_, h⟩
      intro b hb
      rcases List.mem_cons.mp hb with rfl | hb'
      · exact hxy
      · exact htrans _ _ _ hxy (hy _ hb')
    · rw [if_neg hxy]
      refine List.pairwise_cons.mpr ⟨?_, ih hys⟩
      intro b hb
      have hmem := (insertLe_perm le x ys).mem_iff.mp hb
      rcases List.mem_cons.mp hmem with rfl | hb'
      · rcases htot y b with hyb | hby
        · exact hyb
        · exact absurd hby hxy
      · exact hy _ hb'

theorem sortLe_pairwise {α : Type} (le : α → α → Bool)
    (htot : ∀ a b, le a b = true ∨ le b a = true)
    (htrans : ∀ a b c, le a b = true → le b c = true → le a c = true)
    (l : List α) : (sortLe le l).Pairwise (fun a b => le a b = true) := by
  induction l with
  | nil => simp [sortLe]
  | cons x xs ih => exact insertLe_pairwise le htot htrans x (sortLe le xs) ih

theorem insertLe_ne_nil {α : Type} (le : α → α → Bool) (x : α) (l : List α) :
    insertLe le x l ≠ [] := by
  cases l with
  | nil => simp [insertLe]
  | cons y ys =>
    simp only [insertLe]
    by_cases h : le x y = true <;> simp [h]

theorem sortLe_eq_nil_iff {α : Type} (le : α → α → Bool) (l : List α) :
    sortLe le l = [] ↔ l = [] := by
  cases l with
  | nil => simp [sortLe]
  | cons x xs => simp [sortLe, insertLe_ne_nil]

/-- `is_resolved` is precisely emptiness of the collected placeholder map. -/
theorem is_resolved_iff_collect_nil (obj : Val) :
    is_resolved obj = true ↔ collect_unresolved_refs obj "" [] = [] := by
  simp [is_resolved, unresolved_refs, List.isEmpty_iff, sortLe_eq_nil_iff]

theorem valLeB_total (a b : Val) : valLeB a b = true ∨ valLeB b a = true :=
  strLeB_total _ _

theorem valLeB_trans (a b c : Val) (h1 : valLeB a b = true)
    (h2 : valLeB b c = true) : valLeB a c = true := strLeB_trans h1 h2

theorem sortByStr_sorted (l : List Val) :
    (sortByStr l).Pairwise (fun a b => valLeB a b = true) :=
  sortLe_pairwise valLeB valLeB_total valLeB_trans l

theorem mem_sortByStr (l : List Val) (v : Val) : v ∈ sortByStr l ↔ v ∈ l :=
  mem_sortLe valLeB l v

theorem contains_iff_memS (l : List String) (a : String) :
    l.contains a = true ↔ a ∈ l := by simp

/-! ### Plain equation lemmas for the nested-match definitions

The equation lemmas Lean generates for definitions whose bodies match on a
nested value carry disequality side conditions; these unconditional shapes
are more convenient. -/

theorem collectSpec_dc (k : RKind) (fs : List (String × Val)) :
    collectSpec (.dc k fs) = collectSpecFields fs := rfl

theorem collectSpec_other (v : Val) (hv : ∀ k fs, v ≠ .dc k fs) :
    collectSpec v = [] := by
  cases v with
  | dc k fs => exact absurd rfl (hv k fs)
  | vnone => rfl
  | vbool b => rfl
  | vint i => rfl
  | vstr s => rfl
  | vpath p => rfl
  | origin p => rfl
  | vtuple items => rfl
  | vlist items => rfl

theorem csf_nil : collectSpecFields [] = [] := rfl

theorem csf_cons_tuple (n : String) (items : List Val)
    (rest : List (String × Val)) :
    collectSpecFields ((n, .vtuple items) :: rest)
      = (if n = "reference" then []
         else (collectSpecItems items 0).map (fun e => (n :: e.1, e.2)))
        ++ collectSpecFields rest := rfl

theorem csf_cons_list (n : String) (items : List Val)
    (rest : List (String × Val)) :
    collectSpecFields ((n, .vlist items) :: rest)
      = (if n = "reference" then []
         else (collectSpecItems items 0).map (fun e => (n :: e.1, e.2)))
        ++ collectSpecFields rest := rfl

theorem csf_cons_other (n : String) (v : Val) (rest : List (String × Val))
    (hv : isColl v = false) :
    collectSpecFields ((n, v) :: rest)
      = (if n = "reference" then []
         else if is_unresolved_ref v then [([n], v)] else [])
        ++ collectSpecFields rest := by
  cases v with
  | vtuple items => simp [isColl] at hv
  | vlist items => simp [isColl] at hv
  | vnone => rfl
  | vbool b => rfl
  | vint i => rfl
  | vstr s => rfl
  | vpath p => rfl
  | origin p => rfl
  | dc k fs => rfl

theorem csi_nil (i : Nat) : collectSpecItems [] i = [] := rfl

theorem csi_cons (item : Val) (rest : List Val) (i : Nat) :
    collectSpecItems (item :: rest) i
      = (if is_unresolved_ref item then [([natTok i], item)]
         else (collectSpec item).map (fun e => (natTok i :: e.1, e.2)))
        ++ collectSpecItems rest (i + 1) := rfl

theorem collectVal_dc (k : RKind) (fs : List (String × Val))
    (crumbs : List String) (acc : List (String × Val)) :
    collectVal (.dc k fs) crumbs acc = collectFields fs crumbs acc := rfl

theorem collectVal_other (v : Val) (hv : ∀ k fs, v ≠ .dc k fs)
    (crumbs : List String) (acc : List (String × Val)) :
    collectVal v crumbs acc = acc := by
  cases v with
  | dc k fs => exact absurd rfl (hv k fs)
  | vnone => rfl
  | vbool b => rfl
  | vint i => rfl
  | vstr s => rfl
  | vpath p => rfl
  | origin p => rfl
  | vtuple items => rfl
  | vlist items => rfl

theorem cf_nil (crumbs : List String) (acc : List (String × Val)) :
    collectFields [] crumbs acc = acc := rfl

theorem cf_cons_tuple (n : String) (items : List Val)
    (rest : List (String × Val)) (crumbs : List String)
    (acc : List (String × Val)) :
    collectFields ((n, .vtuple items) :: rest) crumbs acc
      = collectFields rest crumbs
          (if n = "reference" then acc
           else collectItems items (crumbs ++ [n]) 0 acc) := rfl

theorem cf_cons_list (n : String) (items : List Val)
    (rest : List (String × Val)) (crumbs : List String)
    (acc : List (String × Val)) :
    collectFields ((n, .vlist items) :: rest) crumbs acc
      = collectFields rest crumbs
          (if n = "reference" then acc
           else collectItems items (crumbs ++ [n]) 0 acc) := rfl

theorem cf_cons_other (n : String) (v : Val) (rest : List (String × Val))
    (crumbs : List String) (acc : List (String × Val)) (hv : isColl v = false) :
    collectFields ((n, v) :: rest) crumbs acc
      = collectFields rest crumbs
          (if n = "reference" then acc
           else if is_unresolved_ref v then
             insertD acc (joinCrumbs (crumbs ++ [n])) v
           else acc) := by
  cases v with
  | vtuple items => simp [isColl] at hv
  | vlist items => simp [isColl] at hv
  | vnone => rfl
  | vbool b => rfl
  | vint i => rfl
  | vstr s => rfl
  | vpath p => rfl
  | origin p => rfl
  | dc k fs => rfl

theorem ci_nil (crumbs : List String) (i : Nat) (acc : List (String × Val)) :
    collectItems [] crumbs i acc = acc := rfl

theorem ci_cons (item : Val) (rest : List Val) (crumbs : List String) (i : Nat)
    (acc : List (String × Val)) :
    collectItems (item :: rest) crumbs i acc
      = collectItems rest crumbs (i + 1)
          (if is_unresolved_ref item then
             insertD acc (joinCrumbs (crumbs ++ [natTok i])) item
           else collectVal item (crumbs ++ [natTok i]) acc) := rfl

theorem wfFields_cons (n : String) (v : Val) (rest : List (String × Val)) :
    wfFields ((n, v) :: rest)
      = (goodName n && !(rest.any (fun p => p.1 = n)) && wfVal v &&
         wfFields rest) := rfl

theorem wfItems_cons (v : Val) (rest : List Val) :
    wfItems (v :: rest) = (wfVal v && wfItems rest) := rfl

theorem wfVal_dc (k : RKind) (fs : List (String × Val)) :
    wfVal (.dc k fs) = wfFields fs := rfl

theorem wfVal_tuple (items : List Val) :
    wfVal (.vtuple items) = wfItems items := rfl

theorem wfVal_list (items : List Val) :
    wfVal (.vlist items) = wfItems items := rfl

/-! ### Decimal index tokens -/

theorem natTokGo_eq_digits (fuel : Nat) :
    ∀ n acc, n ≤ fuel →
      natTokGo fuel n acc = ((Nat.digits 10 n).map Nat.digitChar).reverse ++ acc := by
  induction fuel with
  | zero =>
    intro n acc h
    have : n = 0 := Nat.le_zero.mp h
    subst this
    simp [natTokGo]
  | succ fuel ih =>
    intro n acc h
    by_cases hn : n = 0
    · subst hn; simp [natTokGo]
    · have hpos : 0 < n := Nat.pos_of_ne_zero hn
      rw [natTokGo, if_neg hn]
      have hdiv : n / 10 ≤ fuel := by
        have : n / 10 < n := Nat.div_lt_self hpos (by omega)
        omega
      rw [ih (n / 10) _ hdiv]
      rw [Nat.digits_def' (by omega : (1:ℕ) < 10) hpos]
      simp

theorem natTok_data (n : Nat) :
    (natTok n).data = if n = 0 then ['0']
      else ((Nat.digits 10 n).map Nat.digitChar).reverse := by
  by_cases hn : n = 0
  · subst hn; rfl
  · rw [if_neg hn, natTok, if_neg hn, natTokGo_eq_digits n n [] (Nat.le_refl n)]
    simp

theorem digitChar_isDigit {d : Nat} (h : d < 10) :
    (Nat.digitChar d).isDigit = true := by interval_cases d <;> decide

theorem digitChar_ne_dot {d : Nat} (h : d < 10) : Nat.digitChar d ≠ '.' := by
  interval_cases d <;> decide

theorem digitVal_digitChar {d : Nat} (h : d < 10) :
    digitVal (Nat.digitChar d) = d := by interval_cases d <;> decide

theorem natTok_all_digits (n : Nat) :
    (natTok n).data.all Char.isDigit = true := by
  rw [natTok_data]
  by_cases hn : n = 0
  · rw [if_pos hn]; decide
  · rw [if_neg hn]
    rw [List.all_eq_true]
    intro c hc
    rw [List.mem_reverse, List.mem_map] at hc
    obtain ⟨d, hd, rfl⟩ := hc
    exact digitChar_isDigit (Nat.digits_lt_base (show (1:ℕ) < 10 by omega) hd)

theorem natTok_ne_nil (n : Nat) : (natTok n).data ≠ [] := by
  rw [natTok_data]
  by_cases hn : n = 0
  · rw [if_pos hn]; simp
  · rw [if_neg hn]
    simp only [ne_eq, List.reverse_eq_nil_iff, List.map_eq_nil_iff]
    exact Nat.digits_ne_nil_iff_ne_zero.mpr hn

theorem isDigitStr_natTok (n : Nat) : isDigitStr (natTok n) = true := by
  have h1 : (natTok n) ≠ "" := by
    intro h
    exact natTok_ne_nil n (by rw [h])
  rw [isDigitStr, decide_eq_true h1, Bool.true_and]
  exact natTok_all_digits n

theorem natTok_no_dot (n : Nat) : '.' ∉ (natTok n).data := by
  rw [natTok_data]
  by_cases hn : n = 0
  · rw [if_pos hn]; decide
  · rw [if_neg hn]
    intro hc
    rw [List.mem_reverse, List.mem_map] at hc
    obtain ⟨d, hd, hdc⟩ := hc
    have := Nat.digits_lt_base (show (1:ℕ) < 10 by omega) hd
    exact digitChar_ne_dot this hdc

theorem natOfDigits_reverse_digits (L : List Nat) (hL : ∀ d ∈ L, d < 10) :
    ∀ a, ((L.map Nat.digitChar).reverse).foldl (fun x c => x * 10 + digitVal c) a
      = a * 10 ^ L.length + Nat.ofDigits 10 L := by
  induction L with
  | nil => intro a; simp [Nat.ofDigits]
  | cons d L' ih =>
    intro a
    have hd : d < 10 := hL d (List.mem_cons_self d L')
    have hL' : ∀ x ∈ L', x < 10 := fun x hx => hL x (List.mem_cons_of_mem d hx)
    simp only [List.map_cons, List.reverse_cons, List.foldl_append, List.foldl_cons,
      List.foldl_nil]
    rw [ih hL' a, Nat.ofDigits_cons, digitVal_digitChar hd, List.length_cons]
    ring

theorem intOfTok_natTok (n : Nat) : intOfTok (natTok n) = n := by
  rw [intOfTok, natTok_data]
  by_cases hn : n = 0
  · rw [if_pos hn, hn]; decide
  · rw [if_neg hn, natOfDigits]
    rw [natOfDigits_reverse_digits (Nat.digits 10 n)
      (fun d hd => Nat.digits_lt_base (by omega) hd) 0]
    simp [Nat.ofDigits_digits]

theorem natTok_inj {m n : Nat} (h : natTok m = natTok n) : m = n := by
  have := intOfTok_natTok m
  rw [h, intOfTok_natTok] at this
  exact this.symm

/-! ### Splitting is the inverse of joining (for dot-free tokens) -/

theorem splitChars_no_dot (cs : List Char) (hcs : '.' ∉ cs) :
    ∀ cur, splitChars cs cur = [cur.reverse ++ cs] := by
  induction cs with
  | nil => intro cur; simp [splitChars]
  | cons c rest ih =>
    intro cur
    have hc : ¬ c = '.' := fun h => hcs (h ▸ List.mem_cons_self c rest)
    have hrest : '.' ∉ rest := fun h => hcs (List.mem_cons_of_mem c h)
    rw [splitChars, if_neg hc, ih hrest]
    simp

theorem splitChars_dot_split (cs ds : List Char) (hcs : '.' ∉ cs) :
    ∀ cur, splitChars (cs ++ '.' :: ds) cur = (cur.reverse ++ cs) :: splitChars ds [] := by
  induction cs with
  | nil => intro cur; simp [splitChars]
  | cons c rest ih =>
    intro cur
    have hc : ¬ c = '.' := fun h => hcs (h ▸ List.mem_cons_self c rest)
    have hrest : '.' ∉ rest := fun h => hcs (List.mem_cons_of_mem c h)
    rw [List.cons_append, splitChars, if_neg hc, ih hrest]
    simp

theorem splitCrumbs_joinCrumbs :
    ∀ ts : List String, ts ≠ [] → (∀ t ∈ ts, dotFree t) →
      splitCrumbs (joinCrumbs ts) = ts := by
  intro ts
  induction ts with
  | nil => intro h; exact absurd rfl h
  | cons t rest ih =>
    intro _ hdf
    cases rest with
    | nil =>
      rw [joinCrumbs, splitCrumbs,
        splitChars_no_dot t.data (hdf t (List.mem_singleton_self t)) []]
      simp
    | cons u rest' =>
      have hjoin : (joinCrumbs (t :: u :: rest')) = t ++ "." ++ joinCrumbs (u :: rest') := rfl
      rw [hjoin, splitCrumbs]
      have hdata : (t ++ "." ++ joinCrumbs (u :: rest')).data
          = t.data ++ '.' :: (joinCrumbs (u :: rest')).data := by
        rw [String.data_append, String.data_append]
        have hdot : ("." : String).data = ['.'] := rfl
        rw [hdot, List.append_assoc, List.singleton_append]
      rw [hdata, splitChars_dot_split t.data _
        (hdf t (List.mem_cons_self t _)) []]
      have hrec : splitCrumbs (joinCrumbs (u :: rest')) = u :: rest' :=
        ih (by intro h; cases h) (fun x hx => hdf x (List.mem_cons_of_mem t hx))
      rw [splitCrumbs] at hrec
      simp only [List.map_cons, List.reverse_nil, List.nil_append]
      rw [hrec]

theorem joinCrumbs_inj {u v : List String} (hu : u ≠ []) (hv : v ≠ [])
    (hdu : ∀ t ∈ u, dotFree t) (hdv : ∀ t ∈ v, dotFree t)
    (h : joinCrumbs u = joinCrumbs v) : u = v := by
  have h1 := splitCrumbs_joinCrumbs u hu hdu
  have h2 := splitCrumbs_joinCrumbs v hv hdv
  rw [← h1, ← h2, h]

/-! ## Claims -/

/-! ### Address facts about `collectSpec` -/

theorem contains_iff_memC (l : List Char) (a : Char) :
    l.contains a = true ↔ a ∈ l := by simp

theorem goodName_dotFree {s : String} (h : goodName s = true) : dotFree s := by
  simp only [goodName, Bool.and_eq_true, Bool.not_eq_true'] at h
  intro hmem
  rw [(contains_iff_memC _ _).mpr hmem] at h
  exact absurd h.1.2 (by simp)

theorem goodName_not_digit {s : String} (h : goodName s = true) :
    isDigitStr s = false := by
  simp only [goodName, Bool.and_eq_true, Bool.not_eq_true'] at h
  exact h.2

theorem goodName_ne_natTok {s : String} (h : goodName s = true) (n : Nat) :
    s ≠ natTok n := by
  intro heq
  have h1 := goodName_not_digit h
  rw [heq, isDigitStr_natTok n] at h1
  cases h1

theorem addrIndep_cons {u v : List String} {c : String} (h : addrIndep u v) :
    addrIndep (c :: u) (c :: v) := by
  obtain ⟨h1, h2⟩ := h
  constructor
  · rintro ⟨t, ht⟩
    injection ht with _ ht'
    exact h1 ⟨t, ht'⟩
  · rintro ⟨t, ht⟩
    injection ht with _ ht'
    exact h2 ⟨t, ht'⟩

theorem addrIndep_of_head_ne {a b : String} {u v : List String} (h : a ≠ b) :
    addrIndep (a :: u) (b :: v) := by
  constructor
  · rintro ⟨t, ht⟩
    injection ht with h1 _
    exact h h1.symm
  · rintro ⟨t, ht⟩
    injection ht with h1 _
    exact h h1

theorem addrIndep_ne {u v : List String} (h : addrIndep u v) : u ≠ v := by
  intro heq
  exact h.1 ⟨[], by rw [heq, List.append_nil]⟩

mutual
theorem specPkgVal (obj : Val) (hwf : wfVal obj = true) :
    (∀ e ∈ collectSpec obj, addrOK e.1) ∧
    (collectSpec obj).Pairwise (fun e1 e2 => addrIndep e1.1 e2.1) := by
  cases obj with
  | dc k fs =>
    rw [wfVal] at hwf
    rw [collectSpec_dc]
    obtain ⟨h1, h2⟩ := specPkgFields fs hwf
    exact ⟨fun e he => (h1 e he).1, h2⟩
  | vnone => exact ⟨fun e he => (by cases he), List.Pairwise.nil⟩
  | vbool b => exact ⟨fun e he => (by cases he), List.Pairwise.nil⟩
  | vint i => exact ⟨fun e he => (by cases he), List.Pairwise.nil⟩
  | vstr s => exact ⟨fun e he => (by cases he), List.Pairwise.nil⟩
  | vpath p => exact ⟨fun e he => (by cases he), List.Pairwise.nil⟩
  | origin p => exact ⟨fun e he => (by cases he), List.Pairwise.nil⟩
  | vtuple items => exact ⟨fun e he => (by cases he), List.Pairwise.nil⟩
  | vlist items => exact ⟨fun e he => (by cases he), List.Pairwise.nil⟩

theorem specPkgFields (fs : List (String × Val)) (hwf : wfFields fs = true) :
    (∀ e ∈ collectSpecFields fs, addrOK e.1 ∧
      ∃ n tail, e.1 = n :: tail ∧ n ∈ fs.map Prod.fst ∧ goodName n = true) ∧
    (collectSpecFields fs).Pairwise (fun e1 e2 => addrIndep e1.1 e2.1) := by
  cases fs with
  | nil => exact ⟨fun e he => (by cases he), List.Pairwise.nil⟩
  | cons hd rest =>
    obtain ⟨n, v⟩ := hd
    rw [wfFields_cons] at hwf
    simp only [Bool.and_eq_true, Bool.not_eq_true'] at hwf
    obtain ⟨⟨⟨hgn, hnd⟩, hv⟩, hrest⟩ := hwf
    have hnodup : ∀ p ∈ rest, ¬ p.1 = n := by
      intro p hp hpn
      rw [List.any_eq_false] at hnd
      exact absurd (by simp [hpn]) (hnd p hp)
    obtain ⟨ihr1, ihr2⟩ := specPkgFields rest hrest
    -- the entries contributed by the head field, with their common shape
    have key : ∃ head : List (List String × Val),
        collectSpecFields ((n, v) :: rest) = head ++ collectSpecFields rest ∧
        (∀ e ∈ head, addrOK e.1 ∧ ∃ tail, e.1 = n :: tail) ∧
        head.Pairwise (fun e1 e2 => addrIndep e1.1 e2.1) := by
      by_cases hcoll : isColl v = true
      · cases v with
        | vtuple items =>
          rw [wfVal_tuple] at hv
          obtain ⟨ih1, ih2⟩ := specPkgItems items 0 hv
          refine ⟨_, csf_cons_tuple n items rest, ?_, ?_⟩
          · intro e he
            by_cases href : n = "reference"
            · rw [if_pos href] at he; cases he
            · rw [if_neg href] at he
              rw [List.mem_map] at he
              obtain ⟨e0, he0, rfl⟩ := he
              obtain ⟨⟨hne, hdf⟩, _⟩ := ih1 e0 he0
              refine ⟨⟨by simp, ?_⟩, e0.1, rfl⟩
              intro t ht
              rcases List.mem_cons.mp ht with rfl | ht'
              · exact goodName_dotFree hgn
              · exact hdf t ht'
          · by_cases href : n = "reference"
            · rw [if_pos href]; exact List.Pairwise.nil
            · rw [if_neg href]
              rw [List.pairwise_map]
              refine ih2.imp ?_
              intro e1 e2 hind
              exact addrIndep_cons hind
        | vlist items =>
          rw [wfVal_list] at hv
          obtain ⟨ih1, ih2⟩ := specPkgItems items 0 hv
          refine ⟨_, csf_cons_list n items rest, ?_, ?_⟩
          · intro e he
            by_cases href : n = "reference"
            · rw [if_pos href] at he; cases he
            · rw [if_neg href] at he
              rw [List.mem_map] at he
              obtain ⟨e0, he0, rfl⟩ := he
              obtain ⟨⟨hne, hdf⟩, _⟩ := ih1 e0 he0
              refine ⟨⟨by simp, ?_⟩, e0.1, rfl⟩
              intro t ht
              rcases List.mem_cons.mp ht with rfl | ht'
              · exact goodName_dotFree hgn
              · exact hdf t ht'
          · by_cases href : n = "reference"
            · rw [if_pos href]; exact List.Pairwise.nil
            · rw [if_neg href]
              rw [List.pairwise_map]
              refine ih2.imp ?_
              intro e1 e2 hind
              exact addrIndep_cons hind
        | vnone => simp [isColl] at hcoll
        | vbool b => simp [isColl] at hcoll
        | vint i => simp [isColl] at hcoll
        | vstr s => simp [isColl] at hcoll
        | vpath p => simp [isColl] at hcoll
        | origin p => simp [isColl] at hcoll
        | dc k fs2 => simp [isColl] at hcoll
      · rw [Bool.not_eq_true] at hcoll
        refine ⟨_, csf_cons_other n v rest hcoll, ?_, ?_⟩
        · intro e he
          by_cases href : n = "reference"
          · rw [if_pos href] at he; cases he
          · rw [if_neg href] at he
            by_cases helig : is_unresolved_ref v = true
            · rw [if_pos helig] at he
              rcases List.mem_singleton.mp he with rfl
              refine ⟨⟨by simp, ?_⟩, [], rfl⟩
              intro t ht
              rcases List.mem_singleton.mp ht with rfl
              exact goodName_dotFree hgn
            · rw [if_neg helig] at he; cases he
        · by_cases href : n = "reference"
          · rw [if_pos href]; exact List.Pairwise.nil
          · rw [if_neg href]
            by_cases helig : is_unresolved_ref v = true
            · rw [if_pos helig]; simp
            · rw [if_neg helig]; exact List.Pairwise.nil
    obtain ⟨head, heq, hhead1, hhead2⟩ := key
    rw [heq]
    constructor
    · intro e he
      rcases List.mem_append.mp he with hh | ht
      · obtain ⟨hok, tail, htail⟩ := hhead1 e hh
        exact ⟨hok, n, tail, htail, by simp, hgn⟩
      · obtain ⟨hok, m, tail, htail, hm, hgm⟩ := ihr1 e ht
        refine ⟨hok, m, tail, htail, ?_, hgm⟩
        simp only [List.map_cons, List.mem_cons]
        right
        exact hm
    · rw [List.pairwise_append]
      refine ⟨hhead2, ihr2, ?_⟩
      intro a ha b hb
      obtain ⟨-, taila, hta⟩ := hhead1 a ha
      obtain ⟨-, m, tailb, htb, hmb, -⟩ := ihr1 b hb
      rw [hta, htb]
      refine addrIndep_of_head_ne ?_
      intro hheads
      rw [List.mem_map] at hmb
      obtain ⟨p, hp, hpm⟩ := hmb
      exact hnodup p hp (by rw [hpm, ← hheads])

theorem specPkgItems (items : List Val) (i : Nat) (hwf : wfItems items = true) :
    (∀ e ∈ collectSpecItems items i, addrOK e.1 ∧
      ∃ j tail, e.1 = natTok j :: tail ∧ i ≤ j) ∧
    (collectSpecItems items i).Pairwise (fun e1 e2 => addrIndep e1.1 e2.1) := by
  cases items with
  | nil => exact ⟨fun e he => (by cases he), List.Pairwise.nil⟩
  | cons item rest =>
    rw [wfItems_cons] at hwf
    simp only [Bool.and_eq_true] at hwf
    obtain ⟨hitem, hrest⟩ := hwf
    obtain ⟨ihr1, ihr2⟩ := specPkgItems rest (i + 1) hrest
    have key : ∃ head : List (List String × Val),
        collectSpecItems (item :: rest) i = head ++ collectSpecItems rest (i + 1) ∧
        (∀ e ∈ head, addrOK e.1 ∧ ∃ tail, e.1 = natTok i :: tail) ∧
        head.Pairwise (fun e1 e2 => addrIndep e1.1 e2.1) := by
      by_cases helig : is_unresolved_ref item = true
      · refine ⟨_, by rw [csi_cons, if_pos helig], ?_, ?_⟩
        · intro e he
          rcases List.mem_singleton.mp he with rfl
          refine ⟨⟨by simp, ?_⟩, [], rfl⟩
          intro t ht
          rcases List.mem_singleton.mp ht with rfl
          exact natTok_no_dot i
        · simp
      · obtain ⟨ih1, ih2⟩ := specPkgVal item hitem
        refine ⟨_, by rw [csi_cons, if_neg helig], ?_, ?_⟩
        · intro e he
          rw [List.mem_map] at he
          obtain ⟨e0, he0, rfl⟩ := he
          obtain ⟨hne, hdf⟩ := ih1 e0 he0
          refine ⟨⟨by simp, ?_⟩, e0.1, rfl⟩
          intro t ht
          rcases List.mem_cons.mp ht with rfl | ht'
          · exact natTok_no_dot i
          · exact hdf t ht'
        · rw [List.pairwise_map]
          refine ih2.imp ?_
          intro e1 e2 hind
          exact addrIndep_cons hind
    obtain ⟨head, heq, hhead1, hhead2⟩ := key
    rw [heq]
    constructor
    · intro e he
      rcases List.mem_append.mp he with hh | ht
      · obtain ⟨hok, tail, htail⟩ := hhead1 e hh
        exact ⟨hok, i, tail, htail, Nat.le_refl i⟩
      · obtain ⟨hok, j, tail, htail, hj⟩ := ihr1 e ht
        exact ⟨hok, j, tail, htail, by omega⟩
    · rw [List.pairwise_append]
      refine ⟨hhead2, ihr2, ?_⟩
      intro a ha b hb
      obtain ⟨-, taila, hta⟩ := hhead1 a ha
      obtain ⟨-, j, tailb, htb, hj⟩ := ihr1 b hb
      rw [hta, htb]
      refine addrIndep_of_head_ne ?_
      intro hheads
      have : i = j := natTok_inj hheads
      omega
end

/-! ### The faithful collector equals a fold of dict inserts over `collectSpec` -/

theorem csf_cons_entries (n : String) (v : Val) (rest : List (String × Val)) :
    collectSpecFields ((n, v) :: rest)
      = fieldEntries n v ++ collectSpecFields rest := by
  cases v <;> rfl

theorem csi_cons_entries (item : Val) (rest : List Val) (i : Nat) :
    collectSpecItems (item :: rest) i
      = itemEntries item i ++ collectSpecItems rest (i + 1) := rfl

mutual
theorem collectVal_foldl (obj : Val) (crumbs : List String)
    (acc : List (String × Val)) :
    collectVal obj crumbs acc
      = (collectSpec obj).foldl
          (fun a e => insertD a (joinCrumbs (crumbs ++ e.1)) e.2) acc := by
  cases obj with
  | dc k fs =>
    rw [collectVal_dc, collectSpec_dc]
    exact collectFields_foldl fs crumbs acc
  | vnone => rfl
  | vbool b => rfl
  | vint i => rfl
  | vstr s => rfl
  | vpath p => rfl
  | origin p => rfl
  | vtuple items => rfl
  | vlist items => rfl

theorem collectFields_foldl (fs : List (String × Val)) (crumbs : List String)
    (acc : List (String × Val)) :
    collectFields fs crumbs acc
      = (collectSpecFields fs).foldl
          (fun a e => insertD a (joinCrumbs (crumbs ++ e.1)) e.2) acc := by
  cases fs with
  | nil => rfl
  | cons hd rest =>
    obtain ⟨n, v⟩ := hd
    rw [csf_cons_entries, List.foldl_append]
    cases v with
    | vtuple items =>
      by_cases href : n = "reference"
      · simp only [fieldEntries, if_pos href, List.foldl_nil]
        rw [cf_cons_tuple, if_pos href]
        exact collectFields_foldl rest crumbs acc
      · simp only [fieldEntries, if_neg href]
        rw [cf_cons_tuple, if_neg href,
          collectFields_foldl rest crumbs (collectItems items (crumbs ++ [n]) 0 acc),
          List.foldl_map, collectItems_foldl items (crumbs ++ [n]) 0 acc]
        simp only [List.append_assoc, List.singleton_append]
    | vlist items =>
      by_cases href : n = "reference"
      · simp only [fieldEntries, if_pos href, List.foldl_nil]
        rw [cf_cons_list, if_pos href]
        exact collectFields_foldl rest crumbs acc
      · simp only [fieldEntries, if_neg href]
        rw [cf_cons_list, if_neg href,
          collectFields_foldl rest crumbs (collectItems items (crumbs ++ [n]) 0 acc),
          List.foldl_map, collectItems_foldl items (crumbs ++ [n]) 0 acc]
        simp only [List.append_assoc, List.singleton_append]
    | vnone =>
      rw [cf_cons_other n Val.vnone rest crumbs acc rfl,
        collectFields_foldl rest crumbs _]
      simp only [fieldEntries]
      by_cases href : n = "reference"
      · rw [if_pos href, if_pos href, List.foldl_nil]
      · rw [if_neg href, if_neg href]
        by_cases helig : is_unresolved_ref Val.vnone = true
        · rw [if_pos helig, if_pos helig]
          rfl
        · rw [if_neg helig, if_neg helig, List.foldl_nil]
    | vbool b =>
      rw [cf_cons_other n (Val.vbool b) rest crumbs acc rfl,
        collectFields_foldl rest crumbs _]
      simp only [fieldEntries]
      by_cases href : n = "reference"
      · rw [if_pos href, if_pos href, List.foldl_nil]
      · rw [if_neg href, if_neg href]
        by_cases helig : is_unresolved_ref (Val.vbool b) = true
        · rw [if_pos helig, if_pos helig]
          rfl
        · rw [if_neg helig, if_neg helig, List.foldl_nil]
    | vint i =>
      rw [cf_cons_other n (Val.vint i) rest crumbs acc rfl,
        collectFields_foldl rest crumbs _]
      simp only [fieldEntries]
      by_cases href : n = "reference"
      · rw [if_pos href, if_pos href, List.foldl_nil]
      · rw [if_neg href, if_neg href]
        by_cases helig : is_unresolved_ref (Val.vint i) = true
        · rw [if_pos helig, if_pos helig]
          rfl
        · rw [if_neg helig, if_neg helig, List.foldl_nil]
    | vstr s =>
      rw [cf_cons_other n (Val.vstr s) rest crumbs acc rfl,
        collectFields_foldl rest crumbs _]
      simp only [fieldEntries]
      by_cases href : n = "reference"
      · rw [if_pos href, if_pos href, List.foldl_nil]
      · rw [if_neg href, if_neg href]
        by_cases helig : is_unresolved_ref (Val.vstr s) = true
        · rw [if_pos helig, if_pos helig]
          rfl
        · rw [if_neg helig, if_neg helig, List.foldl_nil]
    | vpath p =>
      rw [cf_cons_other n (Val.vpath p) rest crumbs acc rfl,
        collectFields_foldl rest crumbs _]
      simp only [fieldEntries]
      by_cases href : n = "reference"
      · rw [if_pos href, if_pos href, List.foldl_nil]
      · rw [if_neg href, if_neg href]
        by_cases helig : is_unresolved_ref (Val.vpath p) = true
        · rw [if_pos helig, if_pos helig]
          rfl
        · rw [if_neg helig, if_neg helig, List.foldl_nil]
    | origin p =>
      rw [cf_cons_other n (Val.origin p) rest crumbs acc rfl,
        collectFields_foldl rest crumbs _]
      simp only [fieldEntries]
      by_cases href : n = "reference"
      · rw [if_pos href, if_pos href, List.foldl_nil]
      · rw [if_neg href, if_neg href]
        by_cases helig : is_unresolved_ref (Val.origin p) = true
        · rw [if_pos helig, if_pos helig]
          rfl
        · rw [if_neg helig, if_neg helig, List.foldl_nil]
    | dc k fs2 =>
      rw [cf_cons_other n (Val.dc k fs2) rest crumbs acc rfl,
        collectFields_foldl rest crumbs _]
      simp only [fieldEntries]
      by_cases href : n = "reference"
      · rw [if_pos href, if_pos href, List.foldl_nil]
      · rw [if_neg href, if_neg href]
        by_cases helig : is_unresolved_ref (Val.dc k fs2) = true
        · rw [if_pos helig, if_pos helig]
          rfl
        · rw [if_neg helig, if_neg helig, List.foldl_nil]

theorem collectItems_foldl (items : List Val) (crumbs : List String) (i : Nat)
    (acc : List (String × Val)) :
    collectItems items crumbs i acc
      = (collectSpecItems items i).foldl
          (fun a e => insertD a (joinCrumbs (crumbs ++ e.1)) e.2) acc := by
  cases items with
  | nil => rfl
  | cons item rest =>
    rw [csi_cons_entries, List.foldl_append, ci_cons,
      collectItems_foldl rest crumbs (i + 1) _]
    simp only [itemEntries]
    by_cases helig : is_unresolved_ref item = true
    · rw [if_pos helig, if_pos helig]
      rfl
    · rw [if_neg helig, if_neg helig,
        collectVal_foldl item (crumbs ++ [natTok i]) acc, List.foldl_map]
      simp only [List.append_assoc, List.singleton_append]
end

/-! ### Folding fresh, distinct inserts is appending -/

theorem insertD_fresh (m : List (String × Val)) (k : String) (v : Val)
    (h : ∀ p ∈ m, p.1 ≠ k) : insertD m k v = m ++ [(k, v)] := by
  rw [insertD, if_neg]
  rw [List.any_eq_true]
  rintro ⟨p, hp, hpk⟩
  exact h p hp (by simpa using hpk)

theorem foldl_insertD_append (es : List (String × Val)) :
    ∀ acc, (∀ e ∈ es, ∀ p ∈ acc, p.1 ≠ e.1) →
    es.Pairwise (fun a b => a.1 ≠ b.1) →
    es.foldl (fun a e => insertD a e.1 e.2) acc = acc ++ es := by
  induction es with
  | nil => intro acc _ _; simp
  | cons e rest ih =>
    intro acc hfresh hpw
    rw [List.foldl_cons, insertD_fresh acc e.1 e.2
      (fun p hp => hfresh e (List.mem_cons_self e rest) p hp)]
    rw [List.pairwise_cons] at hpw
    rw [ih (acc ++ [(e.1, e.2)]) ?_ hpw.2]
    · simp
    · intro e' he' p hp
      rcases List.mem_append.mp hp with hpa | hpe
      · exact hfresh e' (List.mem_cons_of_mem e he') p hpa
      · rcases List.mem_singleton.mp hpe with rfl
        exact hpw.1 e' he'

/-- Under well-formedness, the faithful `collect_unresolved_refs` is exactly
`collectSpec` with dot-joined keys. -/
theorem collect_eq_joined (obj : Val) (hwf : wfVal obj = true) :
    collect_unresolved_refs obj "" []
      = (collectSpec obj).map (fun e => (joinCrumbs e.1, e.2)) := by
  rw [collect_unresolved_refs, if_pos rfl, collectVal_foldl obj [] []]
  obtain ⟨h1, h2⟩ := specPkgVal obj hwf
  have hfold :
      (collectSpec obj).foldl
        (fun a e => insertD a (joinCrumbs ([] ++ e.1)) e.2) []
      = ((collectSpec obj).map (fun e => (joinCrumbs e.1, e.2))).foldl
          (fun a e => insertD a e.1 e.2) [] := by
    rw [List.foldl_map]
    simp
  rw [hfold, foldl_insertD_append _ [] (by intro e _ p hp; cases hp) ?_]
  · simp
  · rw [List.pairwise_map]
    refine h2.imp_of_mem ?_
    intro a b ha hb hind
    obtain ⟨hna, hda⟩ := h1 a ha
    obtain ⟨hnb, hdb⟩ := h1 b hb
    intro hjoin
    exact addrIndep_ne hind (joinCrumbs_inj hna hnb hda hdb hjoin)

/-! ### Membership characterization of `collectSpec` via `SpecMem` -/

theorem fieldEntries_tuple (n : String) (items : List Val) :
    fieldEntries n (.vtuple items)
      = if n = "reference" then []
        else (collectSpecItems items 0).map (fun e => (n :: e.1, e.2)) := rfl

theorem fieldEntries_list (n : String) (items : List Val) :
    fieldEntries n (.vlist items)
      = if n = "reference" then []
        else (collectSpecItems items 0).map (fun e => (n :: e.1, e.2)) := rfl

theorem fieldEntries_other (n : String) (v : Val) (hv : isColl v = false) :
    fieldEntries n v
      = if n = "reference" then []
        else if is_unresolved_ref v then [([n], v)] else [] := by
  cases v with
  | vtuple items => simp [isColl] at hv
  | vlist items => simp [isColl] at hv
  | vnone => rfl
  | vbool b => rfl
  | vint i => rfl
  | vstr s => rfl
  | vpath p => rfl
  | origin p => rfl
  | dc k fs => rfl

theorem itemEntries_eq (item : Val) (i : Nat) :
    itemEntries item i
      = if is_unresolved_ref item then [([natTok i], item)]
        else (collectSpec item).map (fun e => (natTok i :: e.1, e.2)) := rfl

theorem fieldEntries_ref (cv : Val) : fieldEntries "reference" cv = [] := by
  cases cv <;> rfl

theorem mem_specFields_of_entry {fs : List (String × Val)} {n : String}
    {v : Val} (hmem : (n, v) ∈ fs) {e : List String × Val}
    (he : e ∈ fieldEntries n v) : e ∈ collectSpecFields fs := by
  induction fs with
  | nil => cases hmem
  | cons hd rest ih =>
    obtain ⟨m, w⟩ := hd
    rw [csf_cons_entries]
    rcases List.mem_cons.mp hmem with heq | hmem'
    · injection heq with h1 h2
      subst h1
      subst h2
      exact List.mem_append.mpr (Or.inl he)
    · exact List.mem_append.mpr (Or.inr (ih hmem'))

theorem mem_specItems_of_entry :
    ∀ (items : List Val) (i0 j : Nat) (item : Val),
      items.get? j = some item →
      ∀ e ∈ itemEntries item (i0 + j), e ∈ collectSpecItems items i0 := by
  intro items
  induction items with
  | nil => intro i0 j item h; cases h
  | cons it rest ih =>
    intro i0 j item hget e he
    rw [csi_cons_entries]
    cases j with
    | zero =>
      have : it = item := by
        rw [List.get?] at hget
        injection hget
      subst this
      rw [Nat.add_zero] at he
      exact List.mem_append.mpr (Or.inl he)
    | succ j' =>
      rw [List.get?] at hget
      have he' : e ∈ itemEntries item ((i0 + 1) + j') := by
        have harith : i0 + (j' + 1) = (i0 + 1) + j' := by omega
        rw [harith] at he
        exact he
      exact List.mem_append.mpr (Or.inr (ih (i0 + 1) j' item hget e he'))

theorem memFields_decomp {fs : List (String × Val)} {e : List String × Val}
    (he : e ∈ collectSpecFields fs) :
    ∃ n cv, (n, cv) ∈ fs ∧ e ∈ fieldEntries n cv := by
  induction fs with
  | nil => cases he
  | cons hd rest ih =>
    obtain ⟨m, w⟩ := hd
    rw [csf_cons_entries] at he
    rcases List.mem_append.mp he with hh | ht
    · exact ⟨m, w, List.mem_cons_self _ _, hh⟩
    · obtain ⟨n, cv, hmem, hfe⟩ := ih ht
      exact ⟨n, cv, List.mem_cons_of_mem _ hmem, hfe⟩

theorem memItems_decomp :
    ∀ {items : List Val} {i0 : Nat} {e : List String × Val},
      e ∈ collectSpecItems items i0 →
      ∃ j item, items.get? j = some item ∧ e ∈ itemEntries item (i0 + j) := by
  intro items
  induction items with
  | nil => intro i0 e he; cases he
  | cons it rest ih =>
    intro i0 e he
    rw [csi_cons_entries] at he
    rcases List.mem_append.mp he with hh | ht
    · exact ⟨0, it, rfl, by rw [Nat.add_zero]; exact hh⟩
    · obtain ⟨j, item, hget, hfe⟩ := ih ht
      refine ⟨j + 1, item, hget, ?_⟩
      have harith : i0 + (j + 1) = (i0 + 1) + j := by omega
      rw [harith]
      exact hfe

/-- `SpecMem` derivations produce exactly the entries of `collectSpec`. -/
theorem mem_of_specMem {obj : Val} {addr : List String} {v : Val}
    (h : SpecMem obj addr v) : (addr, v) ∈ collectSpec obj := by
  induction h with
  | fieldDirect hmem href hncoll helig =>
    rw [collectSpec_dc]
    refine mem_specFields_of_entry hmem ?_
    rw [fieldEntries_other _ _ hncoll, if_neg href, if_pos helig]
    exact List.mem_singleton_self _
  | itemDirect hmem href hcoll hget helig =>
    rw [collectSpec_dc]
    refine mem_specFields_of_entry hmem ?_
    rcases hcoll with rfl | rfl
    · rw [fieldEntries_tuple, if_neg href]
      refine List.mem_map.mpr ⟨([natTok _], _), ?_, rfl⟩
      refine mem_specItems_of_entry _ 0 _ _ hget _ ?_
      rw [Nat.zero_add, itemEntries_eq, if_pos helig]
      exact List.mem_singleton_self _
    · rw [fieldEntries_list, if_neg href]
      refine List.mem_map.mpr ⟨([natTok _], _), ?_, rfl⟩
      refine mem_specItems_of_entry _ 0 _ _ hget _ ?_
      rw [Nat.zero_add, itemEntries_eq, if_pos helig]
      exact List.mem_singleton_self _
  | itemNested hmem href hcoll hget helig hsub ih =>
    rw [collectSpec_dc]
    refine mem_specFields_of_entry hmem ?_
    rcases hcoll with rfl | rfl
    · rw [fieldEntries_tuple, if_neg href]
      refine List.mem_map.mpr ⟨(natTok _ :: _, _), ?_, rfl⟩
      refine mem_specItems_of_entry _ 0 _ _ hget _ ?_
      rw [Nat.zero_add, itemEntries_eq, if_neg (by rw [helig]; intro hc; cases hc)]
      exact List.mem_map.mpr ⟨(_, _), ih, rfl⟩
    · rw [fieldEntries_list, if_neg href]
      refine List.mem_map.mpr ⟨(natTok _ :: _, _), ?_, rfl⟩
      refine mem_specItems_of_entry _ 0 _ _ hget _ ?_
      rw [Nat.zero_add, itemEntries_eq, if_neg (by rw [helig]; intro hc; cases hc)]
      exact List.mem_map.mpr ⟨(_, _), ih, rfl⟩

theorem specMem_of_mem_aux :
    ∀ (N : Nat) (obj : Val), sizeOf obj ≤ N →
      ∀ addr v, (addr, v) ∈ collectSpec obj → SpecMem obj addr v := by
  intro N
  induction N with
  | zero =>
    intro obj hsz
    exfalso
    cases obj <;> simp at hsz
  | succ N ih =>
    intro obj hsz addr v he
    cases obj with
    | dc k fs =>
      rw [collectSpec_dc] at he
      obtain ⟨n, cv, hmem, hfe⟩ := memFields_decomp he
      have href : n ≠ "reference" := by
        intro hr
        subst hr
        rw [fieldEntries_ref] at hfe
        cases hfe
      have hszcv : sizeOf cv ≤ N := by
        have h1 := List.sizeOf_lt_of_mem hmem
        have h2 : sizeOf (n, cv) = 1 + sizeOf n + sizeOf cv := by simp
        have h3 : sizeOf (Val.dc k fs) = 1 + sizeOf k + sizeOf fs := by simp
        omega
      by_cases hcoll : isColl cv = true
      · have hdec : ∃ items : List Val,
            (cv = .vtuple items ∨ cv = .vlist items) := by
          cases cv with
          | vtuple items => exact ⟨items, Or.inl rfl⟩
          | vlist items => exact ⟨items, Or.inr rfl⟩
          | vnone => simp [isColl] at hcoll
          | vbool b => simp [isColl] at hcoll
          | vint i => simp [isColl] at hcoll
          | vstr s => simp [isColl] at hcoll
          | vpath p => simp [isColl] at hcoll
          | origin p => simp [isColl] at hcoll
          | dc k2 fs2 => simp [isColl] at hcoll
        obtain ⟨items, hcv⟩ := hdec
        have hmap : (addr, v) ∈ (collectSpecItems items 0).map
            (fun e => (n :: e.1, e.2)) := by
          rcases hcv with rfl | rfl
          · rw [fieldEntries_tuple, if_neg href] at hfe
            exact hfe
          · rw [fieldEntries_list, if_neg href] at hfe
            exact hfe
        rw [List.mem_map] at hmap
        obtain ⟨e0, he0, heq⟩ := hmap
        obtain ⟨j, item, hget, hie⟩ := memItems_decomp he0
        rw [Nat.zero_add] at hie
        have hszitem : sizeOf item ≤ N := by
          have h1 : item ∈ items := List.get?_mem hget
          have h2 := List.sizeOf_lt_of_mem h1
          have h3 : sizeOf cv = 1 + sizeOf items := by
            rcases hcv with rfl | rfl <;> simp
          omega
        by_cases helig : is_unresolved_ref item = true
        · rw [itemEntries_eq, if_pos helig] at hie
          rcases List.mem_singleton.mp hie with rfl
          injection heq with ha hv
          rw [← ha, ← hv]
          exact SpecMem.itemDirect hmem href hcv hget helig
        · rw [itemEntries_eq, if_neg helig] at hie
          rw [List.mem_map] at hie
          obtain ⟨e1, he1, heq1⟩ := hie
          have hsub : SpecMem item e1.1 e1.2 := ih item hszitem e1.1 e1.2 he1
          rw [← heq1] at heq
          injection heq with ha hv
          rw [← ha, ← hv]
          exact SpecMem.itemNested hmem href hcv hget
            (by rw [Bool.not_eq_true] at helig; exact helig) hsub
      · rw [Bool.not_eq_true] at hcoll
        rw [fieldEntries_other _ _ hcoll, if_neg href] at hfe
        by_cases helig : is_unresolved_ref cv = true
        · rw [if_pos helig] at hfe
          have heq := List.mem_singleton.mp hfe
          injection heq with ha hv
          rw [ha, hv] at *
          exact SpecMem.fieldDirect hmem href (by rw [← hv]; exact hcoll)
            (by rw [← hv]; exact helig)
        · rw [if_neg helig] at hfe
          cases hfe
    | vnone => cases he
    | vbool b => cases he
    | vint i => cases he
    | vstr s => cases he
    | vpath p => cases he
    | origin p => cases he
    | vtuple items => cases he
    | vlist items => cases he

/-- The declarative walk description coincides with `collectSpec`. -/
theorem specMem_iff (obj : Val) (addr : List String) (v : Val) :
    SpecMem obj addr v ↔ (addr, v) ∈ collectSpec obj :=
  ⟨mem_of_specMem,
   fun h => specMem_of_mem_aux (sizeOf obj) obj (Nat.le_refl _) addr v h⟩

/-! ### Dictionary and well-formedness lemmas -/

theorem lookupD_cons (a : String) (b : Val) (rest : List (String × Val))
    (k : String) :
    lookupD ((a, b) :: rest) k = if a = k then some b else lookupD rest k := by
  by_cases h : a = k
  · simp [lookupD, List.find?_cons, h]
  · simp [lookupD, List.find?_cons, h]

theorem lookupD_mapReplace_ne (m : List (String × Val)) (k : String) (v : Val)
    (q : String) (h : q ≠ k) :
    lookupD (m.map (fun p => if p.1 = k then (k, v) else p)) q
      = lookupD m q := by
  induction m with
  | nil => rfl
  | cons hd rest ih =>
    obtain ⟨a, b⟩ := hd
    rw [List.map_cons]
    by_cases hak : (a, b).1 = k
    · rw [if_pos hak, lookupD_cons, lookupD_cons,
        if_neg (fun hc : k = q => h hc.symm),
        if_neg (fun hc : a = q => h (hc ▸ hak)), ih]
    · rw [if_neg hak, lookupD_cons, lookupD_cons]
      by_cases haq : a = q
      · rw [if_pos haq, if_pos haq]
      · rw [if_neg haq, if_neg haq, ih]

theorem lookupD_mapReplace_self (m : List (String × Val)) (k : String) (v : Val)
    (hany : m.any (fun p => p.1 = k) = true) :
    lookupD (m.map (fun p => if p.1 = k then (k, v) else p)) k = some v := by
  induction m with
  | nil => cases hany
  | cons hd rest ih =>
    obtain ⟨a, b⟩ := hd
    rw [List.map_cons]
    by_cases hak : (a, b).1 = k
    · rw [if_pos hak, lookupD_cons, if_pos rfl]
    · rw [if_neg hak, lookupD_cons, if_neg hak]
      refine ih ?_
      rw [List.any_cons] at hany
      rcases Bool.or_eq_true_iff.mp hany with h1 | h2
      · exact absurd (by simpa using h1) hak
      · exact h2

theorem lookupD_append_left (m m' : List (String × Val)) (k : String) (x : Val)
    (h : lookupD m k = some x) : lookupD (m ++ m') k = some x := by
  induction m with
  | nil => cases h
  | cons hd rest ih =>
    obtain ⟨a, b⟩ := hd
    rw [List.cons_append, lookupD_cons]
    rw [lookupD_cons] at h
    by_cases hak : a = k
    · rw [if_pos hak]
      rw [if_pos hak] at h
      exact h
    · rw [if_neg hak]
      rw [if_neg hak] at h
      exact ih h

theorem lookupD_append_right (m m' : List (String × Val)) (k : String)
    (h : lookupD m k = none) : lookupD (m ++ m') k = lookupD m' k := by
  induction m with
  | nil => rfl
  | cons hd rest ih =>
    obtain ⟨a, b⟩ := hd
    rw [List.cons_append, lookupD_cons]
    rw [lookupD_cons] at h
    by_cases hak : a = k
    · rw [if_pos hak] at h
      cases h
    · rw [if_neg hak]
      rw [if_neg hak] at h
      exact ih h

theorem lookupD_none_of_not_any (m : List (String × Val)) (k : String)
    (h : m.any (fun p => p.1 = k) = false) : lookupD m k = none := by
  induction m with
  | nil => rfl
  | cons hd rest ih =>
    obtain ⟨a, b⟩ := hd
    rw [List.any_cons] at h
    rw [lookupD_cons]
    by_cases hak : a = k
    · exfalso
      rw [Bool.or_eq_false_iff] at h
      have := h.1
      rw [hak] at this
      simp at this
    · rw [if_neg hak]
      rw [Bool.or_eq_false_iff] at h
      exact ih h.2

theorem lookupD_insertD_self (m : List (String × Val)) (k : String) (v : Val) :
    lookupD (insertD m k v) k = some v := by
  rw [insertD]
  by_cases hany : m.any (fun p => p.1 = k) = true
  · rw [if_pos hany]
    exact lookupD_mapReplace_self m k v hany
  · rw [if_neg hany]
    rw [lookupD_append_right m [(k, v)] k
      (lookupD_none_of_not_any m k
        (by revert hany; cases m.any (fun p => p.1 = k) <;> simp))]
    rw [lookupD_cons, if_pos rfl]

theorem lookupD_insertD_ne (m : List (String × Val)) (k : String) (v : Val)
    (q : String) (h : q ≠ k) : lookupD (insertD m k v) q = lookupD m q := by
  rw [insertD]
  by_cases hany : m.any (fun p => p.1 = k) = true
  · rw [if_pos hany]
    exact lookupD_mapReplace_ne m k v q h
  · rw [if_neg hany]
    cases hlook : lookupD m q with
    | some x => rw [lookupD_append_left m [(k, v)] q x hlook]
    | none =>
      rw [lookupD_append_right m [(k, v)] q hlook, lookupD_cons,
        if_neg (fun hc => h hc.symm)]
      rfl

theorem mem_insertD {m : List (String × Val)} {k : String} {v : Val}
    {p : String × Val} (h : p ∈ insertD m k v) : p ∈ m ∨ p = (k, v) := by
  rw [insertD] at h
  by_cases hany : m.any (fun q => q.1 = k) = true
  · rw [if_pos hany] at h
    rw [List.mem_map] at h
    obtain ⟨q, hq, hqp⟩ := h
    by_cases hqk : q.1 = k
    · right
      rw [← hqp]
      simp [hqk]
    · left
      rw [← hqp]
      simpa [hqk] using hq
  · rw [if_neg hany] at h
    rcases List.mem_append.mp h with hm | hs
    · exact Or.inl hm
    · exact Or.inr (List.mem_singleton.mp hs)

theorem wfFields_name {fs : List (String × Val)} {n : String} {v : Val}
    (hwf : wfFields fs = true) (h : (n, v) ∈ fs) : goodName n = true := by
  induction fs with
  | nil => cases h
  | cons hd rest ih =>
    obtain ⟨a, b⟩ := hd
    rw [wfFields_cons] at hwf
    simp only [Bool.and_eq_true] at hwf
    rcases List.mem_cons.mp h with heq | hmem
    · injection heq with h1 _
      rw [h1]
      exact hwf.1.1.1
    · exact ih hwf.2 hmem

theorem wfFields_value {fs : List (String × Val)} {n : String} {v : Val}
    (hwf : wfFields fs = true) (h : (n, v) ∈ fs) : wfVal v = true := by
  induction fs with
  | nil => cases h
  | cons hd rest ih =>
    obtain ⟨a, b⟩ := hd
    rw [wfFields_cons] at hwf
    simp only [Bool.and_eq_true] at hwf
    rcases List.mem_cons.mp h with heq | hmem
    · injection heq with _ h2
      rw [h2]
      exact hwf.1.2
    · exact ih hwf.2 hmem

theorem wfFields_lookup {fs : List (String × Val)} {n : String} {v : Val}
    (hwf : wfFields fs = true) (h : (n, v) ∈ fs) : lookupD fs n = some v := by
  induction fs with
  | nil => cases h
  | cons hd rest ih =>
    obtain ⟨a, b⟩ := hd
    rw [wfFields_cons] at hwf
    simp only [Bool.and_eq_true, Bool.not_eq_true'] at hwf
    obtain ⟨⟨⟨hgn, hnd⟩, hb⟩, hrest⟩ := hwf
    rcases List.mem_cons.mp h with heq | hmem
    · injection heq with h1 h2
      subst h1
      subst h2
      rw [lookupD_cons, if_pos rfl]
    · rw [lookupD_cons]
      by_cases han : a = n
      · exfalso
        rw [List.any_eq_false] at hnd
        exact hnd (n, v) hmem (by simp [han.symm])
      · rw [if_neg han]
        exact ih hrest hmem

theorem wfItems_get {items : List Val} {i : Nat} {item : Val}
    (hwf : wfItems items = true) (h : items.get? i = some item) :
    wfVal item = true := by
  induction items generalizing i with
  | nil => cases h
  | cons it rest ih =>
    rw [wfItems_cons] at hwf
    simp only [Bool.and_eq_true] at hwf
    cases i with
    | zero =>
      injection h with h1
      rw [← h1]
      exact hwf.1
    | succ i' => exact ih hwf.2 h

theorem wfFields_field_wf {fs : List (String × Val)} {n : String} {cv : Val}
    {items : List Val} (hwf : wfFields fs = true) (h : (n, cv) ∈ fs)
    (hcv : cv = .vtuple items ∨ cv = .vlist items) : wfItems items = true := by
  have := wfFields_value hwf h
  rcases hcv with rfl | rfl
  · rw [wfVal_tuple] at this
    exact this
  · rw [wfVal_list] at this
    exact this

theorem exceptMap_ok {α β : Type} {f : α → β} {e : Except PyErr α} {w : β}
    (h : e.map f = .ok w) : ∃ a, e = .ok a ∧ w = f a := by
  cases e with
  | ok a =>
    refine ⟨a, rfl, ?_⟩
    injection h with h1
    exact h1.symm
  | error err => cases h

/-! ### Reading addresses: shape lemmas for `valueAt` -/

theorem valueAt_nil (v : Val) : valueAt v [] = some v := rfl

theorem valueAt_cons_dc (k : RKind) (fs : List (String × Val)) (t : String)
    (rest : List String) (h : isDigitStr t = false) :
    valueAt (.dc k fs) (t :: rest)
      = (lookupD fs t).bind (fun s => valueAt s rest) := by
  show (if isDigitStr t = true then none
        else (lookupD fs t).bind (fun s => valueAt s rest)) = _
  rw [h]
  rfl

theorem valueAt_cons_vlist (items : List Val) (t : String) (rest : List String)
    (h : isDigitStr t = true) :
    valueAt (.vlist items) (t :: rest)
      = (items.get? (intOfTok t)).bind (fun s => valueAt s rest) := by
  show (if isDigitStr t = true
        then (items.get? (intOfTok t)).bind (fun s => valueAt s rest)
        else none) = _
  rw [h]
  rfl

theorem valueAt_cons_vtuple (items : List Val) (t : String) (rest : List String)
    (h : isDigitStr t = true) :
    valueAt (.vtuple items) (t :: rest)
      = (items.get? (intOfTok t)).bind (fun s => valueAt s rest) := by
  show (if isDigitStr t = true
        then (items.get? (intOfTok t)).bind (fun s => valueAt s rest)
        else none) = _
  rw [h]
  rfl

/-! ### Canonicity and original values of discovered addresses -/

theorem specMem_canon {obj : Val} {addr : List String} {v : Val}
    (hwf : wfVal obj = true) (h : SpecMem obj addr v) : canonAddr addr := by
  induction h with
  | fieldDirect hmem href hncoll helig =>
    intro t ht
    rcases List.mem_singleton.mp ht with rfl
    intro hdig
    rw [wfVal_dc] at hwf
    rw [goodName_not_digit (wfFields_name hwf hmem)] at hdig
    cases hdig
  | itemDirect hmem href hcoll hget helig =>
    intro t ht
    rw [wfVal_dc] at hwf
    rcases List.mem_cons.mp ht with rfl | ht'
    · intro hdig
      rw [goodName_not_digit (wfFields_name hwf hmem)] at hdig
      cases hdig
    · rcases List.mem_singleton.mp ht' with rfl
      intro _
      rw [intOfTok_natTok]
  | itemNested hmem href hcoll hget helig hsub ih =>
    intro t ht
    rw [wfVal_dc] at hwf
    have hwfitem : wfVal _ = true :=
      wfItems_get (wfFields_field_wf hwf hmem hcoll) hget
    rcases List.mem_cons.mp ht with rfl | ht'
    · intro hdig
      rw [goodName_not_digit (wfFields_name hwf hmem)] at hdig
      cases hdig
    · rcases List.mem_cons.mp ht' with rfl | ht''
      · intro _
        rw [intOfTok_natTok]
      · exact ih hwfitem t ht''

theorem specMem_valueAt {obj : Val} {addr : List String} {v : Val}
    (hwf : wfVal obj = true) (h : SpecMem obj addr v) :
    valueAt obj addr = some v := by
  induction h with
  | @fieldDirect k fs n v2 hmem href hncoll helig =>
    rw [wfVal_dc] at hwf
    rw [valueAt_cons_dc k fs n []
      (goodName_not_digit (wfFields_name hwf hmem))]
    rw [wfFields_lookup hwf hmem]
    rfl
  | @itemDirect k fs n cv items i item hmem href hcoll hget helig =>
    rw [wfVal_dc] at hwf
    rw [valueAt_cons_dc k fs n [natTok i]
      (goodName_not_digit (wfFields_name hwf hmem))]
    rw [wfFields_lookup hwf hmem]
    rcases hcoll with rfl | rfl
    · rw [Option.some_bind,
        valueAt_cons_vtuple items (natTok i) [] (isDigitStr_natTok i),
        intOfTok_natTok, hget]
      rfl
    · rw [Option.some_bind,
        valueAt_cons_vlist items (natTok i) [] (isDigitStr_natTok i),
        intOfTok_natTok, hget]
      rfl
  | @itemNested k fs n cv items i item addr2 v2 hmem href hcoll hget helig hsub ih =>
    rw [wfVal_dc] at hwf
    have hwfitem : wfVal item = true :=
      wfItems_get (wfFields_field_wf hwf hmem hcoll) hget
    rw [valueAt_cons_dc k fs n (natTok i :: addr2)
      (goodName_not_digit (wfFields_name hwf hmem))]
    rw [wfFields_lookup hwf hmem]
    rcases hcoll with rfl | rfl
    · rw [Option.some_bind,
        valueAt_cons_vtuple items (natTok i) addr2 (isDigitStr_natTok i),
        intOfTok_natTok, hget, Option.some_bind]
      exact ih hwfitem
    · rw [Option.some_bind,
        valueAt_cons_vlist items (natTok i) addr2 (isDigitStr_natTok i),
        intOfTok_natTok, hget, Option.some_bind]
      exact ih hwfitem

/-! ### Shape lemmas for `setAtTokens` and list indexing -/

theorem get?_some_lt {α : Type} :
    ∀ (l : List α) (i : Nat) (a : α), l.get? i = some a → i < l.length := by
  intro l
  induction l with
  | nil => intro i a h; cases h
  | cons x xs ih =>
    intro i a h
    cases i with
    | zero => simp
    | succ i' =>
      have := ih i' a h
      simp only [List.length_cons]
      omega

theorem get?_set_self {α : Type} :
    ∀ (l : List α) (i : Nat) (a : α), i < l.length →
      (l.set i a).get? i = some a := by
  intro l
  induction l with
  | nil => intro i a h; simp at h
  | cons x xs ih =>
    intro i a h
    cases i with
    | zero => rfl
    | succ i' =>
      exact ih i' a (by simp at h; omega)

theorem get?_set_ne {α : Type} :
    ∀ (l : List α) (i j : Nat) (a : α), i ≠ j →
      (l.set i a).get? j = l.get? j := by
  intro l
  induction l with
  | nil => intro i j a h; simp
  | cons x xs ih =>
    intro i j a h
    cases i with
    | zero =>
      cases j with
      | zero => exact absurd rfl h
      | succ j' => rfl
    | succ i' =>
      cases j with
      | zero => rfl
      | succ j' =>
        exact ih i' j' a (fun hc => h (by rw [hc]))

theorem setAt_nil (cur rep : Val) : setAtTokens cur [] rep = .ok cur := rfl

theorem setAt_single (cur : Val) (t : String) (rep : Val) :
    setAtTokens cur [t] rep
      = if isDigitStr t = true then setItemV cur (intOfTok t) rep
        else setFieldV cur t rep := rfl

theorem setAt_cons_dc (k : RKind) (fs : List (String × Val)) (t u : String)
    (rest : List String) (rep : Val) (h : isDigitStr t = false) :
    setAtTokens (.dc k fs) (t :: u :: rest) rep
      = match lookupD fs t with
        | some sub =>
          (setAtTokens sub (u :: rest) rep).map
            (fun s => .dc k (insertD fs t s))
        | none => .error (.attributeError ("no attribute " ++ t)) := by
  have e : setAtTokens (.dc k fs) (t :: u :: rest) rep
      = if isDigitStr t = true
        then (Except.error (PyErr.typeError "object is not subscriptable") :
               Except PyErr Val)
        else match lookupD fs t with
             | some sub =>
               (setAtTokens sub (u :: rest) rep).map
                 (fun s => Val.dc k (insertD fs t s))
             | none =>
               Except.error (PyErr.attributeError ("no attribute " ++ t)) := rfl
  rw [e, if_neg (by simp [h])]

theorem setAt_cons_vlist (items : List Val) (t u : String)
    (rest : List String) (rep : Val) (h : isDigitStr t = true) :
    setAtTokens (.vlist items) (t :: u :: rest) rep
      = match items.get? (intOfTok t) with
        | some sub =>
          (setAtTokens sub (u :: rest) rep).map
            (fun s => .vlist (items.set (intOfTok t) s))
        | none => .error (.indexError "list index out of range") := by
  have e : setAtTokens (.vlist items) (t :: u :: rest) rep
      = if isDigitStr t = true
        then match items.get? (intOfTok t) with
             | some sub =>
               (setAtTokens sub (u :: rest) rep).map
                 (fun s => Val.vlist (items.set (intOfTok t) s))
             | none => Except.error (PyErr.indexError "list index out of range")
        else (Except.error (PyErr.attributeError ("no attribute " ++ t)) :
               Except PyErr Val) := rfl
  rw [e, if_pos h]

theorem setAt_cons_vtuple (items : List Val) (t u : String)
    (rest : List String) (rep : Val) (h : isDigitStr t = true) :
    setAtTokens (.vtuple items) (t :: u :: rest) rep
      = match items.get? (intOfTok t) with
        | some sub =>
          (setAtTokens sub (u :: rest) rep).map
            (fun s => .vtuple (items.set (intOfTok t) s))
        | none => .error (.indexError "tuple index out of range") := by
  have e : setAtTokens (.vtuple items) (t :: u :: rest) rep
      = if isDigitStr t = true
        then match items.get? (intOfTok t) with
             | some sub =>
               (setAtTokens sub (u :: rest) rep).map
                 (fun s => Val.vtuple (items.set (intOfTok t) s))
             | none => Except.error (PyErr.indexError "tuple index out of range")
        else (Except.error (PyErr.attributeError ("no attribute " ++ t)) :
               Except PyErr Val) := rfl
  rw [e, if_pos h]

theorem setAt_cons_digit_other (v : Val) (t u : String) (rest : List String)
    (rep : Val) (h : isDigitStr t = true) (hv : isColl v = false)
    (hdc : ∀ k fs, v ≠ .dc k fs) :
    setAtTokens v (t :: u :: rest) rep
      = .error (.typeError "object is not subscriptable") := by
  cases v
  case vtuple items => simp [isColl] at hv
  case vlist items => simp [isColl] at hv
  case dc k fs => exact absurd rfl (hdc k fs)
  all_goals exact if_pos h

theorem setAt_cons_name_other (v : Val) (t u : String) (rest : List String)
    (rep : Val) (h : isDigitStr t = false) (hdc : ∀ k fs, v ≠ .dc k fs) :
    setAtTokens v (t :: u :: rest) rep
      = .error (.attributeError ("no attribute " ++ t)) := by
  cases v
  case dc k fs => exact absurd rfl (hdc k fs)
  all_goals exact if_neg (by simp [h])

theorem valueAt_cons_digit_other (v : Val) (t : String) (rest : List String)
    (h : isDigitStr t = true) (hv : isColl v = false) :
    valueAt v (t :: rest) = none := by
  cases v
  case vtuple items => simp [isColl] at hv
  case vlist items => simp [isColl] at hv
  all_goals exact if_pos h

theorem valueAt_cons_name_other (v : Val) (t : String) (rest : List String)
    (h : isDigitStr t = false) (hdc : ∀ k fs, v ≠ .dc k fs) :
    valueAt v (t :: rest) = none := by
  cases v
  case dc k fs => exact absurd rfl (hdc k fs)
  all_goals exact if_neg (by simp [h])

theorem addrIndep_cons_strip {c : String} {u v : List String}
    (h : addrIndep (c :: u) (c :: v)) : addrIndep u v := by
  obtain ⟨h1, h2⟩ := h
  constructor
  · rintro ⟨t, rfl⟩
    exact h1 ⟨t, rfl⟩
  · rintro ⟨t, rfl⟩
    exact h2 ⟨t, rfl⟩

theorem canonAddr_cons {t : String} {rest : List String}
    (h : canonAddr (t :: rest)) : canonTok t ∧ canonAddr rest :=
  ⟨h t (List.mem_cons_self t rest), fun x hx => h x (List.mem_cons_of_mem t hx)⟩

theorem setAt_cons_dc_digit (k : RKind) (fs : List (String × Val)) (t u : String)
    (rest : List String) (rep : Val) (h : isDigitStr t = true) :
    setAtTokens (.dc k fs) (t :: u :: rest) rep
      = .error (.typeError "object is not subscriptable") := by
  have e : setAtTokens (.dc k fs) (t :: u :: rest) rep
      = if isDigitStr t = true
        then (Except.error (PyErr.typeError "object is not subscriptable") :
               Except PyErr Val)
        else match lookupD fs t with
             | some sub =>
               (setAtTokens sub (u :: rest) rep).map
                 (fun s => Val.dc k (insertD fs t s))
             | none =>
               Except.error (PyErr.attributeError ("no attribute " ++ t)) := rfl
  rw [e, if_pos h]

/-- A successful one-level-or-deeper `setAtTokens` step fixes the outer shape:
a digit head token rewrites one slot of a list or tuple in bounds, a name head
token rewrites one key of a record's field dict. -/
theorem setAt_ok_shape (cur : Val) (t : String) (rest : List String) (rep w : Val)
    (hset : setAtTokens cur (t :: rest) rep = .ok w) :
    (isDigitStr t = true ∧
      ((∃ items x, cur = .vlist items ∧ intOfTok t < items.length ∧
         w = .vlist (items.set (intOfTok t) x)) ∨
       (∃ items x, cur = .vtuple items ∧ intOfTok t < items.length ∧
         w = .vtuple (items.set (intOfTok t) x)))) ∨
    (isDigitStr t = false ∧
      ∃ k fs x, cur = .dc k fs ∧ w = .dc k (insertD fs t x)) := by
  by_cases hd : isDigitStr t = true
  · left
    refine ⟨hd, ?_⟩
    cases rest with
    | nil =>
      rw [setAt_single, if_pos hd] at hset
      cases cur with
      | vlist items =>
        have hset2 : (if intOfTok t < items.length
            then Except.ok (Val.vlist (items.set (intOfTok t) rep))
            else (Except.error (PyErr.indexError "list assignment index out of range") :
              Except PyErr Val)) = .ok w := hset
        by_cases hlen : intOfTok t < items.length
        · rw [if_pos hlen] at hset2
          injection hset2 with hw
          exact Or.inl ⟨items, rep, rfl, hlen, hw.symm⟩
        · rw [if_neg hlen] at hset2
          simp at hset2
      | vnone | vbool | vint | vstr | vpath | origin | vtuple | dc =>
        simp [setItemV] at hset
    | cons u rest2 =>
      cases cur with
      | vlist items =>
        rw [setAt_cons_vlist items t u rest2 rep hd] at hset
        cases hget : items.get? (intOfTok t) with
        | none =>
          rw [hget] at hset
          have hset2 : (Except.error (PyErr.indexError "list index out of range") :
              Except PyErr Val) = .ok w := hset
          simp at hset2
        | some sub =>
          rw [hget] at hset
          have hset2 : (setAtTokens sub (u :: rest2) rep).map
              (fun s => Val.vlist (items.set (intOfTok t) s)) = .ok w := hset
          obtain ⟨x, _, hw⟩ := exceptMap_ok hset2
          exact Or.inl ⟨items, x, rfl, get?_some_lt items _ sub hget, hw⟩
      | vtuple items =>
        rw [setAt_cons_vtuple items t u rest2 rep hd] at hset
        cases hget : items.get? (intOfTok t) with
        | none =>
          rw [hget] at hset
          have hset2 : (Except.error (PyErr.indexError "tuple index out of range") :
              Except PyErr Val) = .ok w := hset
          simp at hset2
        | some sub =>
          rw [hget] at hset
          have hset2 : (setAtTokens sub (u :: rest2) rep).map
              (fun s => Val.vtuple (items.set (intOfTok t) s)) = .ok w := hset
          obtain ⟨x, _, hw⟩ := exceptMap_ok hset2
          exact Or.inr ⟨items, x, rfl, get?_some_lt items _ sub hget, hw⟩
      | dc k fs =>
        rw [setAt_cons_dc_digit k fs t u rest2 rep hd] at hset
        simp at hset
      | vnone | vbool | vint | vstr | vpath | origin =>
        simp [setAtTokens, hd] at hset
  · right
    have hdf : isDigitStr t = false := by revert hd; cases isDigitStr t <;> simp
    refine ⟨hdf, ?_⟩
    cases rest with
    | nil =>
      rw [setAt_single, if_neg hd] at hset
      cases cur with
      | dc k fs =>
        have hset2 : (Except.ok (Val.dc k (insertD fs t rep)) :
            Except PyErr Val) = .ok w := hset
        injection hset2 with hw
        exact ⟨k, fs, rep, rfl, hw.symm⟩
      | vnone | vbool | vint | vstr | vpath | origin | vtuple | vlist =>
        simp [setFieldV] at hset
    | cons u rest2 =>
      cases cur with
      | dc k fs =>
        rw [setAt_cons_dc k fs t u rest2 rep hdf] at hset
        cases hlk : lookupD fs t with
        | none =>
          rw [hlk] at hset
          have hset2 : (Except.error (PyErr.attributeError ("no attribute " ++ t)) :
              Except PyErr Val) = .ok w := hset
          simp at hset2
        | some sub =>
          rw [hlk] at hset
          have hset2 : (setAtTokens sub (u :: rest2) rep).map
              (fun s => Val.dc k (insertD fs t s)) = .ok w := hset
          obtain ⟨x, _, hw⟩ := exceptMap_ok hset2
          exact ⟨k, fs, x, rfl, hw⟩
      | vnone | vbool | vint | vstr | vpath | origin | vtuple | vlist =>
        simp [setAtTokens, hdf] at hset

/-- After a successful `setAtTokens` along a non-empty breadcrumb the value
found at that breadcrumb is the replacement. -/
theorem setAt_value :
    ∀ (toks : List String) (cur rep w : Val), toks ≠ [] →
      setAtTokens cur toks rep = .ok w → valueAt w toks = some rep := by
  intro toks
  induction toks with
  | nil => intro cur rep w hne _; exact absurd rfl hne
  | cons t rest ih =>
    intro cur rep w _ hset
    cases rest with
    | nil =>
      rw [setAt_single] at hset
      by_cases hd : isDigitStr t = true
      · rw [if_pos hd] at hset
        cases cur with
        | vlist items =>
          have hset2 : (if intOfTok t < items.length
              then Except.ok (Val.vlist (items.set (intOfTok t) rep))
              else (Except.error
                (PyErr.indexError "list assignment index out of range") :
                Except PyErr Val)) = .ok w := hset
          by_cases hlen : intOfTok t < items.length
          · rw [if_pos hlen] at hset2
            injection hset2 with hw
            rw [← hw, valueAt_cons_vlist _ _ _ hd,
                get?_set_self _ _ _ hlen]
            rfl
          · rw [if_neg hlen] at hset2
            simp at hset2
        | vnone | vbool | vint | vstr | vpath | origin | vtuple | dc =>
          simp [setItemV] at hset
      · have hdf : isDigitStr t = false := by revert hd; cases isDigitStr t <;> simp
        rw [if_neg hd] at hset
        cases cur with
        | dc k fs =>
          have hset2 : (Except.ok (Val.dc k (insertD fs t rep)) :
              Except PyErr Val) = .ok w := hset
          injection hset2 with hw
          rw [← hw, valueAt_cons_dc _ _ _ _ hdf, lookupD_insertD_self]
          rfl
        | vnone | vbool | vint | vstr | vpath | origin | vtuple | vlist =>
          simp [setFieldV] at hset
    | cons u rest2 =>
      by_cases hd : isDigitStr t = true
      · cases cur with
        | vlist items =>
          rw [setAt_cons_vlist items t u rest2 rep hd] at hset
          cases hget : items.get? (intOfTok t) with
          | none =>
            rw [hget] at hset
            have hset2 : (Except.error (PyErr.indexError "list index out of range") :
                Except PyErr Val) = .ok w := hset
            simp at hset2
          | some sub =>
            rw [hget] at hset
            have hset2 : (setAtTokens sub (u :: rest2) rep).map
                (fun s => Val.vlist (items.set (intOfTok t) s)) = .ok w := hset
            obtain ⟨x, hx, hw⟩ := exceptMap_ok hset2
            rw [hw, valueAt_cons_vlist _ _ _ hd,
                get?_set_self _ _ _ (get?_some_lt items _ sub hget)]
            simpa using ih sub rep x (by simp) hx
        | vtuple items =>
          rw [setAt_cons_vtuple items t u rest2 rep hd] at hset
          cases hget : items.get? (intOfTok t) with
          | none =>
            rw [hget] at hset
            have hset2 : (Except.error (PyErr.indexError "tuple index out of range") :
                Except PyErr Val) = .ok w := hset
            simp at hset2
          | some sub =>
            rw [hget] at hset
            have hset2 : (setAtTokens sub (u :: rest2) rep).map
                (fun s => Val.vtuple (items.set (intOfTok t) s)) = .ok w := hset
            obtain ⟨x, hx, hw⟩ := exceptMap_ok hset2
            rw [hw, valueAt_cons_vtuple _ _ _ hd,
                get?_set_self _ _ _ (get?_some_lt items _ sub hget)]
            simpa using ih sub rep x (by simp) hx
        | dc k fs =>
          rw [setAt_cons_dc_digit k fs t u rest2 rep hd] at hset
          simp at hset
        | vnone | vbool | vint | vstr | vpath | origin =>
          simp [setAtTokens, hd] at hset
      · have hdf : isDigitStr t = false := by revert hd; cases isDigitStr t <;> simp
        cases cur with
        | dc k fs =>
          rw [setAt_cons_dc k fs t u rest2 rep hdf] at hset
          cases hlk : lookupD fs t with
          | none =>
            rw [hlk] at hset
            have hset2 : (Except.error (PyErr.attributeError ("no attribute " ++ t)) :
                Except PyErr Val) = .ok w := hset
            simp at hset2
          | some sub =>
            rw [hlk] at hset
            have hset2 : (setAtTokens sub (u :: rest2) rep).map
                (fun s => Val.dc k (insertD fs t s)) = .ok w := hset
            obtain ⟨x, hx, hw⟩ := exceptMap_ok hset2
            rw [hw, valueAt_cons_dc _ _ _ _ hdf, lookupD_insertD_self]
            simpa using ih sub rep x (by simp) hx
        | vnone | vbool | vint | vstr | vpath | origin | vtuple | vlist =>
          simp [setAtTokens, hdf] at hset

/-- Frame property: a successful `setAtTokens` along one breadcrumb leaves the
value at every independent canonical breadcrumb unchanged. -/
theorem setAt_frame :
    ∀ (toks : List String) (cur rep w : Val) (toks2 : List String),
      setAtTokens cur toks rep = .ok w → addrIndep toks toks2 →
      canonAddr toks → canonAddr toks2 →
      valueAt w toks2 = valueAt cur toks2 := by
  intro toks
  induction toks with
  | nil =>
    intro cur rep w toks2 hset _ _ _
    have h2 : (Except.ok cur : Except PyErr Val) = .ok w := hset
    injection h2 with h3
    rw [h3]
  | cons t rest ih =>
    intro cur rep w toks2 hset hind hct hct2
    cases toks2 with
    | nil => exact absurd ⟨t :: rest, rfl⟩ hind.2
    | cons s rest2 =>
      by_cases hst : s = t
      · subst hst
        cases rest with
        | nil => exact absurd ⟨rest2, rfl⟩ (addrIndep_cons_strip hind).1
        | cons u rest3 =>
          by_cases hd : isDigitStr s = true
          · cases cur with
            | vlist items =>
              rw [setAt_cons_vlist items s u rest3 rep hd] at hset
              cases hget : items.get? (intOfTok s) with
              | none =>
                rw [hget] at hset
                have hset2 : (Except.error (PyErr.indexError "list index out of range") :
                    Except PyErr Val) = .ok w := hset
                simp at hset2
              | some sub =>
                rw [hget] at hset
                have hset2 : (setAtTokens sub (u :: rest3) rep).map
                    (fun x => Val.vlist (items.set (intOfTok s) x)) = .ok w := hset
                obtain ⟨x, hx, hw⟩ := exceptMap_ok hset2
                rw [hw, valueAt_cons_vlist _ _ _ hd, valueAt_cons_vlist _ _ _ hd,
                    get?_set_self _ _ _ (get?_some_lt items _ sub hget), hget]
                simpa using ih sub rep x rest2 hx (addrIndep_cons_strip hind)
                  (canonAddr_cons hct).2 (canonAddr_cons hct2).2
            | vtuple items =>
              rw [setAt_cons_vtuple items s u rest3 rep hd] at hset
              cases hget : items.get? (intOfTok s) with
              | none =>
                rw [hget] at hset
                have hset2 : (Except.error (PyErr.indexError "tuple index out of range") :
                    Except PyErr Val) = .ok w := hset
                simp at hset2
              | some sub =>
                rw [hget] at hset
                have hset2 : (setAtTokens sub (u :: rest3) rep).map
                    (fun x => Val.vtuple (items.set (intOfTok s) x)) = .ok w := hset
                obtain ⟨x, hx, hw⟩ := exceptMap_ok hset2
                rw [hw, valueAt_cons_vtuple _ _ _ hd, valueAt_cons_vtuple _ _ _ hd,
                    get?_set_self _ _ _ (get?_some_lt items _ sub hget), hget]
                simpa using ih sub rep x rest2 hx (addrIndep_cons_strip hind)
                  (canonAddr_cons hct).2 (canonAddr_cons hct2).2
            | dc k fs =>
              rw [setAt_cons_dc_digit k fs s u rest3 rep hd] at hset
              simp at hset
            | vnone | vbool | vint | vstr | vpath | origin =>
              simp [setAtTokens, hd] at hset
          · have hdf : isDigitStr s = false := by
              revert hd; cases isDigitStr s <;> simp
            cases cur with
            | dc k fs =>
              rw [setAt_cons_dc k fs s u rest3 rep hdf] at hset
              cases hlk : lookupD fs s with
              | none =>
                rw [hlk] at hset
                have hset2 : (Except.error (PyErr.attributeError ("no attribute " ++ s)) :
                    Except PyErr Val) = .ok w := hset
                simp at hset2
              | some sub =>
                rw [hlk] at hset
                have hset2 : (setAtTokens sub (u :: rest3) rep).map
                    (fun x => Val.dc k (insertD fs s x)) = .ok w := hset
                obtain ⟨x, hx, hw⟩ := exceptMap_ok hset2
                rw [hw, valueAt_cons_dc _ _ _ _ hdf, valueAt_cons_dc _ _ _ _ hdf,
                    lookupD_insertD_self, hlk]
                simpa using ih sub rep x rest2 hx (addrIndep_cons_strip hind)
                  (canonAddr_cons hct).2 (canonAddr_cons hct2).2
            | vnone | vbool | vint | vstr | vpath | origin | vtuple | vlist =>
              simp [setAtTokens, hdf] at hset
      · rcases setAt_ok_shape cur t rest rep w hset with
          ⟨hd, hsh⟩ | ⟨hdf, k, fs, x, hcur, hw⟩
        · by_cases hds : isDigitStr s = true
          · have hiv : intOfTok t ≠ intOfTok s := by
              intro hii
              apply hst
              have h1 : t = natTok (intOfTok t) := (canonAddr_cons hct).1 hd
              have h2 : s = natTok (intOfTok s) := (canonAddr_cons hct2).1 hds
              rw [h1, h2, hii]
            rcases hsh with ⟨items, x, hcur, _, hw⟩ | ⟨items, x, hcur, _, hw⟩
            · rw [hcur, hw, valueAt_cons_vlist _ _ _ hds, valueAt_cons_vlist _ _ _ hds,
                  get?_set_ne _ _ _ _ hiv]
            · rw [hcur, hw, valueAt_cons_vtuple _ _ _ hds, valueAt_cons_vtuple _ _ _ hds,
                  get?_set_ne _ _ _ _ hiv]
          · have hdsf : isDigitStr s = false := by
              revert hds; cases isDigitStr s <;> simp
            rcases hsh with ⟨items, x, hcur, _, hw⟩ | ⟨items, x, hcur, _, hw⟩
            · rw [hcur, hw,
                  valueAt_cons_name_other _ _ _ hdsf (fun _ _ hc => Val.noConfusion hc),
                  valueAt_cons_name_other _ _ _ hdsf (fun _ _ hc => Val.noConfusion hc)]
            · rw [hcur, hw,
                  valueAt_cons_name_other _ _ _ hdsf (fun _ _ hc => Val.noConfusion hc),
                  valueAt_cons_name_other _ _ _ hdsf (fun _ _ hc => Val.noConfusion hc)]
        · by_cases hds : isDigitStr s = true
          · rw [hcur, hw,
                valueAt_cons_digit_other (Val.dc k (insertD fs t x)) s rest2 hds rfl,
                valueAt_cons_digit_other (Val.dc k fs) s rest2 hds rfl]
          · have hdsf : isDigitStr s = false := by
              revert hds; cases isDigitStr s <;> simp
            rw [hcur, hw, valueAt_cons_dc _ _ _ _ hdsf, valueAt_cons_dc _ _ _ _ hdsf,
                lookupD_insertD_ne _ _ _ _ hst]

/-! ### Provenance decompositions of `setAtTokens` and well-formedness
preservation -/

theorem lookupD_mem : ∀ (m : List (String × Val)) (k : String) (v : Val),
    lookupD m k = some v → (k, v) ∈ m := by
  intro m
  induction m with
  | nil => intro k v h; cases h
  | cons hd rest ih =>
    intro k v h
    obtain ⟨a, b⟩ := hd
    rw [lookupD_cons] at h
    by_cases hak : a = k
    · rw [if_pos hak] at h
      injection h with hbv
      rw [← hak, ← hbv]
      exact List.mem_cons_self _ _
    · rw [if_neg hak] at h
      exact List.mem_cons_of_mem _ (ih k v h)

theorem any_of_lookupD_some {m : List (String × Val)} {t : String} {v : Val}
    (h : lookupD m t = some v) : m.any (fun p => p.1 = t) = true := by
  cases hany : m.any (fun p => p.1 = t) with
  | true => rfl
  | false => rw [lookupD_none_of_not_any m t hany] at h; cases h

theorem specMem_elig {obj : Val} {addr : List String} {v : Val}
    (h : SpecMem obj addr v) : is_unresolved_ref v = true := by
  induction h with
  | fieldDirect _ _ _ helig => exact helig
  | itemDirect _ _ _ _ helig => exact helig
  | itemNested _ _ _ _ _ _ ih => exact ih

/-- Single-token commit, with the exact shapes: a digit token writes a list
slot in bounds, a name token writes a record field. -/
theorem setAt_single_decomp (cur : Val) (t : String) (rep w : Val)
    (hset : setAtTokens cur [t] rep = .ok w) :
    (isDigitStr t = true ∧ ∃ items, cur = .vlist items ∧
      intOfTok t < items.length ∧ w = .vlist (items.set (intOfTok t) rep)) ∨
    (isDigitStr t = false ∧ ∃ k fs, cur = .dc k fs ∧
      w = .dc k (insertD fs t rep)) := by
  rw [setAt_single] at hset
  by_cases hd : isDigitStr t = true
  · left
    refine ⟨hd, ?_⟩
    rw [if_pos hd] at hset
    cases cur with
    | vlist items =>
      have hset2 : (if intOfTok t < items.length
          then Except.ok (Val.vlist (items.set (intOfTok t) rep))
          else (Except.error (PyErr.indexError "list assignment index out of range") :
            Except PyErr Val)) = .ok w := hset
      by_cases hlen : intOfTok t < items.length
      · rw [if_pos hlen] at hset2
        injection hset2 with hw
        exact ⟨items, rfl, hlen, hw.symm⟩
      · rw [if_neg hlen] at hset2
        simp at hset2
    | vnone | vbool | vint | vstr | vpath | origin | vtuple | dc =>
      simp [setItemV] at hset
  · right
    have hdf : isDigitStr t = false := by revert hd; cases isDigitStr t <;> simp
    refine ⟨hdf, ?_⟩
    rw [if_neg hd] at hset
    cases cur with
    | dc k fs =>
      have hset2 : (Except.ok (Val.dc k (insertD fs t rep)) :
          Except PyErr Val) = .ok w := hset
      injection hset2 with hw
      exact ⟨k, fs, rfl, hw.symm⟩
    | vnone | vbool | vint | vstr | vpath | origin | vtuple | vlist =>
      simp [setFieldV] at hset

/-- Multi-token step, keeping the provenance of the rebuilt child. -/
theorem setAt_cons_decomp (cur : Val) (t u : String) (rest : List String)
    (rep w : Val) (hset : setAtTokens cur (t :: u :: rest) rep = .ok w) :
    (isDigitStr t = true ∧ ∃ items sub x,
      ((cur = .vlist items ∧ w = .vlist (items.set (intOfTok t) x)) ∨
       (cur = .vtuple items ∧ w = .vtuple (items.set (intOfTok t) x))) ∧
      items.get? (intOfTok t) = some sub ∧
      setAtTokens sub (u :: rest) rep = .ok x) ∨
    (isDigitStr t = false ∧ ∃ k fs sub x, cur = .dc k fs ∧
      w = .dc k (insertD fs t x) ∧ lookupD fs t = some sub ∧
      setAtTokens sub (u :: rest) rep = .ok x) := by
  by_cases hd : isDigitStr t = true
  · left
    refine ⟨hd, ?_⟩
    cases cur with
    | vlist items =>
      rw [setAt_cons_vlist items t u rest rep hd] at hset
      cases hget : items.get? (intOfTok t) with
      | none =>
        rw [hget] at hset
        have hset2 : (Except.error (PyErr.indexError "list index out of range") :
            Except PyErr Val) = .ok w := hset
        simp at hset2
      | some sub =>
        rw [hget] at hset
        have hset2 : (setAtTokens sub (u :: rest) rep).map
            (fun s => Val.vlist (items.set (intOfTok t) s)) = .ok w := hset
        obtain ⟨x, hx, hw⟩ := exceptMap_ok hset2
        exact ⟨items, sub, x, Or.inl ⟨rfl, hw⟩, hget, hx⟩
    | vtuple items =>
      rw [setAt_cons_vtuple items t u rest rep hd] at hset
      cases hget : items.get? (intOfTok t) with
      | none =>
        rw [hget] at hset
        have hset2 : (Except.error (PyErr.indexError "tuple index out of range") :
            Except PyErr Val) = .ok w := hset
        simp at hset2
      | some sub =>
        rw [hget] at hset
        have hset2 : (setAtTokens sub (u :: rest) rep).map
            (fun s => Val.vtuple (items.set (intOfTok t) s)) = .ok w := hset
        obtain ⟨x, hx, hw⟩ := exceptMap_ok hset2
        exact ⟨items, sub, x, Or.inr ⟨rfl, hw⟩, hget, hx⟩
    | dc k fs =>
      rw [setAt_cons_dc_digit k fs t u rest rep hd] at hset
      simp at hset
    | vnone | vbool | vint | vstr | vpath | origin =>
      simp [setAtTokens, hd] at hset
  · right
    have hdf : isDigitStr t = false := by revert hd; cases isDigitStr t <;> simp
    refine ⟨hdf, ?_⟩
    cases cur with
    | dc k fs =>
      rw [setAt_cons_dc k fs t u rest rep hdf] at hset
      cases hlk : lookupD fs t with
      | none =>
        rw [hlk] at hset
        have hset2 : (Except.error (PyErr.attributeError ("no attribute " ++ t)) :
            Except PyErr Val) = .ok w := hset
        simp at hset2
      | some sub =>
        rw [hlk] at hset
        have hset2 : (setAtTokens sub (u :: rest) rep).map
            (fun s => Val.dc k (insertD fs t s)) = .ok w := hset
        obtain ⟨x, hx, hw⟩ := exceptMap_ok hset2
        exact ⟨k, fs, sub, x, rfl, hw, hlk, hx⟩
    | vnone | vbool | vint | vstr | vpath | origin | vtuple | vlist =>
      simp [setAtTokens, hdf] at hset

/-- A rebuilt value is never an eligible placeholder (it is a list, tuple or
record). -/
theorem setAt_ok_not_elig {cur rep w : Val} {t : String} {rest : List String}
    (hset : setAtTokens cur (t :: rest) rep = .ok w) :
    is_unresolved_ref w = false := by
  rcases setAt_ok_shape cur t rest rep w hset with ⟨_, hsh⟩ | ⟨_, k, fs, x, _, hw⟩
  · rcases hsh with ⟨items, x, _, _, hw⟩ | ⟨items, x, _, _, hw⟩ <;> (rw [hw]; rfl)
  · rw [hw]; rfl

/-- A value a successful walk descends into or rewrites is never an eligible
placeholder either. -/
theorem setAt_ok_src_not_elig {cur rep w : Val} {t : String}
    {rest : List String} (hset : setAtTokens cur (t :: rest) rep = .ok w) :
    is_unresolved_ref cur = false := by
  rcases setAt_ok_shape cur t rest rep w hset with ⟨_, hsh⟩ | ⟨_, k, fs, x, hcur, _⟩
  · rcases hsh with ⟨items, x, hcur, _, _⟩ | ⟨items, x, hcur, _, _⟩ <;> (rw [hcur]; rfl)
  · rw [hcur]; rfl

theorem mapReplace_keys (t : String) (v : Val) (a : String) :
    ∀ (fs : List (String × Val)),
      (fs.map (fun p => if p.1 = t then (t, v) else p)).any (fun p => p.1 = a)
        = fs.any (fun p => p.1 = a) := by
  intro fs
  induction fs with
  | nil => rfl
  | cons hd rest ih =>
    simp only [List.map_cons, List.any_cons, ih]
    by_cases h : hd.1 = t
    · rw [if_pos h]
      simp [h]
    · rw [if_neg h]

theorem wfFields_mapReplace (t : String) (v : Val) (hv : wfVal v = true) :
    ∀ (fs : List (String × Val)), wfFields fs = true →
      wfFields (fs.map (fun p => if p.1 = t then (t, v) else p)) = true := by
  intro fs
  induction fs with
  | nil => intro _; rfl
  | cons hd rest ih =>
    intro hwf
    obtain ⟨a, b⟩ := hd
    rw [wfFields_cons] at hwf
    simp only [Bool.and_eq_true] at hwf
    obtain ⟨⟨⟨hgn, hnd⟩, hb⟩, hrest⟩ := hwf
    simp only [List.map_cons]
    by_cases hat : (a, b).1 = t
    · rw [if_pos hat]
      rw [wfFields_cons]
      simp only [Bool.and_eq_true]
      refine ⟨⟨⟨?_, ?_⟩, hv⟩, ih hrest⟩
      · rw [← (show a = t from hat)]
        exact hgn
      · rw [mapReplace_keys]
        rw [← (show a = t from hat)]
        exact hnd
    · rw [if_neg hat]
      rw [wfFields_cons]
      simp only [Bool.and_eq_true]
      refine ⟨⟨⟨hgn, ?_⟩, hb⟩, ih hrest⟩
      rw [mapReplace_keys]
      exact hnd

theorem wfFields_insertD {fs : List (String × Val)} {t : String} {v old : Val}
    (hwf : wfFields fs = true) (hv : wfVal v = true)
    (hlk : lookupD fs t = some old) : wfFields (insertD fs t v) = true := by
  rw [insertD, if_pos (any_of_lookupD_some hlk)]
  exact wfFields_mapReplace t v hv fs hwf

theorem wfItems_set : ∀ (items : List Val) (i : Nat) (v : Val),
    wfItems items = true → wfVal v = true → wfItems (items.set i v) = true := by
  intro items
  induction items with
  | nil => intro i v h _; exact h
  | cons x xs ih =>
    intro i v h hv
    rw [wfItems_cons] at h
    simp only [Bool.and_eq_true] at h
    cases i with
    | zero =>
      show wfItems (v :: xs) = true
      rw [wfItems_cons]
      simp only [Bool.and_eq_true]
      exact ⟨hv, h.2⟩
    | succ i' =>
      show wfItems (x :: xs.set i' v) = true
      rw [wfItems_cons]
      simp only [Bool.and_eq_true]
      exact ⟨h.1, ih i' v h.2 hv⟩

/-- A successful commit of a well-formed replacement at a present breadcrumb
preserves well-formedness of the whole tree. -/
theorem setAt_wf : ∀ (toks : List String) (cur rep w : Val),
    wfVal cur = true → wfVal rep = true →
    (∃ old, valueAt cur toks = some old) →
    setAtTokens cur toks rep = .ok w → wfVal w = true := by
  intro toks
  induction toks with
  | nil =>
    intro cur rep w hwc _ _ hset
    have h2 : (Except.ok cur : Except PyErr Val) = .ok w := hset
    injection h2 with h3
    rw [← h3]
    exact hwc
  | cons t rest ih =>
    intro cur rep w hwc hwr hpres hset
    cases rest with
    | nil =>
      rcases setAt_single_decomp _ _ _ _ hset with
        ⟨_, items, hcur, hlen, hw⟩ | ⟨hdf, k, fs, hcur, hw⟩
      · rw [hcur] at hwc
        rw [hw, wfVal_list]
        rw [wfVal_list] at hwc
        exact wfItems_set items _ rep hwc hwr
      · rw [hcur] at hwc hpres
        rw [wfVal_dc] at hwc
        obtain ⟨old, hold⟩ := hpres
        rw [valueAt_cons_dc _ _ _ _ hdf] at hold
        cases hlk : lookupD fs t with
        | none => rw [hlk] at hold; cases hold
        | some x =>
          rw [hw, wfVal_dc]
          exact wfFields_insertD hwc hwr hlk
    | cons u rest2 =>
      rcases setAt_cons_decomp _ _ _ _ _ _ hset with
        ⟨hd, items, sub, x, hco, hget, hx⟩ | ⟨hdf, k, fs, sub, x, hcur, hw, hlk, hx⟩
      · rcases hco with ⟨hcur, hw⟩ | ⟨hcur, hw⟩
        · rw [hcur] at hwc hpres
          rw [wfVal_list] at hwc
          obtain ⟨old, hold⟩ := hpres
          rw [valueAt_cons_vlist _ _ _ hd, hget] at hold
          have hwx := ih sub rep x (wfItems_get hwc hget) hwr ⟨old, hold⟩ hx
          rw [hw, wfVal_list]
          exact wfItems_set items _ x hwc hwx
        · rw [hcur] at hwc hpres
          rw [wfVal_tuple] at hwc
          obtain ⟨old, hold⟩ := hpres
          rw [valueAt_cons_vtuple _ _ _ hd, hget] at hold
          have hwx := ih sub rep x (wfItems_get hwc hget) hwr ⟨old, hold⟩ hx
          rw [hw, wfVal_tuple]
          exact wfItems_set items _ x hwc hwx
      · rw [hcur] at hwc hpres
        rw [wfVal_dc] at hwc
        obtain ⟨old, hold⟩ := hpres
        rw [valueAt_cons_dc _ _ _ _ hdf, hlk] at hold
        have hwx := ih sub rep x (wfFields_value hwc (lookupD_mem _ _ _ hlk)) hwr
          ⟨old, hold⟩ hx
        rw [hw, wfVal_dc]
        exact wfFields_insertD hwc hwx hlk

/-! ### Lemmas about `canAssign` -/

theorem ca_nil (v : Val) : canAssign v [] = true := rfl

theorem ca_single_vlist (items : List Val) (t : String)
    (h : isDigitStr t = true) :
    canAssign (.vlist items) [t] = decide (intOfTok t < items.length) := by
  have e : canAssign (.vlist items) [t]
      = if isDigitStr t = true then decide (intOfTok t < items.length)
        else false := rfl
  rw [e, if_pos h]

theorem ca_single_dc (k : RKind) (fs : List (String × Val)) (t : String)
    (h : isDigitStr t = false) : canAssign (.dc k fs) [t] = true := by
  have e : canAssign (.dc k fs) [t]
      = if isDigitStr t = true then false else true := rfl
  rw [e, if_neg (by simp [h])]

theorem ca_single_digit_other (v : Val) (t : String) (h : isDigitStr t = true)
    (hv : ∀ items, v ≠ .vlist items) : canAssign v [t] = false := by
  cases v
  case vlist items => exact absurd rfl (hv items)
  all_goals exact if_pos h

theorem ca_single_name_other (v : Val) (t : String) (h : isDigitStr t = false)
    (hv : ∀ k fs, v ≠ .dc k fs) : canAssign v [t] = false := by
  cases v
  case dc k fs => exact absurd rfl (hv k fs)
  all_goals exact if_neg (by simp [h])

theorem ca_cons_vlist (items : List Val) (t u : String) (rest : List String)
    (h : isDigitStr t = true) :
    canAssign (.vlist items) (t :: u :: rest)
      = match items.get? (intOfTok t) with
        | some sub => canAssign sub (u :: rest)
        | none => false := by
  have e : canAssign (.vlist items) (t :: u :: rest)
      = if isDigitStr t = true
        then match items.get? (intOfTok t) with
             | some sub => canAssign sub (u :: rest)
             | none => false
        else false := rfl
  rw [e, if_pos h]

theorem ca_cons_vtuple (items : List Val) (t u : String) (rest : List String)
    (h : isDigitStr t = true) :
    canAssign (.vtuple items) (t :: u :: rest)
      = match items.get? (intOfTok t) with
        | some sub => canAssign sub (u :: rest)
        | none => false := by
  have e : canAssign (.vtuple items) (t :: u :: rest)
      = if isDigitStr t = true
        then match items.get? (intOfTok t) with
             | some sub => canAssign sub (u :: rest)
             | none => false
        else false := rfl
  rw [e, if_pos h]

theorem ca_cons_dc (k : RKind) (fs : List (String × Val)) (t u : String)
    (rest : List String) (h : isDigitStr t = false) :
    canAssign (.dc k fs) (t :: u :: rest)
      = match lookupD fs t with
        | some sub => canAssign sub (u :: rest)
        | none => false := by
  have e : canAssign (.dc k fs) (t :: u :: rest)
      = if isDigitStr t = true then false
        else match lookupD fs t with
             | some sub => canAssign sub (u :: rest)
             | none => false := rfl
  rw [e, if_neg (by simp [h])]

theorem ca_cons_digit_other (v : Val) (t u : String) (rest : List String)
    (h : isDigitStr t = true) (hv1 : ∀ items, v ≠ .vlist items)
    (hv2 : ∀ items, v ≠ .vtuple items) :
    canAssign v (t :: u :: rest) = false := by
  cases v
  case vlist items => exact absurd rfl (hv1 items)
  case vtuple items => exact absurd rfl (hv2 items)
  all_goals exact if_pos h

theorem ca_cons_name_other (v : Val) (t u : String) (rest : List String)
    (h : isDigitStr t = false) (hv : ∀ k fs, v ≠ .dc k fs) :
    canAssign v (t :: u :: rest) = false := by
  cases v
  case dc k fs => exact absurd rfl (hv k fs)
  all_goals exact if_neg (by simp [h])

/-- A committable breadcrumb really commits: `setAtTokens` succeeds for any
replacement. -/
theorem canAssign_ok : ∀ (toks : List String) (cur : Val),
    canAssign cur toks = true → ∀ rep, ∃ w, setAtTokens cur toks rep = .ok w := by
  intro toks
  induction toks with
  | nil => intro cur _ rep; exact ⟨cur, rfl⟩
  | cons t rest ih =>
    intro cur hca rep
    cases rest with
    | nil =>
      by_cases hd : isDigitStr t = true
      · cases cur with
        | vlist items =>
          rw [ca_single_vlist _ _ hd] at hca
          have hlen : intOfTok t < items.length := of_decide_eq_true hca
          refine ⟨.vlist (items.set (intOfTok t) rep), ?_⟩
          rw [setAt_single, if_pos hd]
          show (if intOfTok t < items.length
              then Except.ok (Val.vlist (items.set (intOfTok t) rep))
              else (Except.error
                (PyErr.indexError "list assignment index out of range") :
                Except PyErr Val)) = _
          rw [if_pos hlen]
        | vnone | vbool | vint | vstr | vpath | origin | vtuple | dc =>
          simp [canAssign, hd] at hca
      · cases cur with
        | dc k fs =>
          refine ⟨.dc k (insertD fs t rep), ?_⟩
          rw [setAt_single, if_neg hd]
          rfl
        | vnone | vbool | vint | vstr | vpath | origin | vtuple | vlist =>
          simp [canAssign, hd] at hca
    | cons u rest2 =>
      by_cases hd : isDigitStr t = true
      · cases cur with
        | vlist items =>
          rw [ca_cons_vlist _ _ _ _ hd] at hca
          cases hget : items.get? (intOfTok t) with
          | none => rw [hget] at hca; simp at hca
          | some sub =>
            rw [hget] at hca
            have hca2 : canAssign sub (u :: rest2) = true := hca
            obtain ⟨x, hx⟩ := ih sub hca2 rep
            refine ⟨.vlist (items.set (intOfTok t) x), ?_⟩
            rw [setAt_cons_vlist items t u rest2 rep hd, hget]
            show (setAtTokens sub (u :: rest2) rep).map
              (fun s => Val.vlist (items.set (intOfTok t) s)) = _
            rw [hx]
            rfl
        | vtuple items =>
          rw [ca_cons_vtuple _ _ _ _ hd] at hca
          cases hget : items.get? (intOfTok t) with
          | none => rw [hget] at hca; simp at hca
          | some sub =>
            rw [hget] at hca
            have hca2 : canAssign sub (u :: rest2) = true := hca
            obtain ⟨x, hx⟩ := ih sub hca2 rep
            refine ⟨.vtuple (items.set (intOfTok t) x), ?_⟩
            rw [setAt_cons_vtuple items t u rest2 rep hd, hget]
            show (setAtTokens sub (u :: rest2) rep).map
              (fun s => Val.vtuple (items.set (intOfTok t) s)) = _
            rw [hx]
            rfl
        | vnone | vbool | vint | vstr | vpath | origin | dc =>
          simp [canAssign, hd] at hca
      · have hdf : isDigitStr t = false := by revert hd; cases isDigitStr t <;> simp
        cases cur with
        | dc k fs =>
          rw [ca_cons_dc _ _ _ _ _ hdf] at hca
          cases hlk : lookupD fs t with
          | none => rw [hlk] at hca; simp at hca
          | some sub =>
            rw [hlk] at hca
            have hca2 : canAssign sub (u :: rest2) = true := hca
            obtain ⟨x, hx⟩ := ih sub hca2 rep
            refine ⟨.dc k (insertD fs t x), ?_⟩
            rw [setAt_cons_dc k fs t u rest2 rep hdf, hlk]
            show (setAtTokens sub (u :: rest2) rep).map
              (fun s => Val.dc k (insertD fs t s)) = _
            rw [hx]
            rfl
        | vnone | vbool | vint | vstr | vpath | origin | vtuple | vlist =>
          simp [canAssign, hd] at hca

/-- Committability at an independent canonical breadcrumb is unchanged by a
successful commit. -/
theorem canAssign_frame :
    ∀ (toks : List String) (cur rep w : Val) (toks2 : List String),
      setAtTokens cur toks rep = .ok w → addrIndep toks toks2 →
      canonAddr toks → canonAddr toks2 →
      canAssign w toks2 = canAssign cur toks2 := by
  intro toks
  induction toks with
  | nil =>
    intro cur rep w toks2 hset _ _ _
    have h2 : (Except.ok cur : Except PyErr Val) = .ok w := hset
    injection h2 with h3
    rw [h3]
  | cons t rest ih =>
    intro cur rep w toks2 hset hind hct hct2
    cases toks2 with
    | nil => rfl
    | cons s rest2 =>
      by_cases hst : s = t
      · subst hst
        cases rest with
        | nil => exact absurd ⟨rest2, rfl⟩ (addrIndep_cons_strip hind).1
        | cons u rest3 =>
          cases rest2 with
          | nil => exact absurd ⟨u :: rest3, rfl⟩ (addrIndep_cons_strip hind).2
          | cons r2 rs2 =>
            rcases setAt_cons_decomp _ _ _ _ _ _ hset with
              ⟨hd, items, sub, x, hco, hget, hx⟩ |
              ⟨hdf, k, fs, sub, x, hcur, hw, hlk, hx⟩
            · rcases hco with ⟨hcur, hw⟩ | ⟨hcur, hw⟩
              · rw [hcur, hw, ca_cons_vlist _ _ _ _ hd, ca_cons_vlist _ _ _ _ hd,
                    get?_set_self _ _ _ (get?_some_lt items _ sub hget), hget]
                show canAssign x (r2 :: rs2) = canAssign sub (r2 :: rs2)
                exact ih sub rep x (r2 :: rs2) hx (addrIndep_cons_strip hind)
                  (canonAddr_cons hct).2 (canonAddr_cons hct2).2
              · rw [hcur, hw, ca_cons_vtuple _ _ _ _ hd, ca_cons_vtuple _ _ _ _ hd,
                    get?_set_self _ _ _ (get?_some_lt items _ sub hget), hget]
                show canAssign x (r2 :: rs2) = canAssign sub (r2 :: rs2)
                exact ih sub rep x (r2 :: rs2) hx (addrIndep_cons_strip hind)
                  (canonAddr_cons hct).2 (canonAddr_cons hct2).2
            · rw [hcur, hw, ca_cons_dc _ _ _ _ _ hdf, ca_cons_dc _ _ _ _ _ hdf,
                  lookupD_insertD_self, hlk]
              show canAssign x (r2 :: rs2) = canAssign sub (r2 :: rs2)
              exact ih sub rep x (r2 :: rs2) hx (addrIndep_cons_strip hind)
                (canonAddr_cons hct).2 (canonAddr_cons hct2).2
      · rcases setAt_ok_shape cur t rest rep w hset with
          ⟨hd, hsh⟩ | ⟨hdf, k, fs, x, hcur, hw⟩
        · by_cases hds : isDigitStr s = true
          · have hiv : intOfTok t ≠ intOfTok s := by
              intro hii
              apply hst
              have h1 : t = natTok (intOfTok t) := (canonAddr_cons hct).1 hd
              have h2 : s = natTok (intOfTok s) := (canonAddr_cons hct2).1 hds
              rw [h1, h2, hii]
            rcases hsh with ⟨items, x, hcur, _, hw⟩ | ⟨items, x, hcur, _, hw⟩
            · rw [hcur, hw]
              cases rest2 with
              | nil =>
                rw [ca_single_vlist _ _ hds, ca_single_vlist _ _ hds,
                    List.length_set]
              | cons r2 rs2 =>
                rw [ca_cons_vlist _ _ _ _ hds, ca_cons_vlist _ _ _ _ hds,
                    get?_set_ne _ _ _ _ hiv]
            · rw [hcur, hw]
              cases rest2 with
              | nil =>
                rw [ca_single_digit_other (.vtuple (items.set (intOfTok t) x)) s
                      hds (fun _ hc => Val.noConfusion hc),
                    ca_single_digit_other (.vtuple items) s
                      hds (fun _ hc => Val.noConfusion hc)]
              | cons r2 rs2 =>
                rw [ca_cons_vtuple _ _ _ _ hds, ca_cons_vtuple _ _ _ _ hds,
                    get?_set_ne _ _ _ _ hiv]
          · have hdsf : isDigitStr s = false := by
              revert hds; cases isDigitStr s <;> simp
            rcases hsh with ⟨items, x, hcur, _, hw⟩ | ⟨items, x, hcur, _, hw⟩
            · rw [hcur, hw]
              cases rest2 with
              | nil =>
                rw [ca_single_name_other (.vlist (items.set (intOfTok t) x)) s
                      hdsf (fun _ _ hc => Val.noConfusion hc),
                    ca_single_name_other (.vlist items) s
                      hdsf (fun _ _ hc => Val.noConfusion hc)]
              | cons r2 rs2 =>
                rw [ca_cons_name_other (.vlist (items.set (intOfTok t) x)) s r2 rs2
                      hdsf (fun _ _ hc => Val.noConfusion hc),
                    ca_cons_name_other (.vlist items) s r2 rs2
                      hdsf (fun _ _ hc => Val.noConfusion hc)]
            · rw [hcur, hw]
              cases rest2 with
              | nil =>
                rw [ca_single_name_other (.vtuple (items.set (intOfTok t) x)) s
                      hdsf (fun _ _ hc => Val.noConfusion hc),
                    ca_single_name_other (.vtuple items) s
                      hdsf (fun _ _ hc => Val.noConfusion hc)]
              | cons r2 rs2 =>
                rw [ca_cons_name_other (.vtuple (items.set (intOfTok t) x)) s r2 rs2
                      hdsf (fun _ _ hc => Val.noConfusion hc),
                    ca_cons_name_other (.vtuple items) s r2 rs2
                      hdsf (fun _ _ hc => Val.noConfusion hc)]
        · by_cases hds : isDigitStr s = true
          · rw [hcur, hw]
            cases rest2 with
            | nil =>
              rw [ca_single_digit_other (.dc k (insertD fs t x)) s
                    hds (fun _ hc => Val.noConfusion hc),
                  ca_single_digit_other (.dc k fs) s
                    hds (fun _ hc => Val.noConfusion hc)]
            | cons r2 rs2 =>
              rw [ca_cons_digit_other (.dc k (insertD fs t x)) s r2 rs2 hds
                    (fun _ hc => Val.noConfusion hc) (fun _ hc => Val.noConfusion hc),
                  ca_cons_digit_other (.dc k fs) s r2 rs2 hds
                    (fun _ hc => Val.noConfusion hc) (fun _ hc => Val.noConfusion hc)]
          · have hdsf : isDigitStr s = false := by
              revert hds; cases isDigitStr s <;> simp
            rw [hcur, hw]
            cases rest2 with
            | nil => rw [ca_single_dc _ _ _ hdsf, ca_single_dc _ _ _ hdsf]
            | cons r2 rs2 =>
              rw [ca_cons_dc _ _ _ _ _ hdsf, ca_cons_dc _ _ _ _ _ hdsf,
                  lookupD_insertD_ne _ _ _ _ hst]

/-! ### Backward transfer of discovered placeholders across a commit -/

/-- How one slot of a rebuilt collection relates to the original: untouched,
the replacement itself, or a deeper rebuild of the original slot. -/
theorem setAt_slot_rel {sub rep x : Val} {u : String} {rest2 : List String}
    (hx : setAtTokens sub (u :: rest2) rep = .ok x) :
    ∀ {items2 : List Val}, (x = .vtuple items2 ∨ x = .vlist items2) →
    ∀ {j : Nat} {item : Val}, items2.get? j = some item →
    ∃ subitems, (sub = .vtuple subitems ∨ sub = .vlist subitems) ∧
      (subitems.get? j = some item ∨
        (item = rep ∨ ∃ sub2, subitems.get? j = some sub2 ∧
          is_unresolved_ref sub2 = false ∧ rest2 ≠ [] ∧
          setAtTokens sub2 rest2 rep = .ok item)) := by
  intro items2 hxc j item hget2
  cases rest2 with
  | nil =>
    rcases setAt_single_decomp _ _ _ _ hx with
      ⟨_, subitems, hsub, hlen2, hxw⟩ | ⟨_, k3, fs3, hsub, hxw⟩
    · rcases hxc with hc | hc
      · rw [hxw] at hc; cases hc
      · rw [hxw] at hc
        injection hc with hit
        rw [← hit] at hget2
        by_cases hji : intOfTok u = j
        · refine ⟨subitems, Or.inr hsub, Or.inr (Or.inl ?_)⟩
          rw [← hji, get?_set_self _ _ _ hlen2] at hget2
          injection hget2 with hi
          exact hi.symm
        · rw [get?_set_ne _ _ _ _ hji] at hget2
          exact ⟨subitems, Or.inr hsub, Or.inl hget2⟩
    · rcases hxc with hc | hc <;> (rw [hxw] at hc; cases hc)
  | cons r2 rs2 =>
    rcases setAt_cons_decomp _ _ _ _ _ _ hx with
      ⟨_, subitems, sub2, y, hco, hgety, hy⟩ | ⟨_, k3, fs3, sub2, y, _, hxw, _, _⟩
    · rcases hco with ⟨hsub, hxw⟩ | ⟨hsub, hxw⟩
      · rcases hxc with hc | hc
        · rw [hxw] at hc; cases hc
        · rw [hxw] at hc
          injection hc with hit
          rw [← hit] at hget2
          by_cases hji : intOfTok u = j
          · refine ⟨subitems, Or.inr hsub, Or.inr (Or.inr ⟨sub2, ?_, ?_, ?_, ?_⟩)⟩
            · rw [← hji]; exact hgety
            · exact setAt_ok_src_not_elig hy
            · intro hc2; cases hc2
            · rw [← hji,
                get?_set_self _ _ _ (get?_some_lt subitems _ sub2 hgety)] at hget2
              injection hget2 with hi
              rw [← hi]
              exact hy
          · rw [get?_set_ne _ _ _ _ hji] at hget2
            exact ⟨subitems, Or.inr hsub, Or.inl hget2⟩
      · rcases hxc with hc | hc
        · rw [hxw] at hc
          injection hc with hit
          rw [← hit] at hget2
          by_cases hji : intOfTok u = j
          · refine ⟨subitems, Or.inl hsub, Or.inr (Or.inr ⟨sub2, ?_, ?_, ?_, ?_⟩)⟩
            · rw [← hji]; exact hgety
            · exact setAt_ok_src_not_elig hy
            · intro hc2; cases hc2
            · rw [← hji,
                get?_set_self _ _ _ (get?_some_lt subitems _ sub2 hgety)] at hget2
              injection hget2 with hi
              rw [← hi]
              exact hy
          · rw [get?_set_ne _ _ _ _ hji] at hget2
            exact ⟨subitems, Or.inl hsub, Or.inl hget2⟩
        · rw [hxw] at hc; cases hc
    · rcases hxc with hc | hc <;> (rw [hxw] at hc; cases hc)

/-- Committing an inert replacement (no ordered collection, not eligible, no
discoverable placeholders of its own) never creates placeholder entries:
every discovery in the rebuilt tree was already present. -/
theorem specMem_setAt_aux :
    ∀ (n : Nat) (toks : List String) (cur rep w : Val),
      toks.length ≤ n →
      isColl rep = false → is_unresolved_ref rep = false →
      (∀ a2 v2, ¬ SpecMem rep a2 v2) →
      setAtTokens cur toks rep = .ok w →
      ∀ addr v, SpecMem w addr v → SpecMem cur addr v := by
  intro n
  induction n with
  | zero =>
    intro toks cur rep w hlen _ _ _ hset addr v h
    cases toks with
    | nil =>
      have h2 : (Except.ok cur : Except PyErr Val) = .ok w := hset
      injection h2 with h3
      rw [h3]
      exact h
    | cons t rest => simp at hlen
  | succ m ih =>
    intro toks cur rep w hlen hcoll helig hnomem hset addr v h
    cases toks with
    | nil =>
      have h2 : (Except.ok cur : Except PyErr Val) = .ok w := hset
      injection h2 with h3
      rw [h3]
      exact h
    | cons t rest =>
      cases rest with
      | nil =>
        rcases setAt_single_decomp _ _ _ _ hset with
          ⟨_, items, hcur, _, hw⟩ | ⟨_, k, fs, hcur, hw⟩
        · rw [hw] at h
          cases h
        · rw [hw] at h
          rw [hcur]
          cases h with
          | @fieldDirect _ _ n2 _ hmem href hncoll helig2 =>
            rcases mem_insertD hmem with hmf | hpe
            · exact .fieldDirect hmf href hncoll helig2
            · have hv : v = rep := congrArg Prod.snd hpe
              rw [hv, helig] at helig2
              cases helig2
          | @itemDirect _ _ n2 cv2 items2 j _ hmem href hcoll2 hget2 helig2 =>
            rcases mem_insertD hmem with hmf | hpe
            · exact .itemDirect hmf href hcoll2 hget2 helig2
            · have hcv2 : cv2 = rep := congrArg Prod.snd hpe
              rw [hcv2] at hcoll2
              rcases hcoll2 with hc | hc <;>
                (rw [hc] at hcoll; simp [isColl] at hcoll)
          | @itemNested _ _ n2 cv2 items2 j item addr2 _
              hmem href hcoll2 hget2 helig2 hsub2 =>
            rcases mem_insertD hmem with hmf | hpe
            · exact .itemNested hmf href hcoll2 hget2 helig2 hsub2
            · have hcv2 : cv2 = rep := congrArg Prod.snd hpe
              rw [hcv2] at hcoll2
              rcases hcoll2 with hc | hc <;>
                (rw [hc] at hcoll; simp [isColl] at hcoll)
      | cons u rest2 =>
        rcases setAt_cons_decomp _ _ _ _ _ _ hset with
          ⟨_, items, sub, x, hco, hget, hx⟩ |
          ⟨_, k, fs, sub, x, hcur, hw, hlk, hx⟩
        · rcases hco with ⟨hcur, hw⟩ | ⟨hcur, hw⟩ <;> (rw [hw] at h; cases h)
        · rw [hw] at h
          rw [hcur]
          cases h with
          | @fieldDirect _ _ n2 _ hmem href hncoll helig2 =>
            rcases mem_insertD hmem with hmf | hpe
            · exact .fieldDirect hmf href hncoll helig2
            · have hv : v = x := congrArg Prod.snd hpe
              rw [hv, setAt_ok_not_elig hx] at helig2
              cases helig2
          | @itemDirect _ _ n2 cv2 items2 j _ hmem href hcoll2 hget2 helig2 =>
            rcases mem_insertD hmem with hmf | hpe
            · exact .itemDirect hmf href hcoll2 hget2 helig2
            · have hn2 : n2 = t := congrArg Prod.fst hpe
              have hcv2 : cv2 = x := congrArg Prod.snd hpe
              rw [hcv2] at hcoll2
              obtain ⟨subitems, hsubc, hrel⟩ := setAt_slot_rel hx hcoll2 hget2
              rcases hrel with hold | hrep | ⟨sub2, hgets, heligs, hne2, hy⟩
              · refine .itemDirect ?_ href hsubc hold helig2
                rw [hn2]
                exact lookupD_mem _ _ _ hlk
              · rw [hrep, helig] at helig2
                cases helig2
              · cases hrest2 : rest2 with
                | nil => rw [hrest2] at hne2; exact absurd rfl hne2
                | cons r2 rs2 =>
                  rw [hrest2] at hy
                  rw [setAt_ok_not_elig hy] at helig2
                  cases helig2
          | @itemNested _ _ n2 cv2 items2 j item addr2 _
              hmem href hcoll2 hget2 helig2 hsub2 =>
            rcases mem_insertD hmem with hmf | hpe
            · exact .itemNested hmf href hcoll2 hget2 helig2 hsub2
            · have hn2 : n2 = t := congrArg Prod.fst hpe
              have hcv2 : cv2 = x := congrArg Prod.snd hpe
              rw [hcv2] at hcoll2
              obtain ⟨subitems, hsubc, hrel⟩ := setAt_slot_rel hx hcoll2 hget2
              rcases hrel with hold | hrep | ⟨sub2, hgets, heligs, hne2, hy⟩
              · refine .itemNested ?_ href hsubc hold helig2 hsub2
                rw [hn2]
                exact lookupD_mem _ _ _ hlk
              · rw [hrep] at hsub2
                exact absurd hsub2 (hnomem addr2 v)
              · cases hrest2 : rest2 with
                | nil => rw [hrest2] at hne2; exact absurd rfl hne2
                | cons r2 rs2 =>
                  rw [hrest2] at hy
                  have htrans := ih (r2 :: rs2) sub2 rep item
                    (by
                      rw [hrest2] at hlen
                      simp only [List.length_cons] at hlen ⊢
                      omega)
                    hcoll helig hnomem hy addr2 v hsub2
                  refine .itemNested ?_ href hsubc hgets heligs htrans
                  rw [hn2]
                  exact lookupD_mem _ _ _ hlk

theorem specMem_setAt {toks : List String} {cur rep w : Val}
    (hcoll : isColl rep = false) (helig : is_unresolved_ref rep = false)
    (hnomem : ∀ a2 v2, ¬ SpecMem rep a2 v2)
    (hset : setAtTokens cur toks rep = .ok w)
    {addr : List String} {v : Val} (h : SpecMem w addr v) :
    SpecMem cur addr v :=
  specMem_setAt_aux toks.length toks cur rep w (Nat.le_refl _)
    hcoll helig hnomem hset addr v h

/-! ### Lemmas about `_get_resolved` and `resolve` -/

theorem addrIndep_symm {u v : List String} (h : addrIndep u v) : addrIndep v u :=
  ⟨h.2, h.1⟩

theorem unres_nil_of_resolved {obj : Val} (h : is_resolved obj = true) :
    unresolved_refs obj = [] := by
  rw [is_resolved] at h
  exact List.isEmpty_iff.mp h

theorem getres_step_nil (ctx : List (String × Val)) :
    ∀ (l : List (String × Val)) (acc : List (String × Val)),
      (∀ kv ∈ l, lookupD ctx (strOfVal kv.2) = none) →
      l.foldl (fun acc kv =>
        match lookupD ctx (strOfVal kv.2) with
        | some obj => if truthy obj then insertD acc kv.1 obj else acc
        | none => acc) acc = acc := by
  intro l
  induction l with
  | nil => intro acc _; rfl
  | cons kv rest ih =>
    intro acc hnone
    simp only [List.foldl_cons]
    rw [hnone kv (List.mem_cons_self kv rest)]
    exact ih acc (fun kv2 h2 => hnone kv2 (List.mem_cons_of_mem kv h2))

theorem get_resolved_nil_of_no_match {obj : Val} {ctx : List (String × Val)}
    (h : ∀ kv ∈ unresolved_refs obj, lookupD ctx (strOfVal kv.2) = none) :
    get_resolved obj ctx = [] := by
  rw [get_resolved]
  exact getres_step_nil ctx _ [] h

theorem resolve_noop {obj : Val} {ctx : List (String × Val)}
    (h : get_resolved obj ctx = []) : resolve obj ctx = .ok obj := by
  rw [resolve, h]
  rfl

theorem resolve_noop_of_resolved {obj : Val} {ctx : List (String × Val)}
    (h : is_resolved obj = true) : resolve obj ctx = .ok obj :=
  resolve_noop (by rw [get_resolved, unres_nil_of_resolved h]; rfl)

theorem foldl_getres_append (ctx : List (String × Val)) :
    ∀ (l : List (String × Val)) (acc : List (String × Val)),
      (∀ kv ∈ l, ∀ p ∈ acc, p.1 ≠ kv.1) →
      l.Pairwise (fun a b => a.1 ≠ b.1) →
      l.foldl (fun acc kv =>
        match lookupD ctx (strOfVal kv.2) with
        | some obj => if truthy obj then insertD acc kv.1 obj else acc
        | none => acc) acc
      = acc ++ l.filterMap (fun kv =>
          (matchCtx ctx kv.2).map (fun rep => (kv.1, rep))) := by
  intro l
  induction l with
  | nil => intro acc _ _; simp
  | cons kv rest ih =>
    intro acc hfresh hpw
    rw [List.pairwise_cons] at hpw
    simp only [List.foldl_cons, List.filterMap_cons]
    cases hm : lookupD ctx (strOfVal kv.2) with
    | none =>
      have hmc : (matchCtx ctx kv.2).map (fun rep => (kv.1, rep)) = none := by
        rw [matchCtx, hm]
        rfl
      rw [hmc]
      exact ih acc
        (fun kv2 h2 p hp => hfresh kv2 (List.mem_cons_of_mem kv h2) p hp) hpw.2
    | some obj =>
      by_cases ht : truthy obj = true
      · have hmc : (matchCtx ctx kv.2).map (fun rep => (kv.1, rep))
            = some (kv.1, obj) := by
          rw [matchCtx, hm]
          show ((if truthy obj = true then some obj else none).map
            (fun rep => (kv.1, rep))) = _
          rw [if_pos ht]
          rfl
        rw [hmc]
        show List.foldl _
          (if truthy obj = true then insertD acc kv.1 obj else acc) rest = _
        rw [if_pos ht,
            insertD_fresh acc kv.1 obj
              (fun p hp => hfresh kv (List.mem_cons_self kv rest) p hp),
            ih (acc ++ [(kv.1, obj)]) ?_ hpw.2]
        · simp
        · intro kv2 h2 p hp
          rcases List.mem_append.mp hp with hpa | hpe
          · exact hfresh kv2 (List.mem_cons_of_mem kv h2) p hpa
          · rcases List.mem_singleton.mp hpe with rfl
            exact hpw.1 kv2 h2
      · have hmc : (matchCtx ctx kv.2).map (fun rep => (kv.1, rep)) = none := by
          rw [matchCtx, hm]
          show ((if truthy obj = true then some obj else none).map
            (fun rep => (kv.1, rep))) = _
          rw [if_neg ht]
          rfl
        rw [hmc]
        show List.foldl _
          (if truthy obj = true then insertD acc kv.1 obj else acc) rest = _
        rw [if_neg ht]
        exact ih acc
          (fun kv2 h2 p hp => hfresh kv2 (List.mem_cons_of_mem kv h2) p hp) hpw.2

theorem mem_unresolved_refs {obj : Val} {kv : String × Val}
    (hwf : wfVal obj = true) (h : kv ∈ unresolved_refs obj) :
    ∃ addr, addrOK addr ∧ kv.1 = joinCrumbs addr ∧ SpecMem obj addr kv.2 := by
  rw [unresolved_refs, mem_sortLe, collect_eq_joined obj hwf, List.mem_map] at h
  obtain ⟨e, he, heq⟩ := h
  subst heq
  exact ⟨e.1, (specPkgVal obj hwf).1 e he, rfl, (specMem_iff _ _ _).mpr he⟩

theorem unresolved_entry_props {obj : Val} {kv : String × Val}
    (hwf : wfVal obj = true) (h : kv ∈ unresolved_refs obj) :
    splitCrumbs kv.1 ≠ [] ∧ canonAddr (splitCrumbs kv.1) ∧
    valueAt obj (splitCrumbs kv.1) = some kv.2 ∧
    SpecMem obj (splitCrumbs kv.1) kv.2 := by
  obtain ⟨addr, hok, hkey, hmem⟩ := mem_unresolved_refs hwf h
  have hsplit : splitCrumbs kv.1 = addr := by
    rw [hkey]
    exact splitCrumbs_joinCrumbs addr hok.1 hok.2
  rw [hsplit]
  exact ⟨hok.1, specMem_canon hwf hmem, specMem_valueAt hwf hmem, hmem⟩

theorem unresolved_pairwise {obj : Val} (hwf : wfVal obj = true) :
    (unresolved_refs obj).Pairwise
      (fun a b => addrIndep (splitCrumbs a.1) (splitCrumbs b.1)) := by
  have hbase : (collectSpec obj).Pairwise
      (fun e1 e2 => addrIndep (splitCrumbs (joinCrumbs e1.1))
        (splitCrumbs (joinCrumbs e2.1))) := by
    refine List.Pairwise.imp_of_mem ?_ (specPkgVal obj hwf).2
    intro e1 e2 h1 h2 hind
    have hok1 := (specPkgVal obj hwf).1 e1 h1
    have hok2 := (specPkgVal obj hwf).1 e2 h2
    rw [splitCrumbs_joinCrumbs e1.1 hok1.1 hok1.2,
        splitCrumbs_joinCrumbs e2.1 hok2.1 hok2.2]
    exact hind
  have hmap : (collect_unresolved_refs obj "" []).Pairwise
      (fun a b => addrIndep (splitCrumbs a.1) (splitCrumbs b.1)) := by
    rw [collect_eq_joined obj hwf, List.pairwise_map]
    exact hbase
  rw [unresolved_refs]
  exact ((sortLe_perm pairLeB _).pairwise_iff
    (by intro a b h; exact addrIndep_symm h)).mpr hmap

theorem unresolved_keys_distinct {obj : Val} (hwf : wfVal obj = true) :
    (unresolved_refs obj).Pairwise (fun a b => a.1 ≠ b.1) := by
  refine (unresolved_pairwise hwf).imp ?_
  intro a b hind heq
  rw [heq] at hind
  exact addrIndep_ne hind rfl

theorem get_resolved_eq {base : Val} {ctx : List (String × Val)}
    (hwf : wfVal base = true) :
    get_resolved base ctx = resolvedOf base ctx := by
  rw [get_resolved, resolvedOf]
  exact foldl_getres_append ctx (unresolved_refs base) []
    (fun kv _ p hp => absurd hp (List.not_mem_nil p))
    (unresolved_keys_distinct hwf)

theorem mem_resolvedOf {base : Val} {ctx : List (String × Val)}
    {kv : String × Val} :
    kv ∈ resolvedOf base ctx ↔
      ∃ r, (kv.1, r) ∈ unresolved_refs base ∧ matchCtx ctx r = some kv.2 := by
  rw [resolvedOf, List.mem_filterMap]
  constructor
  · rintro ⟨a, ha, hfa⟩
    cases hmc : matchCtx ctx a.2 with
    | none =>
      rw [hmc] at hfa
      cases hfa
    | some rep =>
      rw [hmc] at hfa
      have h2 : some (a.1, rep) = some kv := hfa
      injection h2 with h3
      refine ⟨a.2, ?_, ?_⟩
      · rw [← h3]
        simpa using ha
      · rw [← h3, hmc]
  · rintro ⟨r, hmem, hmc⟩
    refine ⟨(kv.1, r), hmem, ?_⟩
    rw [hmc]
    rfl

theorem resolvedOf_pairwise {base : Val} {ctx : List (String × Val)}
    (hwf : wfVal base = true) :
    (resolvedOf base ctx).Pairwise
      (fun a b => addrIndep (splitCrumbs a.1) (splitCrumbs b.1)) := by
  rw [resolvedOf, List.pairwise_filterMap]
  refine (unresolved_pairwise hwf).imp_of_mem ?_
  intro a b _ _ hind x hx y hy
  rcases Option.map_eq_some'.mp hx with ⟨ra, _, hxe⟩
  rcases Option.map_eq_some'.mp hy with ⟨rb, _, hye⟩
  rw [← hxe, ← hye]
  simpa using hind

/-- The head of any discovered breadcrumb is a field whose value is either an
eligible placeholder itself or an ordered collection. -/
theorem specMem_head {k : RKind} {fs : List (String × Val)}
    {addr : List String} {r : Val} (h : SpecMem (.dc k fs) addr r) :
    ∃ n rest cv, addr = n :: rest ∧ (n, cv) ∈ fs ∧
      (is_unresolved_ref cv = true ∨
        ∃ items, cv = .vtuple items ∨ cv = .vlist items) := by
  cases h with
  | fieldDirect hmem href hncoll helig =>
    exact ⟨_, [], _, rfl, hmem, Or.inl helig⟩
  | itemDirect hmem href hcoll hget helig =>
    exact ⟨_, _, _, rfl, hmem, Or.inr ⟨_, hcoll⟩⟩
  | itemNested hmem href hcoll hget helig hsub =>
    exact ⟨_, _, _, rfl, hmem, Or.inr ⟨_, hcoll⟩⟩

theorem foldlM_setAt (l : List (String × Val)) :
    ∀ (cur w : Val),
      List.foldlM (fun c kv => setAtTokens c (splitCrumbs kv.1) kv.2) cur l
        = .ok w →
      (∀ kv ∈ l, splitCrumbs kv.1 ≠ [] ∧ canonAddr (splitCrumbs kv.1)) →
      l.Pairwise (fun a b => addrIndep (splitCrumbs a.1) (splitCrumbs b.1)) →
      (∀ kv ∈ l, valueAt w (splitCrumbs kv.1) = some kv.2) ∧
      (∀ addr2, canonAddr addr2 →
        (∀ kv ∈ l, addrIndep (splitCrumbs kv.1) addr2) →
        valueAt w addr2 = valueAt cur addr2) := by
  induction l with
  | nil =>
    intro cur w hfold _ _
    have h2 : (Except.ok cur : Except PyErr Val) = .ok w := hfold
    injection h2 with h3
    subst h3
    exact ⟨fun kv hkv => absurd hkv (List.not_mem_nil kv),
           fun addr2 _ _ => rfl⟩
  | cons kv rest ih =>
    intro cur w hfold hprops hpw
    rw [List.foldlM_cons] at hfold
    cases hstep : setAtTokens cur (splitCrumbs kv.1) kv.2 with
    | error e =>
      rw [hstep] at hfold
      have h2 : (Except.error e : Except PyErr Val) = .ok w := hfold
      simp at h2
    | ok c1 =>
      rw [hstep] at hfold
      have hfold2 : List.foldlM
          (fun c kv => setAtTokens c (splitCrumbs kv.1) kv.2) c1 rest
          = .ok w := hfold
      rw [List.pairwise_cons] at hpw
      obtain ⟨hvals, hframe⟩ := ih c1 w hfold2
        (fun kv2 h2 => hprops kv2 (List.mem_cons_of_mem kv h2)) hpw.2
      obtain ⟨hne, hcan⟩ := hprops kv (List.mem_cons_self kv rest)
      constructor
      · intro kv2 hkv2
        rcases List.mem_cons.mp hkv2 with heq | hmem
        · rw [heq,
              hframe (splitCrumbs kv.1) hcan
                (fun kv3 h3 => addrIndep_symm (hpw.1 kv3 h3))]
          exact setAt_value (splitCrumbs kv.1) cur kv.2 c1 hne hstep
        · exact hvals kv2 hmem
      · intro addr2 hc2 hind
        rw [hframe addr2 hc2 (fun kv2 h2 => hind kv2 (List.mem_cons_of_mem kv h2))]
        exact setAt_frame (splitCrumbs kv.1) cur kv.2 c1 addr2 hstep
          (hind kv (List.mem_cons_self kv rest)) hcan hc2

theorem foldlM_dc_shape (l : List (String × Val)) :
    ∀ (k : RKind) (fs : List (String × Val)) (w : Val),
      List.foldlM (fun c kv => setAtTokens c (splitCrumbs kv.1) kv.2)
        (.dc k fs) l = .ok w →
      (∀ kv ∈ l, splitCrumbs kv.1 ≠ []) →
      ∃ fs2, w = .dc k fs2 := by
  induction l with
  | nil =>
    intro k fs w hfold _
    have h2 : (Except.ok (Val.dc k fs) : Except PyErr Val) = .ok w := hfold
    injection h2 with h3
    exact ⟨fs, h3.symm⟩
  | cons kv rest ih =>
    intro k fs w hfold hne
    rw [List.foldlM_cons] at hfold
    cases hstep : setAtTokens (.dc k fs) (splitCrumbs kv.1) kv.2 with
    | error e =>
      rw [hstep] at hfold
      have h2 : (Except.error e : Except PyErr Val) = .ok w := hfold
      simp at h2
    | ok c1 =>
      rw [hstep] at hfold
      have hfold2 : List.foldlM
          (fun c kv => setAtTokens c (splitCrumbs kv.1) kv.2) c1 rest
          = .ok w := hfold
      cases hsc : splitCrumbs kv.1 with
      | nil => exact absurd hsc (hne kv (List.mem_cons_self kv rest))
      | cons t ts =>
        rw [hsc] at hstep
        rcases setAt_ok_shape _ t ts kv.2 c1 hstep with
          ⟨_, hsh⟩ | ⟨_, k2, fs2, x, hcur, hw⟩
        · rcases hsh with ⟨items, x, hcur, _, _⟩ | ⟨items, x, hcur, _, _⟩ <;>
            cases hcur
        · injection hcur with hk hfs
          have hc1 : c1 = .dc k (insertD fs2 t x) := by rw [hw, ← hk]
          rw [hc1] at hfold2
          exact ih k (insertD fs2 t x) w hfold2
            (fun kv2 h2 => hne kv2 (List.mem_cons_of_mem kv h2))

/-- Totality of the `resolve` fold: with every committed breadcrumb
committable in the current tree and every replacement inert, the whole fold
succeeds, the result is well-formed, and every discovery in the result was
already present before the fold. -/
theorem foldlM_setAt_total :
    ∀ (l : List (String × Val)) (cur : Val),
      wfVal cur = true →
      (∀ kv ∈ l, splitCrumbs kv.1 ≠ [] ∧ canonAddr (splitCrumbs kv.1) ∧
        canAssign cur (splitCrumbs kv.1) = true ∧
        (∃ old, valueAt cur (splitCrumbs kv.1) = some old)) →
      l.Pairwise (fun a b => addrIndep (splitCrumbs a.1) (splitCrumbs b.1)) →
      (∀ kv ∈ l, isColl kv.2 = false ∧ is_unresolved_ref kv.2 = false ∧
        wfVal kv.2 = true ∧ (∀ a2 v2, ¬ SpecMem kv.2 a2 v2)) →
      ∃ w, List.foldlM (fun c kv => setAtTokens c (splitCrumbs kv.1) kv.2) cur l
          = .ok w ∧ wfVal w = true ∧
        (∀ addr v, SpecMem w addr v → SpecMem cur addr v) := by
  intro l
  induction l with
  | nil =>
    intro cur hwf _ _ _
    exact ⟨cur, rfl, hwf, fun _ _ h => h⟩
  | cons kv rest ih =>
    intro cur hwf hprops hpw hinert
    obtain ⟨hne, hcan, hca, hpres⟩ := hprops kv (List.mem_cons_self kv rest)
    obtain ⟨hic, hie, hwr, hnm⟩ := hinert kv (List.mem_cons_self kv rest)
    obtain ⟨c1, hstep⟩ := canAssign_ok (splitCrumbs kv.1) cur hca kv.2
    have hwc1 : wfVal c1 = true := setAt_wf _ cur kv.2 c1 hwf hwr hpres hstep
    rw [List.pairwise_cons] at hpw
    have hprops2 : ∀ kv2 ∈ rest, splitCrumbs kv2.1 ≠ [] ∧
        canonAddr (splitCrumbs kv2.1) ∧
        canAssign c1 (splitCrumbs kv2.1) = true ∧
        (∃ old, valueAt c1 (splitCrumbs kv2.1) = some old) := by
      intro kv2 h2
      obtain ⟨hne2, hcan2, hca2, hpres2⟩ := hprops kv2 (List.mem_cons_of_mem kv h2)
      have hindep := hpw.1 kv2 h2
      refine ⟨hne2, hcan2, ?_, ?_⟩
      · rw [canAssign_frame (splitCrumbs kv.1) cur kv.2 c1 (splitCrumbs kv2.1)
          hstep hindep hcan hcan2]
        exact hca2
      · rw [setAt_frame (splitCrumbs kv.1) cur kv.2 c1 (splitCrumbs kv2.1)
          hstep hindep hcan hcan2]
        exact hpres2
    obtain ⟨w, hfold, hww, htr⟩ := ih c1 hwc1 hprops2 hpw.2
      (fun kv2 h2 => hinert kv2 (List.mem_cons_of_mem kv h2))
    refine ⟨w, ?_, hww, ?_⟩
    · rw [List.foldlM_cons, hstep]
      exact hfold
    · intro addr v h
      exact specMem_setAt hic hie hnm hstep (htr addr v h)

/-- `resolve` on a well-formed base whose placeholders are each either
matched by an inert context record through a committable breadcrumb or not
matched at all: the call succeeds, the result is well-formed, keeps the
record's kind, keeps every independent canonical address, and its remaining
placeholders are exactly original unmatched ones. -/
theorem resolve_mixed (base : Val) (ctx : List (String × Val))
    (hwf : wfVal base = true)
    (hm : ∀ kv ∈ unresolved_refs base,
      (canAssign base (splitCrumbs kv.1) = true ∧
        ∃ rep, matchCtx ctx kv.2 = some rep ∧ is_resolved rep = true ∧
          wfVal rep = true ∧ ∃ k2 fs2, rep = .dc k2 fs2) ∨
      matchCtx ctx kv.2 = none) :
    ∃ w, resolve base ctx = .ok w ∧ wfVal w = true ∧
      (∀ k fs, base = .dc k fs → ∃ fs2, w = .dc k fs2) ∧
      (∀ addr, canonAddr addr →
        (∀ kv ∈ unresolved_refs base, addrIndep (splitCrumbs kv.1) addr) →
        valueAt w addr = valueAt base addr) ∧
      (∀ kv' ∈ unresolved_refs w,
        kv' ∈ unresolved_refs base ∧ matchCtx ctx kv'.2 = none) := by
  have hLfacts : ∀ kvL ∈ resolvedOf base ctx,
      (splitCrumbs kvL.1 ≠ [] ∧ canonAddr (splitCrumbs kvL.1) ∧
       canAssign base (splitCrumbs kvL.1) = true ∧
       (∃ old, valueAt base (splitCrumbs kvL.1) = some old)) ∧
      (isColl kvL.2 = false ∧ is_unresolved_ref kvL.2 = false ∧
       wfVal kvL.2 = true ∧ ∀ a2 v2, ¬ SpecMem kvL.2 a2 v2) := by
    intro kvL hkvL
    obtain ⟨r, hmemU, hmc⟩ := mem_resolvedOf.mp hkvL
    obtain ⟨hne, hcan, hval, _⟩ := unresolved_entry_props hwf hmemU
    rcases hm (kvL.1, r) hmemU with
      ⟨hca, rep, hmc2, hres2, hwf2, k2, fs2, hrep⟩ | hnone
    · have hrk : kvL.2 = rep := Option.some.inj (hmc.symm.trans hmc2)
      have hdc : kvL.2 = .dc k2 fs2 := by rw [hrk]; exact hrep
      have hres3 : is_resolved kvL.2 = true := by rw [hrk]; exact hres2
      have hwf3 : wfVal kvL.2 = true := by rw [hrk]; exact hwf2
      have hcolspec : collectSpec kvL.2 = [] := by
        have hc1 : collect_unresolved_refs kvL.2 "" [] = [] :=
          (is_resolved_iff_collect_nil _).mp hres3
        rw [collect_eq_joined _ hwf3] at hc1
        exact List.map_eq_nil_iff.mp hc1
      refine ⟨⟨hne, hcan, hca, ⟨r, hval⟩⟩, ?_, ?_, hwf3, ?_⟩
      · rw [hdc]; rfl
      · rw [hdc]; rfl
      · intro a2 v2 hsm
        have : (a2, v2) ∈ collectSpec kvL.2 := (specMem_iff _ _ _).mp hsm
        rw [hcolspec] at this
        cases this
    · rw [hnone] at hmc
      cases hmc
  have hprops := fun kvL h => (hLfacts kvL h).1
  have hinert := fun kvL h => (hLfacts kvL h).2
  obtain ⟨w, hfold, hww, htr⟩ := foldlM_setAt_total (resolvedOf base ctx)
    base hwf hprops (resolvedOf_pairwise hwf) hinert
  have hparts := foldlM_setAt (resolvedOf base ctx) base w hfold
    (fun kvL h => ⟨(hprops kvL h).1, (hprops kvL h).2.1⟩)
    (resolvedOf_pairwise hwf)
  have hres : resolve base ctx = .ok w := by
    rw [resolve, get_resolved_eq hwf]
    exact hfold
  refine ⟨w, hres, hww, ?_, ?_, ?_⟩
  · intro k fs hbase
    refine foldlM_dc_shape (resolvedOf base ctx) k fs w ?_
      (fun kvL h => (hprops kvL h).1)
    rw [← hbase]
    exact hfold
  · intro addr hc hind
    refine hparts.2 addr hc ?_
    intro kvL hkvL
    obtain ⟨r, hmemU, _⟩ := mem_resolvedOf.mp hkvL
    simpa using hind (kvL.1, r) hmemU
  · intro kv' hkv'
    obtain ⟨hne', hcan', hval', hsm'⟩ := unresolved_entry_props hww hkv'
    have hsmb : SpecMem base (splitCrumbs kv'.1) kv'.2 := htr _ _ hsm'
    have hmemb : kv' ∈ unresolved_refs w → kv' ∈ unresolved_refs base := by
      intro _
      obtain ⟨addr0, hok0, hkey0, _⟩ := mem_unresolved_refs hww hkv'
      have hsp : splitCrumbs kv'.1 = addr0 := by
        rw [hkey0]
        exact splitCrumbs_joinCrumbs addr0 hok0.1 hok0.2
      rw [hsp] at hsmb
      have hcol : (addr0, kv'.2) ∈ collectSpec base := (specMem_iff _ _ _).mp hsmb
      have hjc : (joinCrumbs addr0, kv'.2) ∈ collect_unresolved_refs base "" [] := by
        rw [collect_eq_joined base hwf]
        exact List.mem_map_of_mem _ hcol
      rw [unresolved_refs, mem_sortLe]
      have he : kv' = (joinCrumbs addr0, kv'.2) := by
        rw [← hkey0]
      rw [he]
      exact hjc
    refine ⟨hmemb hkv', ?_⟩
    cases hmcc : matchCtx ctx kv'.2 with
    | none => rfl
    | some rep =>
      exfalso
      have hmemL : (kv'.1, rep) ∈ resolvedOf base ctx :=
        mem_resolvedOf.mpr ⟨kv'.2, by simpa using hmemb hkv', hmcc⟩
      have hv1 : valueAt w (splitCrumbs kv'.1) = some rep :=
        hparts.1 (kv'.1, rep) hmemL
      rw [hval'] at hv1
      injection hv1 with he2
      have heligr : is_unresolved_ref rep = false :=
        ((hLfacts (kv'.1, rep) hmemL).2).2.1
      have heligv := specMem_elig hsm'
      rw [he2, heligr] at heligv
      cases heligv

/-- C2 counterexample: the claim says every eligible unresolved reference
*reachable through the record's fields* appears in the returned map, with
composite field values recursed into.  But `collect_unresolved_refs` only
recurses into tuple/list elements: a composite held directly in a field (here
a `Target`-like value inside `exNested`'s `target` field, holding an eligible
reference in its `conditions` tuple) is skipped entirely, so the map comes
back empty although an eligible reference is reachable. -/
theorem C2_counterexample :
    collect_unresolved_refs exNested "" [] = [] ∧
    valueAt exNested ["target", "conditions", "0"]
      = some (.origin ["Upgrades", "P"]) ∧
    is_unresolved_ref (.origin ["Upgrades", "P"]) = true := ⟨rfl, rfl, rfl⟩

/-- C2 (amended): for a well-formed record, the map returned by
`collect_unresolved_refs` contains exactly the pairs described by the
declarative walk `SpecMem`: every field except `reference` is visited; an
ordered-collection field is recursed into element-wise with the index
appended to the breadcrumb; a field or element whose value is an eligible
unresolved reference is recorded under the dot-joined breadcrumb; and *only*
collection elements are recursed into — a composite value sitting directly
in a field is not entered, so references inside it are not discovered. -/
theorem C2_collect_characterization (obj : Val) (hwf : wfVal obj = true)
    (k : String) (v : Val) :
    (k, v) ∈ collect_unresolved_refs obj "" [] ↔
      ∃ addr, k = joinCrumbs addr ∧ SpecMem obj addr v := by
  rw [collect_eq_joined obj hwf, List.mem_map]
  constructor
  · rintro ⟨e, he, heq⟩
    injection heq with h1 h2
    refine ⟨e.1, h1.symm, (specMem_iff _ _ _).mpr ?_⟩
    rw [← h2]
    exact he
  · rintro ⟨addr, rfl, hsm⟩
    exact ⟨(addr, v), (specMem_iff _ _ _).mp hsm, rfl⟩

/-- C2 witness: the characterization applied to the wrapper `exW`, whose
single placeholder sits at breadcrumb `required_upgrades.0`. -/
theorem C2_witness :
    ∃ addr, "required_upgrades.0" = joinCrumbs addr ∧
      SpecMem exW addr (.origin ["Upgrades", "A"]) :=
  (C2_collect_characterization exW rfl "required_upgrades.0"
      (.origin ["Upgrades", "A"])).mp
    (by
      rw [show collect_unresolved_refs exW "" []
          = [("required_upgrades.0", Val.origin ["Upgrades", "A"])] from rfl]
      exact List.mem_singleton_self _)

/-- C4: `is_unresolved_ref(v)` holds iff `v` is an exact `Origin` (so records,
including the `Origin`-subclassing record types, are excluded), the string of
its canonical category path is not in the circular-reference allowlist, and
its category is a parsed category; and the parsed categories are a strict
subset of all categories. -/
theorem C4_is_unresolved_ref_charact :
    (∀ v : Val, is_unresolved_ref v = true ↔
      ∃ p, v = .origin p ∧
        pathStr (category_path p) ∉ CIRCULAR_REFS ∧
        category p ∈ PARSED_CATEGORIES) ∧
    (∀ k fs, is_unresolved_ref (.dc k fs) = false) ∧
    (∀ c, c ∈ PARSED_CATEGORIES → c ∈ CATEGORIES) ∧
    (∃ c, c ∈ CATEGORIES ∧ c ∉ PARSED_CATEGORIES) := by
  refine ⟨?_, ?_, ?_, ?_⟩
  · intro v
    cases v
    case origin p =>
      simp only [is_unresolved_ref]
      constructor
      · intro h
        by_cases hc : CIRCULAR_REFS.contains (pathStr (category_path p)) = true
        · rw [if_pos hc] at h; cases h
        · rw [if_neg hc] at h
          refine ⟨p, rfl, ?_, ?_⟩
          · intro hmem
            exact hc ((contains_iff_memS _ _).mpr hmem)
          · exact (contains_iff_memS _ _).mp h
      · rintro ⟨q, hq, hcirc, hcat⟩
        cases hq
        rw [if_neg (fun hc => hcirc ((contains_iff_memS _ _).mp hc))]
        exact (contains_iff_memS _ _).mpr hcat
    all_goals simp [is_unresolved_ref]
  · intro k fs; rfl
  · decide
  · exact ⟨"Actions", by decide, by decide⟩

/-- C4 witness: the characterization applied at a concrete eligible
reference. -/
theorem C4_witness :
    is_unresolved_ref (.origin ["Upgrades", "Foo"]) = true :=
  (C4_is_unresolved_ref_charact.1 (.origin ["Upgrades", "Foo"])).mpr
    ⟨["Upgrades", "Foo"], rfl, by decide, by decide⟩

/-- C9: `Parameter` construction succeeds exactly for type names registered in
`Parameter.TYPES`, and raises `TypeError` (so no `Parameter` object ever
exists and nothing reaches the resolution loop) for unregistered names. -/
theorem C9_parameter_registry (t : String) (v : Val) :
    (isOkE (mkParameter t v) = true ↔ t ∈ ParameterTYPES) ∧
    (t ∉ ParameterTYPES →
      mkParameter t v = .error (.typeError ("unrecognized parameter type: " ++ t))) := by
  constructor
  · by_cases h : ParameterTYPES.contains t = true
    · simp only [mkParameter, if_pos h, isOkE]
      simpa using (contains_iff_memS _ _).mp h
    · simp only [mkParameter, if_neg h, isOkE]
      constructor
      · intro hc; cases hc
      · intro hmem
        exact absurd ((contains_iff_memS _ _).mpr hmem) h
  · intro hmem
    simp only [mkParameter]
    rw [if_neg (fun hc => hmem ((contains_iff_memS _ _).mp hc))]

/-- C9 witness: the unregistered name `"bogusAttr"` is rejected with a
`TypeError`, while the registered name `"add"` constructs. -/
theorem C9_witness :
    mkParameter "bogusAttr" (.vint 1)
        = .error (.typeError "unrecognized parameter type: bogusAttr") ∧
    isOkE (mkParameter "add" (.vint 1)) = true :=
  ⟨(C9_parameter_registry "bogusAttr" (.vint 1)).2 (by decide),
   (C9_parameter_registry "add" (.vint 1)).1.mpr (by decide)⟩

/-- C8 counterexample: the claim asserts that *every* record type with an
identity path — `Building` included — rejects a mismatched category at
construction.  But `Building` defines no `__post_init__` of its own, so only
the inherited `Origin` membership check runs: a `Building` whose path derives
category `"Units"` (not `"Buildings"`) constructs successfully. -/
theorem C8_counterexample :
    mkBuilding ["Units", "Foo"] .vnone .vnone .vnone (.vtuple []) (.vtuple [])
        (.vtuple []) .vnone
      = .ok (.dc .building
          [("path", .vpath ["Units", "Foo"]), ("name", .vnone),
           ("description", .vnone), ("flavor", .vnone),
           ("modifiers", .vtuple []), ("actions", .vtuple []),
           ("traits", .vtuple []), ("required_upgrade", .vnone)]) ∧
    category ["Units", "Foo"] = "Units" := ⟨rfl, rfl⟩

/-- C8 (amended): `Upgrade`, `Trait`, `Weapon` and `Unit` enforce the match
between the declared type's category and the category derived from the
identity path (plus, for `Upgrade`, the tier range check); `Building` only
requires the derived category to be *some* known category, with no
`"Buildings"`-specific validation. -/
theorem C8_category_invariant_amended :
    (∀ p n d f r t dl ru, isOkE (mkUpgrade p n d f r t dl ru) = true ↔
      (category p = "Upgrades" ∧ (truthy t = true → tierInRange t = true))) ∧
    (∀ p n d f r m ru ty tc mr st,
      isOkE (mkTrait p n d f r m ru ty tc mr st) = true ↔ category p = "Traits") ∧
    (∀ p n d f r m ru tr ty ta c e,
      isOkE (mkWeapon p n d f r m ru tr ty ta c e) = true ↔ category p = "Weapons") ∧
    (∀ p n d f r m tr a ru g w dl pr,
      isOkE (mkUnit p n d f r m tr a ru g w dl pr) = true ↔ category p = "Units") ∧
    (∀ p n d f m a tr ru,
      isOkE (mkBuilding p n d f m a tr ru) = true ↔ category p ∈ CATEGORIES) := by
  refine ⟨?_, ?_, ?_, ?_, ?_⟩
  · intro p n d f r t dl ru
    simp only [mkUpgrade, origin_post_init, bind, Except.bind]
    by_cases h0 : CATEGORIES.contains (category p) = true
    · rw [if_pos h0]
      by_cases h1 : category p = "Upgrades"
      · rw [if_neg (by simpa using h1)]
        by_cases h2 : truthy t = true ∧ ¬tierInRange t = true
        · rw [if_pos h2]
          simp only [isOkE]
          constructor
          · intro hc; cases hc
          · rintro ⟨-, himp⟩
            exact absurd (himp h2.1) h2.2
        · rw [if_neg h2]
          simp only [isOkE, pure, Except.pure]
          constructor
          · intro _
            refine ⟨h1, fun ht => ?_⟩
            by_cases h3 : tierInRange t = true
            · exact h3
            · exact absurd ⟨ht, h3⟩ h2
          · intro _; trivial
      · rw [if_pos (by simpa using h1)]
        simp only [isOkE]
        constructor
        · intro hc; cases hc
        · rintro ⟨hcat, -⟩; exact absurd hcat h1
    · rw [if_neg h0]
      simp only [isOkE]
      constructor
      · intro hc; cases hc
      · rintro ⟨hcat, -⟩
        rw [hcat] at h0
        exact absurd (by decide) h0
  · intro p n d f r m ru ty tc mr st
    simp only [mkTrait, origin_post_init, bind, Except.bind]
    by_cases h0 : CATEGORIES.contains (category p) = true
    · rw [if_pos h0]
      by_cases h1 : category p = "Traits"
      · rw [if_neg (by simpa using h1)]
        simpa [isOkE, pure, Except.pure] using h1
      · rw [if_pos (by simpa using h1)]
        simpa [isOkE] using h1
    · rw [if_neg h0]
      simp only [isOkE]
      constructor
      · intro hc; cases hc
      · intro hcat
        rw [hcat] at h0
        exact absurd (by decide) h0
  · intro p n d f r m ru tr ty ta c e
    simp only [mkWeapon, origin_post_init, bind, Except.bind]
    by_cases h0 : CATEGORIES.contains (category p) = true
    · rw [if_pos h0]
      by_cases h1 : category p = "Weapons"
      · rw [if_neg (by simpa using h1)]
        simpa [isOkE, pure, Except.pure] using h1
      · rw [if_pos (by simpa using h1)]
        simpa [isOkE] using h1
    · rw [if_neg h0]
      simp only [isOkE]
      constructor
      · intro hc; cases hc
      · intro hcat
        rw [hcat] at h0
        exact absurd (by decide) h0
  · intro p n d f r m tr a ru g w dl pr
    simp only [mkUnit, origin_post_init, bind, Except.bind]
    by_cases h0 : CATEGORIES.contains (category p) = true
    · rw [if_pos h0]
      by_cases h1 : category p = "Units"
      · rw [if_neg (by simpa using h1)]
        simpa [isOkE, pure, Except.pure] using h1
      · rw [if_pos (by simpa using h1)]
        simpa [isOkE] using h1
    · rw [if_neg h0]
      simp only [isOkE]
      constructor
      · intro hc; cases hc
      · intro hcat
        rw [hcat] at h0
        exact absurd (by decide) h0
  · intro p n d f m a tr ru
    simp only [mkBuilding, origin_post_init, bind, Except.bind]
    by_cases h0 : CATEGORIES.contains (category p) = true
    · rw [if_pos h0]
      simp only [isOkE, pure, Except.pure]
      simpa using (contains_iff_memS _ _).mp h0
    · rw [if_neg h0]
      simp only [isOkE]
      constructor
      · intro hc; cases hc
      · intro hmem
        exact absurd ((contains_iff_memS _ _).mpr hmem) h0

/-- C8 witness: a mismatched `Upgrade` path is rejected, matching paths
construct, and a `Building` with a `"Units"` path is accepted by the weaker
check. -/
theorem C8_witness :
    isOkE (mkUpgrade ["Units", "U"] .vnone .vnone .vnone .vnone .vnone .vnone
        (.vtuple [])) = false ∧
    isOkE (mkUpgrade ["Upgrades", "U"] .vnone .vnone .vnone .vnone .vnone .vnone
        (.vtuple [])) = true ∧
    isOkE (mkBuilding ["Units", "Foo"] .vnone .vnone .vnone (.vtuple [])
        (.vtuple []) (.vtuple []) .vnone) = true := by
  refine ⟨?_, ?_, ?_⟩
  · have h := (C8_category_invariant_amended.1 ["Units", "U"] .vnone .vnone
      .vnone .vnone .vnone .vnone (.vtuple []))
    by_cases hc : isOkE (mkUpgrade ["Units", "U"] .vnone .vnone .vnone .vnone
        .vnone .vnone (.vtuple [])) = true
    · exact absurd (h.mp hc).1 (by decide)
    · simpa using hc
  · exact (C8_category_invariant_amended.1 ["Upgrades", "U"] .vnone .vnone
      .vnone .vnone .vnone .vnone (.vtuple [])).mpr ⟨rfl, by intro h; cases h⟩
  · exact (C8_category_invariant_amended.2.2.2.2 ["Units", "Foo"] .vnone .vnone
      .vnone (.vtuple []) (.vtuple []) (.vtuple []) .vnone).mpr (by decide)

/-- C5: with an empty unresolved worklist the `while stack` loop body never
runs, so `dereference` only repartitions the already-resolved context: the
result does not depend on the fuel (re-running the same call yields an
identical value), and every record in the five output lists is literally a
value of the input context — no record is mutated. -/
theorem C5_noop_on_resolved (fuel fuel' : Nat) (ctx : List (String × Val))
    (igs : List String)
    (_hres : ∀ kv ∈ ctx, is_resolved kv.2 = true) :
    dereference fuel ctx [] igs = .done (partitionOut ctx) ∧
    dereference fuel ctx [] igs = dereference fuel' ctx [] igs ∧
    (∀ v, (v ∈ (partitionOut ctx).upgrades ∨ v ∈ (partitionOut ctx).traits ∨
           v ∈ (partitionOut ctx).weapons ∨ v ∈ (partitionOut ctx).units ∨
           v ∈ (partitionOut ctx).buildings) → v ∈ ctx.map (·.2)) := by
  have hloop : ∀ n, derefLoop igs n ctx [] = .done ctx := by
    intro n; cases n <;> rfl
  refine ⟨?_, ?_, ?_⟩
  · simp [dereference, hloop]
  · simp [dereference, hloop]
  · intro v hv
    have : v ∈ ctx.map (·.2) := by
      rcases hv with h | h | h | h | h <;>
      · have hm := (mem_sortByStr _ _).mp (by simpa [partitionOut] using h)
        exact (List.mem_filter.mp hm).1
    exact this

/-- C5 witness: the theorem applied to the singleton fully-resolved context. -/
theorem C5_witness :
    dereference 3 [("Upgrades/A", exA)] [] [] =
      .done (partitionOut [("Upgrades/A", exA)]) ∧
    dereference 3 [("Upgrades/A", exA)] [] [] =
      dereference 7 [("Upgrades/A", exA)] [] [] :=
  ⟨(C5_noop_on_resolved 3 7 [("Upgrades/A", exA)] []
      (by intro kv hkv; simp at hkv; rw [hkv]; rfl)).1,
   (C5_noop_on_resolved 3 7 [("Upgrades/A", exA)] []
      (by intro kv hkv; simp at hkv; rw [hkv]; rfl)).2.1⟩

/-- C10: with non-empty `ignored_categories`, a not-fully-resolved
`UpgradeWrapper` whose every remaining placeholder has an ignored category
makes the loop take the ignored-categories promotion branch; there the
`obj.category_path` access is not protected by the try/except of the
fully-resolved branch, so the `AttributeError` escapes and the call fails. -/
theorem C10_wrapper_ignored_crash (igs : List String) (fuel : Nat)
    (ctx : List (String × Val)) (rest : List Val)
    (wfs wfs' : List (String × Val))
    (hig : igs ≠ [])
    (hres : resolve (.dc .upgradeWrapper wfs) ctx = .ok (.dc .upgradeWrapper wfs'))
    (hunres : is_resolved (.dc .upgradeWrapper wfs') = false)
    (hcats : (unresolved_refs (.dc .upgradeWrapper wfs')).all
      (fun kv => igs.contains (refCategory kv.2)) = true) :
    derefLoop igs (fuel + 1) ctx (.dc .upgradeWrapper wfs :: rest)
      = .err (.attributeError
          "'UpgradeWrapper' object has no attribute 'category_path'") := by
  have hne : igs.isEmpty = false := by
    cases igs with
    | nil => exact absurd rfl hig
    | cons a l => rfl
  simp only [derefLoop, hres, hunres, hne, hcats, Bool.not_false, Bool.and_self]
  rfl

/-- C10 witness: the crash observed on a concrete wrapper awaiting an absent
prerequisite, with `ignored_categories = ("Upgrades",)`. -/
theorem C10_witness :
    derefLoop ["Upgrades"] 3 [] [exW2]
      = .err (.attributeError
          "'UpgradeWrapper' object has no attribute 'category_path'") :=
  C10_wrapper_ignored_crash ["Upgrades"] 2 [] []
    [("upgrade", exB), ("required_upgrades", .vlist [.origin ["Upgrades", "Zed"]])]
    [("upgrade", exB), ("required_upgrades", .vlist [.origin ["Upgrades", "Zed"]])]
    (by intro h; cases h) rfl rfl rfl

/-- C7: on completion `dereference` partitions the final resolved context by
record kind into five lists (Upgrades, Traits, Weapons, Units, everything
else into Buildings), each sorted by the string form of the record's
identity path; every Upgrade value of the context appears in the upgrades
list, every Trait in the traits list, every Weapon in the weapons list and
every Unit in the units list, and each output list draws only values of the
context. -/
theorem C7_partition (fuel : Nat) (ctxIn : List (String × Val)) (un : List Val)
    (igs : List String) (ctx : List (String × Val))
    (hrun : derefLoop igs fuel ctxIn un = .done ctx) :
    dereference fuel ctxIn un igs = .done (partitionOut ctx) ∧
    (partitionOut ctx).upgrades.Pairwise (fun a b => valLeB a b = true) ∧
    (partitionOut ctx).traits.Pairwise (fun a b => valLeB a b = true) ∧
    (partitionOut ctx).weapons.Pairwise (fun a b => valLeB a b = true) ∧
    (partitionOut ctx).units.Pairwise (fun a b => valLeB a b = true) ∧
    (partitionOut ctx).buildings.Pairwise (fun a b => valLeB a b = true) ∧
    (∀ v ∈ ctx.map (·.2),
      (isKind .upgrade v = true → v ∈ (partitionOut ctx).upgrades) ∧
      (isKind .trait v = true → v ∈ (partitionOut ctx).traits) ∧
      (isKind .weapon v = true → v ∈ (partitionOut ctx).weapons) ∧
      (isKind .unit v = true → v ∈ (partitionOut ctx).units) ∧
      ((isKind .upgrade v || isKind .trait v || isKind .weapon v ||
        isKind .unit v) = false → v ∈ (partitionOut ctx).buildings)) ∧
    (∀ v ∈ (partitionOut ctx).upgrades,
      v ∈ ctx.map (·.2) ∧ isKind .upgrade v = true) ∧
    (∀ v ∈ (partitionOut ctx).traits,
      v ∈ ctx.map (·.2) ∧ isKind .trait v = true) ∧
    (∀ v ∈ (partitionOut ctx).weapons,
      v ∈ ctx.map (·.2) ∧ isKind .weapon v = true) ∧
    (∀ v ∈ (partitionOut ctx).units,
      v ∈ ctx.map (·.2) ∧ isKind .unit v = true) ∧
    (∀ v ∈ (partitionOut ctx).buildings, v ∈ ctx.map (·.2)) := by
  refine ⟨by simp [dereference, hrun], ?_, ?_, ?_, ?_, ?_, ?_, ?_, ?_, ?_, ?_, ?_⟩
  · exact sortByStr_sorted _
  · exact sortByStr_sorted _
  · exact sortByStr_sorted _
  · exact sortByStr_sorted _
  · exact sortByStr_sorted _
  · intro v hv
    refine ⟨?_, ?_, ?_, ?_, ?_⟩ <;>
    · intro hk
      simp only [partitionOut]
      rw [mem_sortByStr]
      exact List.mem_filter.mpr ⟨hv, by simp [hk]⟩
  · intro v hv
    have hm := (mem_sortByStr _ _).mp (by simpa [partitionOut] using hv)
    exact ⟨(List.mem_filter.mp hm).1, (List.mem_filter.mp hm).2⟩
  · intro v hv
    have hm := (mem_sortByStr _ _).mp (by simpa [partitionOut] using hv)
    exact ⟨(List.mem_filter.mp hm).1, (List.mem_filter.mp hm).2⟩
  · intro v hv
    have hm := (mem_sortByStr _ _).mp (by simpa [partitionOut] using hv)
    exact ⟨(List.mem_filter.mp hm).1, (List.mem_filter.mp hm).2⟩
  · intro v hv
    have hm := (mem_sortByStr _ _).mp (by simpa [partitionOut] using hv)
    exact ⟨(List.mem_filter.mp hm).1, (List.mem_filter.mp hm).2⟩
  · intro v hv
    have hm := (mem_sortByStr _ _).mp (by simpa [partitionOut] using hv)
    exact (List.mem_filter.mp hm).1

/-- C7 witness: the partition properties instantiated on the run that
resolves `exW` against the context holding `exA`. -/
theorem C7_witness :
    dereference 2 [("Upgrades/A", exA)] [exW] []
      = .done (partitionOut [("Upgrades/A", exA),
          ("Upgrades/B", .dc .upgrade
            [("path", .vpath ["Upgrades", "B"]), ("name", .vstr "B"),
             ("description", .vnone), ("flavor", .vnone), ("reference", .vnone),
             ("tier", .vint 2), ("dlc", .vnone),
             ("required_upgrades", .vtuple [exA])])]) :=
  (C7_partition 2 [("Upgrades/A", exA)] [exW] [] _ rfl).1

/-- C3 counterexample: the claim says `resolve` processes exactly the pairs
whose *canonical category path* has a context entry.  But `_get_resolved`
looks up `context.get(str(value))`, the placeholder's *full path string*.
For the eligible placeholder at `Upgrades/Foo.xml` the canonical category
path is `Upgrades/Foo` (the stem strips the suffix); with the context keyed
by that canonical path — exactly how `get_context` keys it — and holding a
truthy record, `resolve` still replaces nothing: the lookup misses. -/
theorem C3_counterexample :
    is_unresolved_ref (.origin ["Upgrades", "Foo.xml"]) = true ∧
    pathStr (category_path ["Upgrades", "Foo.xml"]) = "Upgrades/Foo" ∧
    strOfVal (.origin ["Upgrades", "Foo.xml"]) = "Upgrades/Foo.xml" ∧
    lookupD c3Ctx "Upgrades/Foo" = some c3Rep ∧
    truthy c3Rep = true ∧
    unresolved_refs c3Base = [("slot", .origin ["Upgrades", "Foo.xml"])] ∧
    resolve c3Base c3Ctx = .ok c3Base :=
  ⟨rfl, rfl, rfl, rfl, rfl, rfl, rfl⟩

/-- C3 (amended): for every well-formed base record and context map,
`resolve` processes exactly those breadcrumb→placeholder pairs of placeholder
discovery for which the context has a truthy entry at the placeholder's
*full path string* (`str(value)`, not its canonical category path): each such
pair's breadcrumb finally addresses the context's record, while a pair whose
full path string has no committed match is left in place unchanged. -/
theorem C3_resolve_characterization (base : Val) (ctx : List (String × Val))
    (w : Val) (hwf : wfVal base = true) (hres : resolve base ctx = .ok w) :
    ∀ kv ∈ unresolved_refs base,
      (∀ rep, matchCtx ctx kv.2 = some rep →
        valueAt w (splitCrumbs kv.1) = some rep) ∧
      (matchCtx ctx kv.2 = none →
        valueAt w (splitCrumbs kv.1) = some kv.2) := by
  rw [resolve, get_resolved_eq hwf] at hres
  have hprops : ∀ kv ∈ resolvedOf base ctx,
      splitCrumbs kv.1 ≠ [] ∧ canonAddr (splitCrumbs kv.1) := by
    intro kv hkv
    obtain ⟨r, hmem, _⟩ := mem_resolvedOf.mp hkv
    obtain ⟨h1, h2, _, _⟩ := unresolved_entry_props hwf hmem
    exact ⟨h1, h2⟩
  obtain ⟨hvals, hframe⟩ := foldlM_setAt (resolvedOf base ctx) base w hres
    hprops (resolvedOf_pairwise hwf)
  intro kv hkv
  constructor
  · intro rep hrep
    have hmemr : (kv.1, rep) ∈ resolvedOf base ctx :=
      mem_resolvedOf.mpr ⟨kv.2, by simpa using hkv, hrep⟩
    simpa using hvals (kv.1, rep) hmemr
  · intro hrep
    obtain ⟨hne, hcan, hval, _⟩ := unresolved_entry_props hwf hkv
    rw [hframe (splitCrumbs kv.1) hcan ?_]
    · exact hval
    · intro kv2 hkv2
      obtain ⟨r2, hmem2, hmc2⟩ := mem_resolvedOf.mp hkv2
      have hne2 : (kv2.1, r2) ≠ kv := by
        intro heq
        have hr2 : r2 = kv.2 := congrArg Prod.snd heq
        rw [hr2, hrep] at hmc2
        cases hmc2
      have hpw := List.Pairwise.forall
        (by intro a b h; exact addrIndep_symm h) (unresolved_pairwise hwf)
      simpa using hpw hmem2 hkv hne2

/-- C3 witness: the characterization applied to the concrete record whose
placeholder *is* matched when the context is keyed by the full path string:
the `slot` field ends up holding the context's record. -/
theorem C3_witness : valueAt c3Res ["slot"] = some c3Rep :=
  (C3_resolve_characterization c3Base c3Ctx2 c3Res rfl rfl
    ("slot", .origin ["Upgrades", "Foo.xml"])
    (show _ ∈ unresolved_refs c3Base from List.mem_cons_self _ _)).1
    c3Rep rfl

/-- C6: resolving a well-formed record never touches its identity: the result
is a record of the same kind, its `path` field (and hence its derived
category path) still holds the same path, and any canonical address
independent of every discovered placeholder breadcrumb — in particular every
field other than the addressed ones — keeps its prior value; only the
breadcrumb-addressed nested values are replaced. -/
theorem C6_identity_preservation (k : RKind) (fs : List (String × Val))
    (ctx : List (String × Val)) (w : Val) (p : List String)
    (hwf : wfVal (.dc k fs) = true)
    (hpath : ("path", .vpath p) ∈ fs)
    (hres : resolve (.dc k fs) ctx = .ok w) :
    (∃ fs2, w = .dc k fs2) ∧
    valueAt w ["path"] = some (.vpath p) ∧
    (∀ addr, canonAddr addr →
      (∀ kv ∈ unresolved_refs (.dc k fs), addrIndep (splitCrumbs kv.1) addr) →
      valueAt w addr = valueAt (.dc k fs) addr) := by
  rw [resolve, get_resolved_eq hwf] at hres
  have hprops : ∀ kv ∈ resolvedOf (.dc k fs) ctx,
      splitCrumbs kv.1 ≠ [] ∧ canonAddr (splitCrumbs kv.1) := by
    intro kv hkv
    obtain ⟨r, hmem, _⟩ := mem_resolvedOf.mp hkv
    obtain ⟨h1, h2, _, _⟩ := unresolved_entry_props hwf hmem
    exact ⟨h1, h2⟩
  obtain ⟨hvals, hframe⟩ := foldlM_setAt (resolvedOf (.dc k fs) ctx)
    (.dc k fs) w hres hprops (resolvedOf_pairwise hwf)
  have hframe2 : ∀ addr, canonAddr addr →
      (∀ kv ∈ unresolved_refs (.dc k fs), addrIndep (splitCrumbs kv.1) addr) →
      valueAt w addr = valueAt (.dc k fs) addr := by
    intro addr hc hind
    refine hframe addr hc ?_
    intro kv hkv
    obtain ⟨r, hmem, _⟩ := mem_resolvedOf.mp hkv
    simpa using hind (kv.1, r) hmem
  refine ⟨?_, ?_, hframe2⟩
  · exact foldlM_dc_shape (resolvedOf (.dc k fs) ctx) k fs w hres
      (fun kv hkv => (hprops kv hkv).1)
  · have hwff : wfFields fs = true := by rw [wfVal_dc] at hwf; exact hwf
    have hind : ∀ kv ∈ unresolved_refs (.dc k fs),
        addrIndep (splitCrumbs kv.1) ["path"] := by
      intro kv hkv
      obtain ⟨_, _, _, hmemS⟩ := unresolved_entry_props hwf hkv
      obtain ⟨n, rest, cv, haddr, hmemf, hdisj⟩ := specMem_head hmemS
      rw [haddr]
      refine addrIndep_of_head_ne ?_
      intro hn
      have h1 := wfFields_lookup hwff hmemf
      have h2 := wfFields_lookup hwff hpath
      rw [hn, h2] at h1
      injection h1 with hcv
      rcases hdisj with helig | ⟨items, hcoll⟩
      · rw [← hcv] at helig
        have hfalse : is_unresolved_ref (Val.vpath p) = false := rfl
        rw [hfalse] at helig
        cases helig
      · rcases hcoll with hcv2 | hcv2 <;> (rw [← hcv] at hcv2; cases hcv2)
    rw [hframe2 ["path"]
      (fun t ht => by
        rcases List.mem_singleton.mp ht with rfl
        intro hdig
        exact absurd hdig (by decide))
      hind]
    rw [valueAt_cons_dc k fs "path" [] (by decide), wfFields_lookup hwff hpath]
    rfl

/-- C6 witness: resolving the concrete record replaces its `slot` placeholder
but the `path` field still holds the record's identity path. -/
theorem C6_witness : valueAt c3Res ["path"] = some (.vpath ["Units", "U"]) :=
  (C6_identity_preservation .unit c3Fields c3Ctx2 c3Res ["Units", "U"] rfl
    (List.mem_cons_self _ _) rfl).2.1

/-! ### One-pass runs of the `while stack` loop -/

theorem derefLoop_nil (igs : List String) (fuel : Nat)
    (ctx : List (String × Val)) : derefLoop igs fuel ctx [] = .done ctx := by
  cases fuel <;> rfl

theorem derefLoop_cons_resolved (igs : List String) (fuel : Nat)
    (ctx : List (String × Val)) (obj : Val) (rest : List Val) (obj' : Val)
    (cp : List String) (hres : resolve obj ctx = .ok obj')
    (hr : is_resolved obj' = true) (hcp : categoryPathOf obj' = .ok cp) :
    derefLoop igs (fuel + 1) ctx (obj :: rest)
      = derefLoop igs fuel (insertD ctx (pathStr cp) obj') rest := by
  simp only [derefLoop, hres, hr, hcp]
  rw [if_pos trivial]

theorem derefLoop_cons_ignored (igs : List String) (fuel : Nat)
    (ctx : List (String × Val)) (obj : Val) (rest : List Val) (obj' : Val)
    (cp : List String) (hres : resolve obj ctx = .ok obj')
    (hr : is_resolved obj' = false) (hne : igs.isEmpty = false)
    (hall : (unresolved_refs obj').all
      (fun kv => igs.contains (refCategory kv.2)) = true)
    (hcp : categoryPathOf obj' = .ok cp) :
    derefLoop igs (fuel + 1) ctx (obj :: rest)
      = derefLoop igs fuel (insertD ctx (pathStr cp) obj') rest := by
  simp only [derefLoop, hres, hr, hne, hall, hcp, Bool.not_false, Bool.and_self]
  rw [if_neg (by simp), if_pos trivial]

theorem derefLoop_cons_wrapper (igs : List String) (fuel : Nat)
    (ctx : List (String × Val)) (obj : Val) (rest : List Val) (obj' : Val)
    (msg : String) (kv : String × Val) (hres : resolve obj ctx = .ok obj')
    (hr : is_resolved obj' = true)
    (hcp : categoryPathOf obj' = .error (.attributeError msg))
    (hsub : containsSub "UpgradeWrapper" msg = true)
    (hwp : wrapperPromote obj' = .ok kv) :
    derefLoop igs (fuel + 1) ctx (obj :: rest)
      = derefLoop igs fuel (insertD ctx kv.1 kv.2) rest := by
  simp only [derefLoop, hres, hr, hcp, hsub, hwp]
  rw [if_pos trivial, if_pos trivial]

theorem onePassCtx_cons_resolved (igs : List String)
    (ctx : List (String × Val)) (obj : Val) (rest : List Val) (obj' : Val)
    (cp : List String) (hres : resolve obj ctx = .ok obj')
    (hr : is_resolved obj' = true) (hcp : categoryPathOf obj' = .ok cp) :
    onePassCtx igs ctx (obj :: rest)
      = onePassCtx igs (insertD ctx (pathStr cp) obj') rest := by
  simp only [onePassCtx, hres, hr, hcp]
  rw [if_pos trivial]

theorem onePassCtx_cons_wrapper (igs : List String)
    (ctx : List (String × Val)) (obj : Val) (rest : List Val) (obj' : Val)
    (msg : String) (kv : String × Val) (hres : resolve obj ctx = .ok obj')
    (hr : is_resolved obj' = true)
    (hcp : categoryPathOf obj' = .error (.attributeError msg))
    (hsub : containsSub "UpgradeWrapper" msg = true)
    (hwp : wrapperPromote obj' = .ok kv) :
    onePassCtx igs ctx (obj :: rest)
      = onePassCtx igs (insertD ctx kv.1 kv.2) rest := by
  simp only [onePassCtx, hres, hr, hcp, hsub, hwp]
  rw [if_pos trivial, if_pos trivial]

theorem onePassCtx_cons_ignored (igs : List String)
    (ctx : List (String × Val)) (obj : Val) (rest : List Val) (obj' : Val)
    (cp : List String) (hres : resolve obj ctx = .ok obj')
    (hr : is_resolved obj' = false) (hne : igs.isEmpty = false)
    (hall : (unresolved_refs obj').all
      (fun kv => igs.contains (refCategory kv.2)) = true)
    (hcp : categoryPathOf obj' = .ok cp) :
    onePassCtx igs ctx (obj :: rest)
      = onePassCtx igs (insertD ctx (pathStr cp) obj') rest := by
  simp only [onePassCtx, hres, hr, hne, hall, hcp, Bool.not_false,
    Bool.and_self]
  rw [if_neg (by simp), if_pos trivial]

theorem categoryPathOf_dc_origin (k : RKind) (fs : List (String × Val))
    (p : List String) (hko : k ∈ originKinds)
    (hpath : lookupD fs "path" = some (.vpath p)) :
    categoryPathOf (.dc k fs) = .ok (category_path p) := by
  simp only [categoryPathOf]
  rw [if_pos hko, hpath]

theorem categoryPathOf_wrapper (fs : List (String × Val)) :
    categoryPathOf (.dc .upgradeWrapper fs)
      = .error (.attributeError
        "'UpgradeWrapper' object has no attribute 'category_path'") := by
  simp only [categoryPathOf]
  rw [if_neg (by decide)]
  rfl

/-- One-pass convergence of the `while stack` loop: when each remaining
record, at the moment its turn comes, is a good record against the context
built so far, the loop never re-queues: it finishes with fuel equal to the
batch length at exactly the one-pass context, and every record of that
context is fully resolved or has only ignored-category placeholders left. -/
theorem derefLoop_good_pass (igs : List String) :
    ∀ (unres : List Val) (ctx : List (String × Val)),
      (∀ p ∈ ctx, is_resolved p.2 = true ∨
        (unresolved_refs p.2).all
          (fun kv => igs.contains (refCategory kv.2)) = true) →
      (∀ pre obj post, unres = pre ++ obj :: post →
        goodRecord igs (onePassCtx igs ctx pre) obj) →
      derefLoop igs unres.length ctx unres = .done (onePassCtx igs ctx unres) ∧
      (∀ p ∈ onePassCtx igs ctx unres, is_resolved p.2 = true ∨
        (unresolved_refs p.2).all
          (fun kv => igs.contains (refCategory kv.2)) = true) := by
  intro unres
  induction unres with
  | nil =>
    intro ctx hctx _
    exact ⟨derefLoop_nil igs 0 ctx, hctx⟩
  | cons obj rest ih =>
    intro ctx hctx hrec
    have hgood : goodRecord igs ctx obj := hrec [] obj rest rfl
    rw [List.length_cons]
    rcases hgood with ⟨k, fs, p, hobj, hko, hpath, hwf, hplc⟩ |
      ⟨fs, hobj, hwf, hplc, hprom⟩
    · have hm : ∀ kv ∈ unresolved_refs obj,
          (canAssign obj (splitCrumbs kv.1) = true ∧
            ∃ rep, matchCtx ctx kv.2 = some rep ∧ is_resolved rep = true ∧
              wfVal rep = true ∧ ∃ k2 fs2, rep = .dc k2 fs2) ∨
          matchCtx ctx kv.2 = none := by
        intro kv hkv
        rcases hplc kv hkv with ⟨hca, rep, hmc, hsr⟩ | ⟨_, hnone, _⟩
        · exact Or.inl ⟨hca, rep, hmc, hsr.1, hsr.2.1, hsr.2.2⟩
        · exact Or.inr hnone
      obtain ⟨w, hres, hww, hshape, hframe, hleft⟩ := resolve_mixed obj ctx hwf hm
      obtain ⟨fs2, hw⟩ := hshape k fs hobj
      have hwff : wfFields fs = true := by
        rw [hobj, wfVal_dc] at hwf
        exact hwf
      have hind : ∀ kv ∈ unresolved_refs obj,
          addrIndep (splitCrumbs kv.1) ["path"] := by
        intro kv hkv
        obtain ⟨_, _, _, hmemS⟩ := unresolved_entry_props hwf hkv
        rw [hobj] at hmemS
        obtain ⟨n, rest2, cv, haddr, hmemf, hdisj⟩ := specMem_head hmemS
        rw [haddr]
        refine addrIndep_of_head_ne ?_
        intro hn
        have h1 := wfFields_lookup hwff hmemf
        rw [hn, hpath] at h1
        injection h1 with hcv
        rcases hdisj with helig | ⟨items, hcoll⟩
        · rw [← hcv] at helig
          have hfalse : is_unresolved_ref (Val.vpath p) = false := rfl
          rw [hfalse] at helig
          cases helig
        · rcases hcoll with hcv2 | hcv2 <;> (rw [← hcv] at hcv2; cases hcv2)
      have hvalw : valueAt w ["path"] = some (.vpath p) := by
        rw [hframe ["path"]
          (fun t ht => by
            rcases List.mem_singleton.mp ht with rfl
            intro hdig
            exact absurd hdig (by decide))
          hind]
        rw [hobj, valueAt_cons_dc k fs "path" [] (by decide), hpath]
        rfl
      have hpath2 : lookupD fs2 "path" = some (.vpath p) := by
        have h2 : valueAt (.dc k fs2) ["path"] = some (.vpath p) := by
          rw [← hw]
          exact hvalw
        rw [valueAt_cons_dc k fs2 "path" [] (by decide)] at h2
        cases hl : lookupD fs2 "path" with
        | none =>
          rw [hl] at h2
          cases h2
        | some sub =>
          rw [hl] at h2
          have h3 : some sub = some (Val.vpath p) := h2
          injection h3
      have hcp : categoryPathOf w = .ok (category_path p) := by
        rw [hw]
        exact categoryPathOf_dc_origin k fs2 p hko hpath2
      by_cases hrw : is_resolved w = true
      · rw [derefLoop_cons_resolved igs rest.length ctx obj rest w
            (category_path p) hres hrw hcp,
          onePassCtx_cons_resolved igs ctx obj rest w (category_path p)
            hres hrw hcp]
        refine ih (insertD ctx (pathStr (category_path p)) w) ?_ ?_
        · intro q hq
          rcases mem_insertD hq with hqm | hqe
          · exact hctx q hqm
          · rw [hqe]
            exact Or.inl hrw
        · intro pre obj2 post h2
          have h3 := hrec (obj :: pre) obj2 post (by rw [h2]; rfl)
          rw [onePassCtx_cons_resolved igs ctx obj pre w (category_path p)
            hres hrw hcp] at h3
          exact h3
      · have hrwf : is_resolved w = false := by
          revert hrw
          cases is_resolved w <;> simp
        have hne : unresolved_refs w ≠ [] := by
          intro h0
          have h1 : (unresolved_refs w).isEmpty = false := hrwf
          rw [h0] at h1
          simp at h1
        obtain ⟨kv0, hkv0⟩ := List.exists_mem_of_ne_nil _ hne
        have hig : igs ≠ [] := by
          obtain ⟨hmemb, hnone⟩ := hleft kv0 hkv0
          rcases hplc kv0 hmemb with ⟨_, rep, hmc, _⟩ | ⟨hig, _, _⟩
          · rw [hnone] at hmc
            cases hmc
          · exact hig
        have hnei : igs.isEmpty = false := by
          cases igs with
          | nil => exact absurd rfl hig
          | cons a l => rfl
        have hall : (unresolved_refs w).all
            (fun kv => igs.contains (refCategory kv.2)) = true := by
          rw [List.all_eq_true]
          intro kv hkv
          obtain ⟨hmemb, hnone⟩ := hleft kv hkv
          rcases hplc kv hmemb with ⟨_, rep, hmc, _⟩ | ⟨_, _, hcont⟩
          · rw [hnone] at hmc
            cases hmc
          · exact hcont
        rw [derefLoop_cons_ignored igs rest.length ctx obj rest w
            (category_path p) hres hrwf hnei hall hcp,
          onePassCtx_cons_ignored igs ctx obj rest w (category_path p)
            hres hrwf hnei hall hcp]
        refine ih (insertD ctx (pathStr (category_path p)) w) ?_ ?_
        · intro q hq
          rcases mem_insertD hq with hqm | hqe
          · exact hctx q hqm
          · rw [hqe]
            exact Or.inr hall
        · intro pre obj2 post h2
          have h3 := hrec (obj :: pre) obj2 post (by rw [h2]; rfl)
          rw [onePassCtx_cons_ignored igs ctx obj pre w (category_path p)
            hres hrwf hnei hall hcp] at h3
          exact h3
    · have hm : ∀ kv ∈ unresolved_refs obj,
          (canAssign obj (splitCrumbs kv.1) = true ∧
            ∃ rep, matchCtx ctx kv.2 = some rep ∧ is_resolved rep = true ∧
              wfVal rep = true ∧ ∃ k2 fs2, rep = .dc k2 fs2) ∨
          matchCtx ctx kv.2 = none := by
        intro kv hkv
        obtain ⟨hca, rep, hmc, hsr⟩ := hplc kv hkv
        exact Or.inl ⟨hca, rep, hmc, hsr.1, hsr.2.1, hsr.2.2⟩
      obtain ⟨w, hres, hww, hshape, hframe, hleft⟩ := resolve_mixed obj ctx hwf hm
      obtain ⟨fs2, hw⟩ := hshape .upgradeWrapper fs hobj
      have hrw : is_resolved w = true := by
        have hempty : unresolved_refs w = [] := by
          cases h0 : unresolved_refs w with
          | nil => rfl
          | cons kv0 l0 =>
            exfalso
            have hkv0 : kv0 ∈ unresolved_refs w := by
              rw [h0]
              exact List.mem_cons_self _ _
            obtain ⟨hmemb, hnone⟩ := hleft kv0 hkv0
            obtain ⟨_, rep, hmc, _⟩ := hplc kv0 hmemb
            rw [hnone] at hmc
            cases hmc
        have h1 : (unresolved_refs w).isEmpty = true := by
          rw [hempty]
          rfl
        exact h1
      have hcp : categoryPathOf w = .error (.attributeError
          "'UpgradeWrapper' object has no attribute 'category_path'") := by
        rw [hw]
        exact categoryPathOf_wrapper fs2
      obtain ⟨kv2, hwp, hres2⟩ := hprom w hres
      rw [derefLoop_cons_wrapper igs rest.length ctx obj rest w _ kv2
          hres hrw hcp (by decide) hwp,
        onePassCtx_cons_wrapper igs ctx obj rest w _ kv2
          hres hrw hcp (by decide) hwp]
      refine ih (insertD ctx kv2.1 kv2.2) ?_ ?_
      · intro q hq
        rcases mem_insertD hq with hqm | hqe
        · exact hctx q hqm
        · rw [hqe]
          exact Or.inl hres2
      · intro pre obj2 post h2
        have h3 := hrec (obj :: pre) obj2 post (by rw [h2]; rfl)
        rw [onePassCtx_cons_wrapper igs ctx obj pre w _ kv2
          hres hrw hcp (by decide) hwp] at h3
        exact h3

/-- C1 counterexample: the claimed convergence fails.  A batch holding one
record with a single *eligible* dangling reference — no reference cycles at
all, so the allowlist hypothesis holds vacuously — and no ignored categories
never finishes: each pass resolves nothing and re-queues the record, so the
loop spins for every fuel bound. -/
theorem C1_counterexample :
    is_unresolved_ref (.origin ["Upgrades", "Nowhere"]) = true ∧
    ∀ fuel, derefLoop [] fuel [] [c1Bad] = .spin ∧
      dereference fuel [] [c1Bad] [] = .spin := by
  have hspin : ∀ fuel, derefLoop [] fuel [] [c1Bad] = .spin := by
    intro fuel
    induction fuel with
    | zero => rfl
    | succ n ih =>
      have hstep : derefLoop [] (n + 1) [] [c1Bad]
          = derefLoop [] n [] [c1Bad] := rfl
      rw [hstep]
      exact ih
  refine ⟨rfl, fun fuel => ⟨hspin fuel, ?_⟩⟩
  rw [dereference, hspin fuel]

/-- C1 (amended): convergence holds for one-pass batches with actual
dereferencing.  Suppose every record of the initial resolved context is fully
resolved or keeps only ignored-category placeholders, and each batch record,
at the moment its turn comes (against the context as built by the records
before it), either is an identity-path record each of whose placeholders is
matched by a settled context record through a committable breadcrumb or —
with a non-empty ignored-category stage — is unmatched with an ignored
category, or is an `UpgradeWrapper` with every placeholder matched and a
working `to_upgrade` promotion.  Then `dereference` terminates with fuel
equal to the batch length: each record has its matched placeholders replaced
and is promoted in one pass (plain records under their category path,
wrappers through the `except AttributeError` conversion), and every record of
the final context (hence of the five output lists) has an
unresolved-placeholder set that is empty or drawn entirely from
`ignored_categories`. -/
theorem C1_one_pass (igs : List String) (ctx : List (String × Val))
    (unres : List Val)
    (hctx : ∀ p ∈ ctx, is_resolved p.2 = true ∨
      (unresolved_refs p.2).all
        (fun kv => igs.contains (refCategory kv.2)) = true)
    (hrec : ∀ pre obj post, unres = pre ++ obj :: post →
      goodRecord igs (onePassCtx igs ctx pre) obj) :
    derefLoop igs unres.length ctx unres = .done (onePassCtx igs ctx unres) ∧
    dereference unres.length ctx unres igs
      = .done (partitionOut (onePassCtx igs ctx unres)) ∧
    ∀ p ∈ onePassCtx igs ctx unres,
      is_resolved p.2 = true ∨
      (unresolved_refs p.2).all
        (fun kv => igs.contains (refCategory kv.2)) = true := by
  have haux := derefLoop_good_pass igs unres ctx hctx hrec
  refine ⟨haux.1, ?_, haux.2⟩
  rw [dereference, haux.1]

/-- C1 witness: the amended convergence applied to a concrete batch that
actually dereferences — an `UpgradeWrapper` whose placeholder is replaced by
the context's settled `Upgrades/A` record and which is then promoted through
`to_upgrade`, followed by a record whose only placeholder is a dangling
reference in the ignored `Upgrades` category: the loop finishes in one pass
with the converted upgrade and the stuck record in the final context. -/
theorem C1_witness :
    derefLoop ["Upgrades"] 2 [("Upgrades/A", exA)] [exW, c1Ign]
      = .done [("Upgrades/A", exA), ("Upgrades/B", convB),
          ("Units/W", c1Ign)] ∧
    dereference 2 [("Upgrades/A", exA)] [exW, c1Ign] ["Upgrades"]
      = .done (partitionOut [("Upgrades/A", exA), ("Upgrades/B", convB),
          ("Units/W", c1Ign)]) ∧
    (is_resolved convB = true ∨
      (unresolved_refs convB).all
        (fun kv => (["Upgrades"] : List String).contains (refCategory kv.2))
        = true) ∧
    (is_resolved c1Ign = true ∨
      (unresolved_refs c1Ign).all
        (fun kv => (["Upgrades"] : List String).contains (refCategory kv.2))
        = true) := by
  have h := C1_one_pass ["Upgrades"] [("Upgrades/A", exA)] [exW, c1Ign]
    (fun p hp => by
      rcases List.mem_singleton.mp hp with rfl
      exact Or.inl rfl)
    (by
      intro pre obj post h
      cases pre with
      | nil =>
        rw [List.nil_append] at h
        injection h with h1 h2
        subst h1
        refine Or.inr ⟨_, rfl, rfl, ?_, ?_⟩
        · intro kv hkv
          rw [show unresolved_refs exW
              = [("required_upgrades.0", Val.origin ["Upgrades", "A"])]
            from rfl] at hkv
          rcases List.mem_singleton.mp hkv with rfl
          exact ⟨rfl, exA, rfl, rfl, rfl, .upgrade, _, rfl⟩
        · intro w hw
          have hw2 : w = Val.dc .upgradeWrapper
              [("upgrade", exB), ("required_upgrades", .vlist [exA])] := by
            have h3 : (Except.ok (Val.dc .upgradeWrapper
                [("upgrade", exB), ("required_upgrades", .vlist [exA])])
                : Except PyErr Val) = .ok w := by
              rw [← hw]
              rfl
            injection h3 with h4
            exact h4.symm
          subst hw2
          exact ⟨("Upgrades/B", convB), rfl, rfl⟩
      | cons a pre2 =>
        rw [List.cons_append] at h
        injection h with h1 h2
        subst h1
        cases pre2 with
        | nil =>
          rw [List.nil_append] at h2
          injection h2 with h3 h4
          subst h3
          rw [show onePassCtx ["Upgrades"] [("Upgrades/A", exA)] [exW]
              = [("Upgrades/A", exA), ("Upgrades/B", convB)] from rfl]
          refine Or.inl ⟨.unit, _, ["Units", "W"], rfl, by decide, rfl, rfl,
            ?_⟩
          intro kv hkv
          rw [show unresolved_refs c1Ign
              = [("slot", Val.origin ["Upgrades", "Nowhere"])] from rfl] at hkv
          rcases List.mem_singleton.mp hkv with rfl
          exact Or.inr ⟨(by intro h0; cases h0), rfl, rfl⟩
        | cons b pre3 =>
          rw [List.cons_append] at h2
          injection h2 with h3 h4
          simp at h4)
  rw [show onePassCtx ["Upgrades"] [("Upgrades/A", exA)] [exW, c1Ign]
      = [("Upgrades/A", exA), ("Upgrades/B", convB), ("Units/W", c1Ign)]
    from rfl] at h
  refine ⟨h.1, h.2.1, ?_, ?_⟩
  · exact h.2.2 ("Upgrades/B", convB)
      (List.mem_cons_of_mem _ (List.mem_cons_self _ _))
  · exact h.2.2 ("Units/W", c1Ign)
      (List.mem_cons_of_mem _ (List.mem_cons_of_mem _
        (List.mem_cons_self _ _)))

end Gladiunits
